import Mathlib

/-!
# Shortest-path search, sorting and coin change

A shallow embedding of `dijkstra`, `dijkstraAll` (dijkstra.hpp) and `aStar`
(a_star.hpp), of `mergeSort` and `quickSort` (ordena.cpp) and of `dpChange`
(dp.hpp), followed by the properties proved about them.

Conventions of the embedding.
* A C++ `int` is an `Int`; the result of an addition or multiplication of
  values is reduced to the 32-bit two's-complement range by `wrapInt`.
* A `vector` indexed by `int` is a total function on `Int` (or on pairs, for a
  vector of vectors) together with its size; every read and write is guarded
  by its bounds, and an access outside them ends the run with
  `Failure.memoryFault`.  The size of a vector is taken to fit in an `int`, and
  the arithmetic on indices and loop counters bounded by a size is not reduced.
* The priority queue `MinHeap`, whose header is not among the sources, is a
  parameter of the algorithms; the statements assume the laws `IsMinQueue` of a
  min-ordered queue and the examples are evaluated on the list queue
  `listHeap`.
* Loops and recursions run on a fuel counter computed from the input; running
  out of it is the outcome `Failure.outOfFuel`, which the statements show does
  not occur.
* Lists named `used` or `calls` record the indices at which a vector is
  accessed; they are ghost values, not part of the program.
-/

namespace ShortestPath

/-! ## Machine integers and outcomes -/

/-- The largest 32-bit signed integer, `INT_MAX`. -/
def INT_MAX : Int := 2147483647

/-- Reduction of an integer to the 32-bit two's-complement range. -/
def wrapInt (x : Int) : Int := (x + 2147483648) % 4294967296 - 2147483648

/-- The ways a run can end without a value: the two exceptions thrown by
`dijkstra` (`std::out_of_range` and `std::invalid_argument`), an access outside
a vector or a division by zero (undefined behaviour in C++), exhaustion of
the loop fuel, and the exception `std::length_error` of a vector constructed
with a size above `max_size()`. -/
inductive Failure where
  | outOfRange
  | invalidArgument
  | memoryFault
  | outOfFuel
  | lengthError
  deriving DecidableEq, Repr

instance instDecidableEqExcept {ε α : Type} [DecidableEq ε] [DecidableEq α] :
    DecidableEq (Except ε α)
  | .ok a, .ok b => if h : a = b then isTrue (by rw [h]) else isFalse (by simp [h])
  | .error a, .error b => if h : a = b then isTrue (by rw [h]) else isFalse (by simp [h])
  | .ok _, .error _ => isFalse (by simp)
  | .error _, .ok _ => isFalse (by simp)

/-! ## The priority structure -/

/-- Modelled from the spec: `MinHeap` is declared in `types.hpp`, which is not
among the sources.  The spec describes it as a min-ordered queue keyed by the
tentative cost, which accepts duplicate entries and breaks ties arbitrarily.
It is a parameter of the algorithms: a type `Q` of queues with the empty
queue, `push`, and `pop`, which returns the top entry together with the queue
left by its removal (`mh.top()` followed by `mh.pop()`), or `none` on an empty
queue (`mh.empty()`).  The field `entries` lists the entries a queue holds; it
serves the statements only and is never called by the algorithms. -/
structure MinHeap (α : Type) where
  Q : Type
  empty : Q
  push : Q → α → Q
  pop : Q → Option (α × Q)
  entries : Q → List α

/-- Modelled from the spec: the laws of the min-ordered queue.  The empty queue
holds nothing, `push` adds the entry, `pop` answers `none` only on a queue that
holds nothing, and otherwise removes one entry whose key is least among the
entries held (any one of them when several are least). -/
structure IsMinQueue {α : Type} (H : MinHeap α) (key : α → Int) : Prop where
  entries_empty : H.entries H.empty = []
  entries_push : ∀ q e, (H.entries (H.push q e)).Perm (e :: H.entries q)
  pop_none : ∀ q, H.pop q = none → H.entries q = []
  pop_some : ∀ q e q1, H.pop q = some (e, q1) →
    (H.entries q).Perm (e :: H.entries q1) ∧ ∀ x ∈ H.entries q, key e ≤ key x

/-- Removal of an entry of least key from a list of entries: the first one in
the list among equals, returned with the remaining entries; `none` on the empty
list. -/
def popMin {α : Type} (key : α → Int) : List α → Option (α × List α)
  | [] => none
  | e :: es =>
    match popMin key es with
    | none => some (e, [])
    | some (m, rest) => if key e ≤ key m then some (e, es) else some (m, e :: rest)

/-- The min-ordered queue kept as the list of its entries, the most recent
first; it is the queue on which the examples are evaluated. -/
def listHeap {α : Type} (key : α → Int) : MinHeap α where
  Q := List α
  empty := []
  push := fun q e => e :: q
  pop := popMin key
  entries := fun q => q

/-! ## Dijkstra -/

/-- Modelled from the spec: `Graph` is declared in `data_structs.hpp`, which is
not among the sources.  `dijkstra` reads only its field `adj_list`, a vector
with one entry per node holding the `(neighbourId, weight)` pairs of the edges
leaving that node. -/
structure Graph where
  adj_list : List (List (Int × Int))
  deriving Repr

/-- The edges leaving node `a` (`graph.adj_list[a]`). -/
def Graph.edgesOf (g : Graph) (a : Int) : List (Int × Int) :=
  g.adj_list.getD a.toNat []

/-- The number of edges of the graph. -/
def Graph.edgeCount (g : Graph) : Nat :=
  (g.adj_list.map List.length).sum

/-- The state of the main loop of `dijkstra`: the tables `d` and `visited`
and the queue `mh` of `{nodeID, distance}` entries. -/
structure DState (Q : Type) where
  d : Int → Int
  visited : Int → Bool
  mh : Q

/-- The `for` loop over the neighbours of the current node `a`
(dijkstra.hpp lines 57-69), on the table `d` and the queue `mh`. -/
def relaxEdges (H : MinHeap (Int × Int)) (n : Int) (a : Int) :
    List (Int × Int) → (Int → Int) × H.Q → Except Failure ((Int → Int) × H.Q)
  | [], s => .ok s
  | (v, weight) :: es, (d, mh) =>
    if 0 ≤ v ∧ v < n then
      let greedyDistance := wrapInt (d a + weight)
      if d v > greedyDistance then
        let d1 := Function.update d v (wrapInt (d a + weight))
        relaxEdges H n a es (d1, H.push mh (v, d1 v))
      else relaxEdges H n a es (d, mh)
    else .error .memoryFault

/-- One iteration of the `while (!mh.empty())` loop of `dijkstra`
(lines 49-72): `none` when the queue is empty and the loop ends, the next state
otherwise. -/
def dijkstraStep (H : MinHeap (Int × Int)) (g : Graph) (n : Int) (st : DState H.Q) :
    Except Failure (Option (DState H.Q)) :=
  match H.pop st.mh with
  | none => .ok none
  | some (top, rest) =>
    let a := top.1
    if 0 ≤ a ∧ a < n then
      if !st.visited a then
        match relaxEdges H n a (g.edgesOf a) (st.d, rest) with
        | .error f => .error f
        | .ok (d1, mh1) => .ok (some ⟨d1, Function.update st.visited a true, mh1⟩)
      else .ok (some ⟨st.d, st.visited, rest⟩)
    else .error .memoryFault

/-- The `while (!mh.empty())` loop of `dijkstra`, run for at most `fuel`
iterations; the result is the table `d` on leaving the loop. -/
def dijkstraLoop (H : MinHeap (Int × Int)) (g : Graph) (n : Int) :
    Nat → DState H.Q → Except Failure (Int → Int)
  | 0, _ => .error .outOfFuel
  | fuel + 1, st =>
    match dijkstraStep H g n st with
    | .error f => .error f
    | .ok none => .ok st.d
    | .ok (some st1) => dijkstraLoop H g n fuel st1

/-- The negative-weight scan of `dijkstra` (lines 32-41). -/
def hasNegativeWeight (g : Graph) : Bool :=
  g.adj_list.any fun edges => edges.any fun edge => decide (edge.2 < 0)

/-- The vector holding the first `n` entries of a table. -/
def tableToList (n : Nat) (d : Int → Int) : List Int :=
  (List.range n).map fun (i : Nat) => d (i : Int)

/-- The function `dijkstra(graph, init)` of dijkstra.hpp.  The write
`d[init] = 0` falls outside the table for a negative `init`.  The loop is given
`edgeCount + 2` iterations, more than it can use: every iteration pops one
entry, and an entry is pushed only for an edge leaving the node being visited,
once per edge. -/
def dijkstra (H : MinHeap (Int × Int)) (g : Graph) (init : Int) :
    Except Failure (List Int) :=
  let n : Int := g.adj_list.length
  if init ≥ n then .error .outOfRange
  else if hasNegativeWeight g then .error .invalidArgument
  else if init < 0 then .error .memoryFault
  else
    let d : Int → Int := Function.update (fun _ => INT_MAX) init 0
    match dijkstraLoop H g n (g.edgeCount + 2)
        ⟨d, fun _ => false, H.push H.empty (init, 0)⟩ with
    | .error f => .error f
    | .ok d1 => .ok (tableToList g.adj_list.length d1)

/-- The rows `init, init+1, ...` filled by the loop of `dijkstraAll`. -/
def dijkstraRows (H : MinHeap (Int × Int)) (g : Graph) :
    List Nat → Except Failure (List (List Int))
  | [] => .ok []
  | init :: rest =>
    match dijkstra H g (init : Int) with
    | .error f => .error f
    | .ok row =>
      match dijkstraRows H g rest with
      | .error f => .error f
      | .ok rows => .ok (row :: rows)

/-- The function `dijkstraAll(graph)` of dijkstra.hpp. -/
def dijkstraAll (H : MinHeap (Int × Int)) (g : Graph) : Except Failure (List (List Int)) :=
  dijkstraRows H g (List.range g.adj_list.length)

/-- The graph of the first scenario: `0→1 (2)`, `1→2 (2)`, `0→2 (5)`. -/
def graph3 : Graph := ⟨[[(1, 2), (2, 5)], [(2, 2)], []]⟩

/-! ## Specification vocabulary for graphs -/

/-- There is an edge `u → v` of weight `w`. -/
def HasEdge (g : Graph) (u v w : Int) : Prop :=
  0 ≤ u ∧ (v, w) ∈ g.edgesOf u

/-- A walk from `s` to a node, with its total weight: the empty walk, or a walk
extended by one edge at its end. -/
inductive Walk (g : Graph) (s : Int) : Int → Int → Prop
  | nil : Walk g s s 0
  | snoc {u v w W : Int} : Walk g s u W → HasEdge g u v w → Walk g s v (W + w)

/-- Node `v` can be reached from `s`. -/
def Reachable (g : Graph) (s v : Int) : Prop := ∃ W, Walk g s v W

/-- The value `x` is the least total weight of a walk from `s` to `v`. -/
def IsShortestDist (g : Graph) (s v x : Int) : Prop :=
  Walk g s v x ∧ ∀ W, Walk g s v W → x ≤ W

/-- Every neighbour id lies in `[0, n)`. -/
def NeighboursInRange (g : Graph) : Prop :=
  ∀ es ∈ g.adj_list, ∀ e ∈ es, 0 ≤ e.1 ∧ e.1 < (g.adj_list.length : Int)

/-- Every edge weight is non-negative. -/
def NonNegative (g : Graph) : Prop :=
  ∀ es ∈ g.adj_list, ∀ e ∈ es, (0 : Int) ≤ e.2

/-- The sum of the weights of a list of edges. -/
def edgeWeightSum (es : List (Int × Int)) : Int := (es.map Prod.snd).sum

/-- The sum of all edge weights of the graph. -/
def Graph.totalWeight (g : Graph) : Int := (g.adj_list.map edgeWeightSum).sum

/-! ## Ghost quantities and the invariant of the Dijkstra loop -/

/-- The total weight of the edges leaving the visited nodes. -/
def visitedWeight (g : Graph) (vis : Int → Bool) : Int :=
  ∑ u in Finset.range g.adj_list.length,
    if vis (u : Int) = true then edgeWeightSum (g.edgesOf (u : Int)) else 0

/-- The number of edges leaving the nodes not yet visited. -/
def pendingEdges (g : Graph) (vis : Int → Bool) : Nat :=
  ∑ u in Finset.range g.adj_list.length,
    if vis (u : Int) = true then 0 else (g.edgesOf (u : Int)).length

/-- The invariant of the main loop of `dijkstra` for source `s`: `B` bounds the
finite entries of `d`, visited nodes carry their final distance, and every
unvisited node with a finite entry has that entry in the queue. -/
structure DInv (g : Graph) (s B : Int) (vis : Int → Bool) (d : Int → Int)
    (mh : List (Int × Int)) : Prop where
  src : d s = 0
  fin : ∀ v, d v ≠ INT_MAX →
    (0 ≤ v ∧ v < (g.adj_list.length : Int)) ∧ Walk g s v (d v) ∧ d v ≤ B
  opt : ∀ v, vis v = true → d v ≠ INT_MAX ∧ ∀ W, Walk g s v W → d v ≤ W
  opn : ∀ v, vis v = false → d v ≠ INT_MAX → (v, d v) ∈ mh
  ent : ∀ e ∈ mh, (0 ≤ e.1 ∧ e.1 < (g.adj_list.length : Int)) ∧ d e.1 ≤ e.2 ∧ d e.1 ≠ INT_MAX

/-- Every edge leaving a node of `P` is relaxed in `d`: its head has a finite
entry, at most the entry of its tail plus the weight. -/
def SettledOn (g : Graph) (P : Int → Prop) (d : Int → Int) : Prop :=
  ∀ u, P u → ∀ v w, HasEdge g u v w → d v ≠ INT_MAX ∧ d v ≤ d u + w

/-! ## Further examples and helpers -/

/-- The graph with the single edge `0 → 1` of weight `-1`. -/
def graphNeg : Graph := ⟨[[(1, -1)], []]⟩

/-- The row computed by `dijkstra` for a source, empty when the call fails. -/
def rowOf (H : MinHeap (Int × Int)) (g : Graph) (i : Nat) : List Int :=
  match dijkstra H g (i : Int) with
  | .ok row => row
  | .error _ => []

/-- The list queue of `dijkstra`, ordered by the distance of the entry. -/
def distHeap : MinHeap (Int × Int) := listHeap Prod.snd

/-! ## A* over a grid -/

/-- Modelled from the spec: `Node` is declared in `types.hpp`, which is not
among the sources.  The spec describes the entry of the A* queue as the pair
`(linearId, priority)`, the queue being ordered by `priority`. -/
structure Node where
  nodeID : Int
  priority : Int
  deriving DecidableEq, Repr

/-- Modelled from the spec: `heuristic` is declared in `heuristic.hpp`, which
is not among the sources.  The spec defines it as the Manhattan distance
`|dx| + |dy|` between a cell and the goal. -/
def heuristic (a b : Int × Int) : Int := |a.1 - b.1| + |a.2 - b.2|

/-- The cell `c` lies inside the `n × n` tables `cameFrom` and `costSoFar`. -/
def InGrid (n : Nat) (c : Int × Int) : Prop :=
  0 ≤ c.1 ∧ c.1 < (n : Int) ∧ 0 ≤ c.2 ∧ c.2 < (n : Int)

instance instDecidableInGrid (n : Nat) (c : Int × Int) : Decidable (InGrid n c) := by
  unfold InGrid
  infer_instance

/-- The read `maze[x][y]`; `none` when it falls outside the vectors. -/
def mazeAt (maze : List (List Int)) (x y : Int) : Option Int :=
  if 0 ≤ x ∧ 0 ≤ y then
    match maze[x.toNat]? with
    | none => none
    | some row => row[y.toNat]?
  else none

/-- The state of the main loop of `aStar`: the queue and the two tables. -/
structure AState (Q : Type) where
  mh : Q
  cameFrom : Int × Int → Int × Int
  costSoFar : Int × Int → Int

/-- The offsets `(dx[i], dy[i])` for `i = 0, 1, 2, 3`. -/
def dirs : List (Int × Int) := [(-1, 0), (0, -1), (1, 0), (0, 1)]

/-- The `for` loop over the four neighbours of the cell `(x, y)`
(a_star.hpp lines 85-109), run over the offsets still to visit. -/
def relaxNeighbors (H : MinHeap Node) (maze : List (List Int)) (n : Nat) (goal : Int × Int)
    (x y : Int) : List (Int × Int) → AState H.Q → Except Failure (AState H.Q)
  | [], st => .ok st
  | (dx, dy) :: ds, st =>
    let newX := wrapInt (x + dx)
    let newY := wrapInt (y + dy)
    if newX ≥ 0 ∧ newX < (n : Int) ∧ newY ≥ 0 ∧ newY < (n : Int) then
      match mazeAt maze newX newY with
      | none => .error .memoryFault
      | some cell =>
        if cell = 1 then
          let newID := wrapInt (wrapInt (newX * n) + newY)
          if InGrid n (x, y) then
            let newCost := wrapInt (st.costSoFar (x, y) + 1)
            if newCost < st.costSoFar (newX, newY) then
              relaxNeighbors H maze n goal x y ds
                ⟨H.push st.mh ⟨newID, wrapInt (newCost + heuristic (newX, newY) goal)⟩,
                  Function.update st.cameFrom (newX, newY) (x, y),
                  Function.update st.costSoFar (newX, newY) newCost⟩
            else relaxNeighbors H maze n goal x y ds st
          else .error .memoryFault
        else relaxNeighbors H maze n goal x y ds st
    else relaxNeighbors H maze n goal x y ds st

/-- The path reconstruction loop of `aStar` (lines 49-75): walks the parent
chain from `currentCell` back to `start`, prepending one letter per step. -/
def reconstructPath (n : Nat) (start : Int × Int) (cameFrom : Int × Int → Int × Int) :
    Nat → Int × Int → String → Except Failure String
  | 0, _, _ => .error .outOfFuel
  | fuel + 1, currentCell, path =>
    if currentCell ≠ start then
      if InGrid n currentCell then
        let parentCell := cameFrom currentCell
        let path1 :=
          if parentCell.1 = currentCell.1 then
            if parentCell.2 < currentCell.2 then "R" ++ path else "L" ++ path
          else
            if parentCell.1 < currentCell.1 then "D" ++ path else "U" ++ path
        reconstructPath n start cameFrom fuel parentCell path1
      else .error .memoryFault
    else .ok path

/-- The `while (!mh.empty())` loop of `aStar` (lines 37-110), run for at most
`fuel` iterations.  The reconstruction is given `n * n + 1` steps, more than
the cells of the grid; the division by `n = 0` is undefined. -/
def aStarLoop (H : MinHeap Node) (maze : List (List Int)) (n : Nat)
    (start goal : Int × Int) : Nat → AState H.Q → Except Failure String
  | 0, _ => .error .outOfFuel
  | fuel + 1, st =>
    match H.pop st.mh with
    | none => .ok "No path found"
    | some (current, rest) =>
      if current.nodeID = wrapInt (wrapInt (goal.1 * n) + goal.2) then
        reconstructPath n start st.cameFrom (n * n + 1) goal ""
      else if n = 0 then .error .memoryFault
      else
        let x := Int.tdiv current.nodeID n
        let y := Int.tmod current.nodeID n
        match relaxNeighbors H maze n goal x y dirs ⟨rest, st.cameFrom, st.costSoFar⟩ with
        | .error f => .error f
        | .ok st1 => aStarLoop H maze n start goal fuel st1

/-- The function `aStar(maze, n, start, end)` of a_star.hpp; the parameter
`end` is named `goal`.  The side `n` of the grid is a natural number.  The
write `costSoFar[start.first][start.second] = 0` falls outside the table for a
start outside the grid.  The loop is given `n⁴ + 2` iterations, more than it
can use: an entry is pushed only when the cost of a cell decreases, and a cost
is `INT_MAX` or below `n * n`. -/
def aStar (H : MinHeap Node) (maze : List (List Int)) (n : Nat) (start goal : Int × Int) :
    Except Failure String :=
  let nodeID := wrapInt (wrapInt (start.1 * n) + start.2)
  if InGrid n start then
    aStarLoop H maze n start goal (n * n * n * n + 2)
      ⟨H.push H.empty ⟨nodeID, 0⟩, fun _ => (-1, -1),
        Function.update (fun _ => INT_MAX) start 0⟩
  else .error .memoryFault

/-- The list queue of `aStar`, ordered by the priority of the node. -/
def nodeHeap : MinHeap Node := listHeap Node.priority

/-- The fully walkable 3 × 3 grid. -/
def gridOpen3 : List (List Int) := [[1, 1, 1], [1, 1, 1], [1, 1, 1]]

/-- The 3 × 3 grid whose middle row is blocked except in column 0. -/
def gridDetour3 : List (List Int) := [[1, 1, 1], [1, 0, 0], [1, 1, 1]]

/-- The 3 × 3 grid whose goal corner `(2, 2)` is blocked. -/
def gridWalled3 : List (List Int) := [[1, 1, 1], [1, 1, 1], [1, 1, 0]]

/-- The 2 × 2 grid whose corner `(0, 0)` is blocked. -/
def gridBlockedStart2 : List (List Int) := [[0, 1], [1, 1]]

/-! ## Specification vocabulary for grids -/

/-- The maze is an `n × n` matrix. -/
def IsGrid (maze : List (List Int)) (n : Nat) : Prop :=
  maze.length = n ∧ ∀ row ∈ maze, row.length = n

/-- The cell holds the value 1 (a walkable cell). -/
def Walkable (maze : List (List Int)) (c : Int × Int) : Prop :=
  mazeAt maze c.1 c.2 = some 1

/-- One unit move from `c` into the in-bounds walkable cell `c1`. -/
def GridStep (maze : List (List Int)) (n : Nat) (c c1 : Int × Int) : Prop :=
  InGrid n c1 ∧ Walkable maze c1 ∧
    (c1 = (c.1 - 1, c.2) ∨ c1 = (c.1, c.2 - 1) ∨ c1 = (c.1 + 1, c.2) ∨ c1 = (c.1, c.2 + 1))

/-- A walk of `k` unit moves between two cells, each move entering an
in-bounds walkable cell. -/
inductive GridWalk (maze : List (List Int)) (n : Nat) : Int × Int → Int × Int → Nat → Prop
  | refl (c : Int × Int) : GridWalk maze n c c 0
  | step {c c1 c2 : Int × Int} {k : Nat} :
      GridStep maze n c c1 → GridWalk maze n c1 c2 k → GridWalk maze n c c2 (k + 1)

/-- The grid is small enough for cell ids, costs and priorities to be
computed in `int` without overflow. -/
def GridFits (n : Nat) : Prop := (n : Int) * n + 2 * n ≤ INT_MAX

/-- The cell reached from `c` by one move letter: `U` is row - 1, `D` is
row + 1, `L` is column - 1, `R` is column + 1. -/
def moveCell (c : Int × Int) (m : Char) : Int × Int :=
  if m = 'U' then (c.1 - 1, c.2)
  else if m = 'D' then (c.1 + 1, c.2)
  else if m = 'L' then (c.1, c.2 - 1)
  else if m = 'R' then (c.1, c.2 + 1)
  else c

/-- The letter is one of `U`, `D`, `L`, `R`. -/
def IsMoveLetter (m : Char) : Prop := m = 'U' ∨ m = 'D' ∨ m = 'L' ∨ m = 'R'

/-- The cells entered, in order, when the moves are replayed from `c`. -/
def replayCells (c : Int × Int) : List Char → List (Int × Int)
  | [] => []
  | m :: ms => moveCell c m :: replayCells (moveCell c m) ms

/-- The cell on which the replay of the moves from `c` ends. -/
def replayEnd (c : Int × Int) (ms : List Char) : Int × Int :=
  ms.foldl moveCell c

/-- The moves are letters of `U`, `D`, `L`, `R` that lead from `c` to `c1`
entering only in-bounds walkable cells. -/
def ValidMoves (maze : List (List Int)) (n : Nat) (c : Int × Int) :
    List Char → Int × Int → Prop
  | [], c1 => c = c1
  | m :: ms, c1 =>
    IsMoveLetter m ∧ InGrid n (moveCell c m) ∧ Walkable maze (moveCell c m) ∧
      ValidMoves maze n (moveCell c m) ms c1

/-! ## Ghost quantities and the invariant of the A* loop -/

/-- The linear id `row * n + col` of a cell. -/
def cellId (n : Nat) (c : Int × Int) : Int := c.1 * n + c.2

/-- The cells of the `n × n` grid. -/
def cells (n : Nat) : Finset (Int × Int) :=
  Finset.Ico (0 : Int) n ×ˢ Finset.Ico (0 : Int) n

/-- The number of cells with a finite cost. -/
def finiteCount (n : Nat) (cost : Int × Int → Int) : Int :=
  ∑ c in cells n, if cost c = INT_MAX then 0 else 1

/-- The sum of the costs, an infinite cost counting for `n * n`. -/
def costPotential (n : Nat) (cost : Int × Int → Int) : Int :=
  ∑ c in cells n, if cost c = INT_MAX then (n : Int) * n else cost c

/-- The entries `mh` of the queue hold an entry of cell `c` whose priority is
at most the current cost of `c` plus its heuristic. -/
def IsOpen (n : Nat) (goal : Int × Int) (mh : List Node) (cost : Int × Int → Int)
    (c : Int × Int) : Prop :=
  ∃ e ∈ mh, e.nodeID = cellId n c ∧ e.priority ≤ cost c + heuristic c goal

/-- Every cell one move away from `c` has a finite cost, at most one more
than the cost of `c`. -/
def IsSettled (maze : List (List Int)) (n : Nat) (cost : Int × Int → Int)
    (c : Int × Int) : Prop :=
  ∀ c1, GridStep maze n c c1 → cost c1 ≠ INT_MAX ∧ cost c1 ≤ cost c + 1

/-- The invariant of the main loop of `aStar` on the entries `mh` of the queue
and the tables `came` and `cost`; `P` selects the cells that are required to
be open or settled. -/
structure AInv (maze : List (List Int)) (n : Nat) (start goal : Int × Int)
    (P : Int × Int → Prop) (mh : List Node) (came : Int × Int → Int × Int)
    (cost : Int × Int → Int) : Prop where
  src : cost start = 0
  fin : ∀ c, cost c ≠ INT_MAX →
    InGrid n c ∧ 0 ≤ cost c ∧ cost c + 1 ≤ finiteCount n cost ∧
      ∃ k, GridWalk maze n start c k
  par : ∀ c, c ≠ start → cost c ≠ INT_MAX →
    cost (came c) ≠ INT_MAX ∧ GridStep maze n (came c) c ∧ cost (came c) + 1 ≤ cost c
  ent : ∀ e ∈ mh, ∃ c, InGrid n c ∧ e.nodeID = cellId n c ∧ cost c ≠ INT_MAX ∧
    (c = start ∨ cost c + heuristic c goal ≤ e.priority)
  ost : ∀ c, P c → cost c ≠ INT_MAX →
    IsOpen n goal mh cost c ∨ (c ≠ goal ∧ IsSettled maze n cost c)

/-! ## Breadth-first search, the reference for the optimal length -/

/-- The in-bounds walkable cells one move away from `c`. -/
def gridNeighbours (maze : List (List Int)) (n : Nat) (c : Int × Int) : List (Int × Int) :=
  (dirs.map fun d => (c.1 + d.1, c.2 + d.2)).filter
    fun c1 => decide (InGrid n c1) && decide (mazeAt maze c1.1 c1.2 = some 1)

/-- The exhaustive unweighted breadth-first search, level by level: `frontier`
holds the cells first reached after `depth` moves and `seen` the cells reached
so far.  The search answers `depth` when the goal is in the frontier and
`none` when a level is empty. -/
def bfsLevels (maze : List (List Int)) (n : Nat) (goal : Int × Int) :
    Nat → List (Int × Int) → List (Int × Int) → Nat → Option Nat
  | 0, _, _, _ => none
  | fuel + 1, seen, frontier, depth =>
    if goal ∈ frontier then some depth
    else
      let next :=
        ((frontier.flatMap (gridNeighbours maze n)).filter fun c => decide (c ∉ seen)).dedup
      if next = [] then none
      else bfsLevels maze n goal fuel (seen ++ next) next (depth + 1)

/-- The length of the shortest path found by the breadth-first search from
`start`, `none` when the goal is not reached. -/
def bfsShortestLength (maze : List (List Int)) (n : Nat) (start goal : Int × Int) :
    Option Nat :=
  bfsLevels maze n goal (n * n + 1) [start] [start] 0

/-- The number `d` is the least length of a walk from `start` to `c`. -/
def MinWalk (maze : List (List Int)) (n : Nat) (start c : Int × Int) (d : Nat) : Prop :=
  GridWalk maze n start c d ∧ ∀ k, GridWalk maze n start c k → d ≤ k

/-! ## Decision procedures and example grids -/

instance instDecidableWalkable (maze : List (List Int)) (c : Int × Int) :
    Decidable (Walkable maze c) := by
  unfold Walkable
  infer_instance

instance instDecidableIsGrid (maze : List (List Int)) (n : Nat) : Decidable (IsGrid maze n) := by
  unfold IsGrid
  infer_instance

instance instDecidableGridFits (n : Nat) : Decidable (GridFits n) := by
  unfold GridFits
  infer_instance

instance instDecidableIsMoveLetter (m : Char) : Decidable (IsMoveLetter m) := by
  unfold IsMoveLetter
  infer_instance

/-- The 3 × 3 grid whose corner `(2, 2)` is walkable but walled off. -/
def gridIsland3 : List (List Int) := [[1, 1, 1], [1, 1, 0], [1, 0, 1]]

/-! ## The parent table -/

/-- Every entry of the parent table is the no-parent value `{-1, -1}` or a
cell from which one unit move enters the cell of that entry. -/
def ParentsValid (maze : List (List Int)) (n : Nat) (came : Int × Int → Int × Int) : Prop :=
  ∀ c, came c = (-1, -1) ∨ GridStep maze n (came c) c

/-! ## Undirected graphs and further examples -/

/-- The graph with the single edge `0 → 1` of weight `INT_MAX`. -/
def graphMax : Graph := ⟨[[(1, 2147483647)], []]⟩

/-- The chain `0 → 1 → 2` whose two edges weigh `2^30` each. -/
def graphWrap : Graph := ⟨[[(1, 1073741824)], [(2, 1073741824)], []]⟩

/-- Every edge `u → v` of weight `w` is mirrored by an edge `v → u` of weight `w`. -/
def Undirected (g : Graph) : Prop :=
  ∀ u ∈ List.range g.adj_list.length, ∀ e ∈ g.edgesOf (u : Int),
    0 ≤ e.1 ∧ ((u : Int), e.2) ∈ g.edgesOf e.1

instance instDecidableUndirected (g : Graph) : Decidable (Undirected g) := by
  unfold Undirected
  infer_instance

/-- The triangle `0 - 1 - 2` with weights `0-1: 2`, `1-2: 2`, `0-2: 5`, every
edge listed in both directions. -/
def graphTriangle : Graph := ⟨[[(1, 2), (2, 5)], [(0, 2), (2, 2)], [(1, 2), (0, 5)]]⟩

/-- The entry `m[i][j]` of a matrix, `0` outside it. -/
def entryAt (m : List (List Int)) (i j : Nat) : Int := (m.getD i []).getD j 0

/-! ## The run of `dijkstra`, state by state -/

/-- The state in which `dijkstra` enters its loop (dijkstra.hpp lines 42-47):
every distance `INT_MAX` but that of `init`, no node visited, and the queue
holding `{init, 0}`. -/
def dijkstraInit (H : MinHeap (Int × Int)) (init : Int) : DState H.Q :=
  ⟨Function.update (fun _ => INT_MAX) init 0, fun _ => false, H.push H.empty (init, 0)⟩

/-- The state of the loop of `dijkstra` after `k` iterations, `none` when the
loop has ended or failed before. -/
def dijkstraIter (H : MinHeap (Int × Int)) (g : Graph) (n : Int) :
    Nat → DState H.Q → Option (DState H.Q)
  | 0, st => some st
  | k + 1, st =>
    match dijkstraStep H g n st with
    | .ok (some st1) => dijkstraIter H g n k st1
    | _ => none

/-- The state of the run on the three-node graph from start 0 after `k`
iterations (the initial state once the loop has ended). -/
def runGraph3 (k : Nat) : DState distHeap.Q :=
  (dijkstraIter distHeap graph3 3 k (dijkstraInit distHeap 0)).getD (dijkstraInit distHeap 0)

/-! ## The variant of `dijkstra` without the visited test -/

/-- The variant of `dijkstraStep` in which the test `if (!visited[a])` is
omitted: the edges of every popped entry are relaxed. -/
def dijkstraStepNoCheck (H : MinHeap (Int × Int)) (g : Graph) (n : Int) (st : DState H.Q) :
    Except Failure (Option (DState H.Q)) :=
  match H.pop st.mh with
  | none => .ok none
  | some (top, rest) =>
    let a := top.1
    if 0 ≤ a ∧ a < n then
      match relaxEdges H n a (g.edgesOf a) (st.d, rest) with
      | .error f => .error f
      | .ok (d1, mh1) => .ok (some ⟨d1, Function.update st.visited a true, mh1⟩)
    else .error .memoryFault

/-- The loop of the variant without the visited test, run for at most `fuel`
iterations. -/
def dijkstraLoopNoCheck (H : MinHeap (Int × Int)) (g : Graph) (n : Int) :
    Nat → DState H.Q → Except Failure (Int → Int)
  | 0, _ => .error .outOfFuel
  | fuel + 1, st =>
    match dijkstraStepNoCheck H g n st with
    | .error f => .error f
    | .ok none => .ok st.d
    | .ok (some st1) => dijkstraLoopNoCheck H g n fuel st1

/-- The variant of `dijkstra` without the visited test.  Its loop is given
`fuel` iterations: it can pop more entries than `dijkstra` does. -/
def dijkstraNoCheck (H : MinHeap (Int × Int)) (g : Graph) (init : Int) (fuel : Nat) :
    Except Failure (List Int) :=
  let n : Int := g.adj_list.length
  if init ≥ n then .error .outOfRange
  else if hasNegativeWeight g then .error .invalidArgument
  else if init < 0 then .error .memoryFault
  else
    let d := Function.update (fun _ => INT_MAX) init 0
    match dijkstraLoopNoCheck H g n fuel ⟨d, fun _ => false, H.push H.empty (init, 0)⟩ with
    | .error f => .error f
    | .ok d1 => .ok (tableToList g.adj_list.length d1)

/-- The graph `0→1 (1)`, `0→2 (2^30)`, `1→3 (1)`, `2→1 (INT_MAX)`: the sum
`2^30 + INT_MAX` on the edge `2 → 1` exceeds `INT_MAX`. -/
def graphStale : Graph :=
  ⟨[[(1, 1), (2, 1073741824)], [(3, 1)], [(1, 2147483647)], []]⟩

/-- The state in which `aStar` enters its loop (a_star.hpp lines 25-31): the
queue holding the start with priority 0, every parent the no-parent value
`{-1, -1}`, and every cost `INT_MAX` but that of the start. -/
def aStarInit (H : MinHeap Node) (n : Nat) (start : Int × Int) : AState H.Q :=
  ⟨H.push H.empty ⟨wrapInt (wrapInt (start.1 * n) + start.2), 0⟩, fun _ => (-1, -1),
    Function.update (fun _ => INT_MAX) start 0⟩

/-- The state of the loop of `aStar` after `k` iterations none of which has
popped the goal cell; `none` when the loop has ended or failed before. -/
def aStarIter (H : MinHeap Node) (maze : List (List Int)) (n : Nat) (goal : Int × Int) :
    Nat → AState H.Q → Option (AState H.Q)
  | 0, st => some st
  | k + 1, st =>
    match H.pop st.mh with
    | none => none
    | some (current, rest) =>
      if current.nodeID = wrapInt (wrapInt (goal.1 * n) + goal.2) then none
      else if n = 0 then none
      else
        let x := Int.tdiv current.nodeID n
        let y := Int.tmod current.nodeID n
        match relaxNeighbors H maze n goal x y dirs ⟨rest, st.cameFrom, st.costSoFar⟩ with
        | .error _ => none
        | .ok st1 => aStarIter H maze n goal k st1

/-- The state of the search on the 3 × 3 grid with the blocked middle row, from
`(0, 0)` to `(2, 2)`, after `k` iterations. -/
def runDetour3 (k : Nat) : AState nodeHeap.Q :=
  (aStarIter nodeHeap gridDetour3 3 (2, 2) k (aStarInit nodeHeap 3 (0, 0))).getD
    (aStarInit nodeHeap 3 (0, 0))

/-- The `n × n` grid all of whose cells are walkable. -/
def gridOpen (n : Nat) : List (List Int) := List.replicate n (List.replicate n 1)

/-- The `n × n` grid whose walkable cells are those of the list `cells`. -/
def gridOnly (n : Nat) (cells : List (Int × Int)) : List (List Int) :=
  (List.range n).map fun (i : Nat) => (List.range n).map fun (j : Nat) =>
    if ((i : Int), (j : Int)) ∈ cells then 1 else 0

end ShortestPath

namespace Sorting
open ShortestPath

/-! ## Merge sort (ordena.cpp)

The vector `arr` is a table `Int → Int` with its size `n`; indices are `int`s,
not reduced modulo `2^32` (the size of a vector is taken to fit in an `int`). -/

/-- The values `arr[lo], arr[lo + 1], …, arr[lo + len - 1]` of a vector. -/
def slice (arr : Int → Int) (lo : Int) (len : Nat) : List Int :=
  (List.range len).map fun (t : Nat) => arr (lo + t)

/-- The `while` loop of `merge` (ordena.cpp lines 39-52) on the copies `left`
and `right`, from the positions `i`, `j` in them and `k` in `arr`; `n` is the
size of `arr`. -/
def mergeWhile (n : Nat) (left right : List Int) :
    Nat → Nat → Nat → Int → (Int → Int) → Except Failure (Nat × Nat × Int × (Int → Int))
  | 0, _, _, _, _ => .error .outOfFuel
  | fuel + 1, i, j, k, arr =>
    if i < left.length ∧ j < right.length then
      if 0 ≤ k ∧ k < (n : Int) then
        if left.getD i 0 ≤ right.getD j 0 then
          mergeWhile n left right fuel (i + 1) j (k + 1) (Function.update arr k (left.getD i 0))
        else
          mergeWhile n left right fuel i (j + 1) (k + 1) (Function.update arr k (right.getD j 0))
      else .error .memoryFault
    else .ok (i, j, k, arr)

/-- A loop `for (int p = i; p < src.size(); p++) { arr[k] = src[p]; k++; }` of
`merge` (lines 56-60 and 62-66). -/
def copyRest (n : Nat) (src : List Int) :
    Nat → Nat → Int → (Int → Int) → Except Failure (Int × (Int → Int))
  | 0, _, _, _ => .error .outOfFuel
  | fuel + 1, p, k, arr =>
    if p < src.length then
      if 0 ≤ k ∧ k < (n : Int) then
        copyRest n src fuel (p + 1) (k + 1) (Function.update arr k (src.getD p 0))
      else .error .memoryFault
    else .ok (k, arr)

/-- The function `merge(arr, lo, mid, hi)` of ordena.cpp; `n` is the size of
`arr`.  The two copies are taken from iterator ranges, which must lie inside
the vector. -/
def merge (n : Nat) (arr : Int → Int) (lo mid hi : Int) : Except Failure (Int → Int) :=
  if 0 ≤ lo ∧ lo ≤ mid + 1 ∧ mid + 1 ≤ hi + 1 ∧ hi + 1 ≤ (n : Int) then
    let left := slice arr lo (mid + 1 - lo).toNat
    let right := slice arr (mid + 1) (hi - mid).toNat
    match mergeWhile n left right (left.length + right.length + 1) 0 0 lo arr with
    | .error f => .error f
    | .ok (i, j, k, arr1) =>
      match copyRest n left (left.length + 1) i k arr1 with
      | .error f => .error f
      | .ok (k1, arr2) =>
        match copyRest n right (right.length + 1) j k1 arr2 with
        | .error f => .error f
        | .ok (_, arr3) => .ok arr3
  else .error .memoryFault

/-- The function `doMergeSort(arr, lo, hi)` of ordena.cpp, to a recursion depth
of at most `fuel`. -/
def doMergeSort (n : Nat) : Nat → (Int → Int) → Int → Int → Except Failure (Int → Int)
  | 0, _, _, _ => .error .outOfFuel
  | fuel + 1, arr, lo, hi =>
    if lo ≥ hi then .ok arr
    else
      let mid := lo + Int.tdiv (hi - lo) 2
      match doMergeSort n fuel arr lo mid with
      | .error f => .error f
      | .ok arr1 =>
        match doMergeSort n fuel arr1 (mid + 1) hi with
        | .error f => .error f
        | .ok arr2 => merge n arr2 lo mid hi

/-- The vector as a table: the entry at an index inside it. -/
def tableOf (arr : List Int) : Int → Int := fun i => arr.getD i.toNat 0

/-- The function `mergeSort(arr)` of ordena.cpp.  The upper bound
`sortedArray.size() - 1` is `-1` for the empty vector.  The recursion is given
a depth of `size + 1`, more than it can use. -/
def mergeSort (arr : List Int) : Except Failure (List Int) :=
  let n := arr.length
  match doMergeSort n (n + 1) (tableOf arr) 0 ((n : Int) - 1) with
  | .error f => .error f
  | .ok sortedArray => .ok (tableToList n sortedArray)

/-! ## Quick sort (ordena.cpp) -/

/-- The effect of `swap(arr[a], arr[b])` on the table. -/
def swapAt (arr : Int → Int) (a b : Int) : Int → Int :=
  Function.update (Function.update arr a (arr b)) b (arr a)

/-- The loop `do { i++; } while (i <= hi && arr[i] < v);` of `partition`
(ordena.cpp lines 132-135).  The list `used` records the indices at which
`arr` is accessed; it is not part of the program. -/
def scanUp (n : Nat) (arr : Int → Int) (hi v : Int) :
    Nat → Int → List Int → Except Failure (Int × List Int)
  | 0, _, _ => .error .outOfFuel
  | fuel + 1, i, used =>
    let i1 := i + 1
    if i1 ≤ hi then
      if 0 ≤ i1 ∧ i1 < (n : Int) then
        if arr i1 < v then scanUp n arr hi v fuel i1 (i1 :: used)
        else .ok (i1, i1 :: used)
      else .error .memoryFault
    else .ok (i1, used)

/-- The loop `do { j--; } while (j >= lo && arr[j] > v);` of `partition`
(lines 138-141). -/
def scanDown (n : Nat) (arr : Int → Int) (lo v : Int) :
    Nat → Int → List Int → Except Failure (Int × List Int)
  | 0, _, _ => .error .outOfFuel
  | fuel + 1, j, used =>
    let j1 := j - 1
    if j1 ≥ lo then
      if 0 ≤ j1 ∧ j1 < (n : Int) then
        if arr j1 > v then scanDown n arr lo v fuel j1 (j1 :: used)
        else .ok (j1, j1 :: used)
      else .error .memoryFault
    else .ok (j1, used)

/-- The result of `partition`: the pivot position, the vector, and the record
of the indices at which the vector was accessed. -/
structure PartitionResult where
  pivot : Int
  arr : Int → Int
  used : List Int

/-- The loop `while (!pointersCrossed)` of `partition` (lines 129-151), ending
with the value of `j` at which the pointers have crossed. -/
def partitionLoop (n : Nat) (lo hi v : Int) :
    Nat → Int → Int → (Int → Int) → List Int → Except Failure PartitionResult
  | 0, _, _, _, _ => .error .outOfFuel
  | fuel + 1, i, j, arr, used =>
    match scanUp n arr hi v ((hi - lo).toNat + 2) i used with
    | .error f => .error f
    | .ok (i1, used1) =>
      match scanDown n arr lo v ((hi - lo).toNat + 2) j used1 with
      | .error f => .error f
      | .ok (j1, used2) =>
        if i1 ≥ j1 then .ok ⟨j1, arr, used2⟩
        else if (0 ≤ i1 ∧ i1 < (n : Int)) ∧ (0 ≤ j1 ∧ j1 < (n : Int)) then
          partitionLoop n lo hi v fuel i1 j1 (swapAt arr i1 j1) (j1 :: i1 :: used2)
        else .error .memoryFault

/-- The function `partition(arr, lo, hi)` of ordena.cpp; `n` is the size of
`arr`. -/
def partition (n : Nat) (arr : Int → Int) (lo hi : Int) : Except Failure PartitionResult :=
  if 0 ≤ lo ∧ lo < (n : Int) then
    let v := arr lo
    match partitionLoop n lo hi v ((hi - lo).toNat + 2) lo (hi + 1) arr [lo] with
    | .error f => .error f
    | .ok r =>
      if 0 ≤ r.pivot ∧ r.pivot < (n : Int) then
        .ok ⟨r.pivot, swapAt r.arr lo r.pivot, r.pivot :: lo :: r.used⟩
      else .error .memoryFault
  else .error .memoryFault

/-- A call of `partition` made by `doQuickSort`: its bounds and the indices at
which it accessed the vector. -/
structure PartitionCall where
  lo : Int
  hi : Int
  used : List Int
  deriving DecidableEq

/-- The function `doQuickSort(arr, lo, hi)` of ordena.cpp, to a recursion depth
of at most `fuel`.  Besides the vector it returns the record of the calls of
`partition`, which is not part of the program. -/
def doQuickSort (n : Nat) :
    Nat → (Int → Int) → Int → Int → Except Failure ((Int → Int) × List PartitionCall)
  | 0, _, _, _ => .error .outOfFuel
  | fuel + 1, arr, lo, hi =>
    if hi ≤ lo then .ok (arr, [])
    else
      match partition n arr lo hi with
      | .error f => .error f
      | .ok r =>
        match doQuickSort n fuel r.arr lo (r.pivot - 1) with
        | .error f => .error f
        | .ok (arr1, calls1) =>
          match doQuickSort n fuel arr1 (r.pivot + 1) hi with
          | .error f => .error f
          | .ok (arr2, calls2) => .ok (arr2, ⟨lo, hi, r.used⟩ :: calls1 ++ calls2)

/-- The run of `quickSort(arr)` with the record of the calls of `partition`. -/
def quickSortTrace (arr : List Int) : Except Failure (List Int × List PartitionCall) :=
  let n := arr.length
  match doQuickSort n (n + 1) (tableOf arr) 0 ((n : Int) - 1) with
  | .error f => .error f
  | .ok (sortedArray, calls) => .ok (tableToList n sortedArray, calls)

/-- The function `quickSort(arr)` of ordena.cpp. -/
def quickSort (arr : List Int) : Except Failure (List Int) :=
  match quickSortTrace arr with
  | .error f => .error f
  | .ok (sortedArray, _) => .ok sortedArray

end Sorting

namespace CoinChange
open ShortestPath

/-! ## Coin change by dynamic programming (dp.hpp)

The vector `matrix` is a table from `int` indices to pairs `{no. coins, tag}`
with its size; sums and differences of `int` values are reduced by `wrapInt`. -/

/-- The body of the inner loop of `dpChange` (dp.hpp lines 32-40) for the
denomination `d = denom[i]` and the amount `j`; `size` is the size of
`matrix`, whose entries are the pairs `{no. coins, tag}`. -/
def relaxAmount (size d : Int) (i : Nat) (j : Int) (matrix : Int → Int × Int) :
    Except Failure (Int → Int × Int) :=
  if d ≤ j then
    let k := wrapInt (j - d)
    if (0 ≤ k ∧ k < size) ∧ (0 ≤ j ∧ j < size) then
      if wrapInt ((matrix k).1 + 1) < (matrix j).1 then
        .ok (Function.update matrix j (wrapInt ((matrix k).1 + 1), (i : Int)))
      else .ok matrix
    else .error .memoryFault
  else .ok matrix

/-- The inner loop `for (int j = 0; j <= qty; j++)` of `dpChange`
(lines 29-41), from the amount `j` on. -/
def amountLoop (qty size d : Int) (i : Nat) :
    Nat → Int → (Int → Int × Int) → Except Failure (Int → Int × Int)
  | 0, _, _ => .error .outOfFuel
  | fuel + 1, j, matrix =>
    if j ≤ qty then
      match relaxAmount size d i j matrix with
      | .error f => .error f
      | .ok matrix1 => amountLoop qty size d i fuel (j + 1) matrix1
    else .ok matrix

/-- The outer loop `for (int i = 0; i < denom.size(); i++)` of `dpChange`
(lines 27-42), from the index `i` on. -/
def denomLoop (qty size : Int) (denom : List Int) :
    Nat → Nat → (Int → Int × Int) → Except Failure (Int → Int × Int)
  | 0, _, _ => .error .outOfFuel
  | fuel + 1, i, matrix =>
    if i < denom.length then
      match amountLoop qty size (denom.getD i 0) i (qty.toNat + 2) 0 matrix with
      | .error f => .error f
      | .ok matrix1 => denomLoop qty size denom fuel (i + 1) matrix1
    else .ok matrix

/-- The loop `while (i != 0)` of `dpChange` (lines 54-59), which follows the
tags from the amount `i` down.  It is given `fuel` iterations: with a coin that
is not positive the loop of the program need not end. -/
def collectCoins (size : Int) (denom : List Int) (matrix : Int → Int × Int) :
    Nat → Int → List Int → Except Failure (List Int)
  | 0, _, _ => .error .outOfFuel
  | fuel + 1, i, coinsUsed =>
    if i ≠ 0 then
      if 0 ≤ i ∧ i < size then
        let tag := (matrix i).2
        if 0 ≤ tag ∧ tag < (denom.length : Int) then
          let coin := denom.getD tag.toNat 0
          collectCoins size denom matrix fuel (wrapInt (i - coin)) (coinsUsed ++ [coin])
        else .error .memoryFault
      else .error .memoryFault
    else .ok coinsUsed

/-- The loop that adds up the coins used (lines 62-66). -/
def sumCoins : List Int → Int → Int
  | [], sum => sum
  | coin :: coins, sum => sumCoins coins (wrapInt (sum + coin))

/-- The function `dpChange(qty, denom)` of dp.hpp.  The vector `matrix` has
`IMPOSSIBLE = qty + 1` entries; a negative `IMPOSSIBLE`, converted to the
unsigned size of the vector, is above `max_size()` and the constructor throws
`std::length_error`. -/
def dpChange (qty : Int) (denom : List Int) : Except Failure (List Int) :=
  let IMPOSSIBLE := wrapInt (qty + 1)
  let initQty := qty
  if IMPOSSIBLE < 0 then .error .lengthError
  else
    let matrix0 : Int → Int × Int := fun _ => (IMPOSSIBLE, -1)
    if 0 < IMPOSSIBLE then
      let matrix1 := Function.update matrix0 0 (0, -1)
      match denomLoop qty IMPOSSIBLE denom (denom.length + 1) 0 matrix1 with
      | .error f => .error f
      | .ok matrix =>
        if 0 ≤ qty ∧ qty < IMPOSSIBLE then
          if (matrix qty).1 = IMPOSSIBLE then .ok []
          else
            match collectCoins IMPOSSIBLE denom matrix (qty.toNat + 1) qty [] with
            | .error f => .error f
            | .ok coinsUsed =>
              if sumCoins coinsUsed 0 ≠ initQty then .ok [] else .ok coinsUsed
        else .error .memoryFault
    else .error .memoryFault

/-- The amount `q` is a sum of elements of `denom`, repetition allowed. -/
def Representable (denom : List Int) (q : Int) : Prop :=
  ∃ coins : List Int, (∀ c ∈ coins, c ∈ denom) ∧ coins.sum = q

/-- The invariant of the two loops of `dpChange` when the inner loop for the
denomination of index `i` is about to handle the amount `j`: the entry of 0 is
`{0, -1}`; every count lies between 0 and `qty + 1`; an amount with a count
other than `qty + 1` is tagged with the index of a positive denomination, at
most the amount, whose removal leaves an amount with a smaller count; and the
count of an amount is at most the length of every list of coins that sums to
it and is drawn from the denominations handled so far for that amount. -/
structure DPInv (qty : Int) (denom : List Int) (i : Nat) (j : Int)
    (m : Int → Int × Int) : Prop where
  zero : m 0 = (0, -1)
  bound : ∀ a, 0 ≤ a → a ≤ qty → 0 ≤ (m a).1 ∧ (m a).1 ≤ qty + 1
  tag : ∀ a, 0 < a → a ≤ qty → (m a).1 ≠ qty + 1 →
    (0 ≤ (m a).2 ∧ (m a).2 < (denom.length : Int)) ∧
    0 < denom.getD (m a).2.toNat 0 ∧ denom.getD (m a).2.toNat 0 ≤ a ∧
    (m (a - denom.getD (m a).2.toNat 0)).1 + 1 ≤ (m a).1
  opt : ∀ a, 0 ≤ a → a ≤ qty → ∀ coins : List Int,
    (∀ c ∈ coins, c ∈ denom.take (if a < j then i + 1 else i)) → coins.sum = a →
    (m a).1 ≤ (coins.length : Int)

end CoinChange

namespace ShortestPath

/-! ## Basic facts -/

theorem wrapInt_eq_self {x : Int} (h0 : -2147483648 ≤ x) (h1 : x < 2147483648) :
    wrapInt x = x := by
  unfold wrapInt
  omega

theorem popMin_eq_none {α : Type} (key : α → Int) (l : List α) :
    popMin key l = none ↔ l = [] := by
  cases l with
  | nil => simp [popMin]
  | cons e es =>
    simp only [popMin]
    cases popMin key es with
    | none => simp
    | some p =>
      obtain ⟨m, rest⟩ := p
      by_cases h : key e ≤ key m <;> simp [h]

theorem popMin_spec {α : Type} (key : α → Int) :
    ∀ (l : List α) (m : α) (rest : List α), popMin key l = some (m, rest) →
      l.Perm (m :: rest) ∧ ∀ x ∈ l, key m ≤ key x := by
  intro l
  induction l with
  | nil => intro m rest h; simp [popMin] at h
  | cons e es ih =>
    intro m rest h
    simp only [popMin] at h
    cases hp : popMin key es with
    | none =>
      rw [hp] at h
      simp only [Option.some.injEq, Prod.mk.injEq] at h
      obtain ⟨rfl, rfl⟩ := h
      have : es = [] := (popMin_eq_none key es).1 hp
      subst this
      simp
    | some p =>
      obtain ⟨m1, rest1⟩ := p
      rw [hp] at h
      obtain ⟨hperm, hmin⟩ := ih m1 rest1 hp
      by_cases hle : key e ≤ key m1
      · simp only [hle, if_true, Option.some.injEq, Prod.mk.injEq] at h
        obtain ⟨rfl, rfl⟩ := h
        refine ⟨List.Perm.refl _, ?_⟩
        intro x hx
        rcases List.mem_cons.1 hx with rfl | hx
        · exact le_refl _
        · exact le_trans hle (hmin x hx)
      · simp only [hle, if_false, Option.some.injEq, Prod.mk.injEq] at h
        obtain ⟨rfl, rfl⟩ := h
        refine ⟨?_, ?_⟩
        · exact (List.Perm.cons e hperm).trans (List.Perm.swap _ _ _)
        · intro x hx
          rcases List.mem_cons.1 hx with rfl | hx
          · omega
          · exact hmin x hx

theorem popMin_mem {α : Type} (key : α → Int) {l : List α} {m : α} {rest : List α}
    (h : popMin key l = some (m, rest)) (x : α) : x ∈ l ↔ x = m ∨ x ∈ rest := by
  rw [(popMin_spec key l m rest h).1.mem_iff, List.mem_cons]

theorem popMin_length {α : Type} (key : α → Int) {l : List α} {m : α} {rest : List α}
    (h : popMin key l = some (m, rest)) : l.length = rest.length + 1 := by
  rw [(popMin_spec key l m rest h).1.length_eq, List.length_cons]

/-- The list queue satisfies the laws of the min-ordered queue. -/
theorem listHeap_isMinQueue {α : Type} (key : α → Int) : IsMinQueue (listHeap key) key where
  entries_empty := rfl
  entries_push := fun _ _ => List.Perm.refl _
  pop_none := fun q h => (popMin_eq_none key q).1 h
  pop_some := fun q e q1 h => popMin_spec key q e q1 h

theorem IsMinQueue.mem_pop {α : Type} {H : MinHeap α} {key : α → Int}
    (hH : IsMinQueue H key) {q q1 : H.Q} {e : α} (h : H.pop q = some (e, q1)) (x : α) :
    x ∈ H.entries q ↔ x = e ∨ x ∈ H.entries q1 := by
  rw [(hH.pop_some q e q1 h).1.mem_iff, List.mem_cons]

theorem IsMinQueue.length_pop {α : Type} {H : MinHeap α} {key : α → Int}
    (hH : IsMinQueue H key) {q q1 : H.Q} {e : α} (h : H.pop q = some (e, q1)) :
    (H.entries q).length = (H.entries q1).length + 1 := by
  rw [(hH.pop_some q e q1 h).1.length_eq, List.length_cons]

theorem IsMinQueue.length_push {α : Type} {H : MinHeap α} {key : α → Int}
    (hH : IsMinQueue H key) (q : H.Q) (e : α) :
    (H.entries (H.push q e)).length = (H.entries q).length + 1 := by
  rw [(hH.entries_push q e).length_eq, List.length_cons]

theorem IsMinQueue.entries_single {α : Type} {H : MinHeap α} {key : α → Int}
    (hH : IsMinQueue H key) (e : α) : (H.entries (H.push H.empty e)).Perm [e] := by
  have := hH.entries_push H.empty e
  rw [hH.entries_empty] at this
  exact this

theorem hasEdge_nonneg {g : Graph} (hw : NonNegative g) {u v w : Int}
    (h : HasEdge g u v w) : 0 ≤ w := by
  obtain ⟨_, hmem⟩ := h
  unfold Graph.edgesOf at hmem
  by_cases hlt : u.toNat < g.adj_list.length
  · rw [List.getD_eq_getElem _ _ hlt] at hmem
    exact hw _ (List.getElem_mem _) _ hmem
  · rw [List.getD_eq_default _ _ (by omega)] at hmem
    simp at hmem

theorem hasEdge_range {g : Graph} (hr : NeighboursInRange g) {u v w : Int}
    (h : HasEdge g u v w) :
    (0 ≤ u ∧ u < (g.adj_list.length : Int)) ∧ 0 ≤ v ∧ v < (g.adj_list.length : Int) := by
  obtain ⟨h0, hmem⟩ := h
  unfold Graph.edgesOf at hmem
  by_cases hlt : u.toNat < g.adj_list.length
  · rw [List.getD_eq_getElem _ _ hlt] at hmem
    exact ⟨⟨h0, by omega⟩, hr _ (List.getElem_mem _) _ hmem⟩
  · rw [List.getD_eq_default _ _ (by omega)] at hmem
    simp at hmem

theorem walk_nonneg {g : Graph} (hw : NonNegative g) {s v W : Int}
    (h : Walk g s v W) : 0 ≤ W := by
  induction h with
  | nil => exact le_refl _
  | snoc _ he ih => have := hasEdge_nonneg hw he; omega

/-! ## Sums over the visited nodes -/

theorem sum_range_getD {β : Type} [AddCommMonoid β] {α : Type} (f : α → β) (dflt : α)
    (l : List α) : ∑ u in Finset.range l.length, f (l.getD u dflt) = (l.map f).sum := by
  induction l with
  | nil => simp
  | cons x xs ih =>
    rw [List.length_cons, Finset.sum_range_succ', List.map_cons, List.sum_cons]
    simp only [List.getD_cons_succ, List.getD_cons_zero]
    rw [ih, add_comm]

theorem edgesOf_natCast (g : Graph) (u : Nat) :
    g.edgesOf (u : Int) = g.adj_list.getD u [] := by
  simp [Graph.edgesOf]

theorem edgeWeightSum_nonneg {g : Graph} (hw : NonNegative g) (u : Int) :
    0 ≤ edgeWeightSum (g.edgesOf u) := by
  unfold edgeWeightSum
  apply List.sum_nonneg
  intro x hx
  obtain ⟨e, he, rfl⟩ := List.mem_map.1 hx
  unfold Graph.edgesOf at he
  by_cases hlt : u.toNat < g.adj_list.length
  · rw [List.getD_eq_getElem _ _ hlt] at he
    exact hw _ (List.getElem_mem _) _ he
  · rw [List.getD_eq_default _ _ (by omega)] at he
    simp at he

theorem visitedWeight_le_total {g : Graph} (hw : NonNegative g) (vis : Int → Bool) :
    visitedWeight g vis ≤ g.totalWeight := by
  have h : g.totalWeight
      = ∑ u in Finset.range g.adj_list.length, edgeWeightSum (g.edgesOf (u : Int)) := by
    unfold Graph.totalWeight
    rw [← sum_range_getD edgeWeightSum [] g.adj_list]
    apply Finset.sum_congr rfl
    intro u _
    rw [edgesOf_natCast]
  rw [h]
  unfold visitedWeight
  apply Finset.sum_le_sum
  intro u _
  by_cases hv : vis (u : Int) = true
  · simp [hv]
  · simp only [hv]
    exact edgeWeightSum_nonneg hw _

theorem visitedWeight_init (g : Graph) : visitedWeight g (fun _ => false) = 0 := by
  simp [visitedWeight]

theorem pendingEdges_init (g : Graph) : pendingEdges g (fun _ => false) = g.edgeCount := by
  unfold pendingEdges Graph.edgeCount
  rw [← sum_range_getD List.length [] g.adj_list]
  apply Finset.sum_congr rfl
  intro u _
  simp [edgesOf_natCast]

theorem visitedWeight_update (g : Graph) (vis : Int → Bool) {a : Int}
    (h0 : 0 ≤ a) (h1 : a < (g.adj_list.length : Int)) (hv : vis a = false) :
    visitedWeight g (Function.update vis a true)
      = visitedWeight g vis + edgeWeightSum (g.edgesOf a) := by
  have hmem : a.toNat ∈ Finset.range g.adj_list.length := by
    rw [Finset.mem_range]; omega
  have hcast : ((a.toNat : Nat) : Int) = a := Int.toNat_of_nonneg h0
  unfold visitedWeight
  rw [← Finset.add_sum_erase _ _ hmem, ← Finset.add_sum_erase _
    (fun u : Nat => if vis (u : Int) = true then edgeWeightSum (g.edgesOf (u : Int)) else 0) hmem]
  have hrest : ∀ u ∈ (Finset.range g.adj_list.length).erase a.toNat,
      (if Function.update vis a true (u : Int) = true
        then edgeWeightSum (g.edgesOf (u : Int)) else 0)
      = (if vis (u : Int) = true then edgeWeightSum (g.edgesOf (u : Int)) else 0) := by
    intro u hu
    have hne : (u : Int) ≠ a := by
      intro h
      have := (Finset.mem_erase.1 hu).1
      apply this
      omega
    rw [Function.update_noteq hne]
  rw [Finset.sum_congr rfl hrest, hcast]
  simp [hv]
  ring

theorem pendingEdges_update (g : Graph) (vis : Int → Bool) {a : Int}
    (h0 : 0 ≤ a) (h1 : a < (g.adj_list.length : Int)) (hv : vis a = false) :
    pendingEdges g vis
      = pendingEdges g (Function.update vis a true) + (g.edgesOf a).length := by
  have hmem : a.toNat ∈ Finset.range g.adj_list.length := by
    rw [Finset.mem_range]; omega
  have hcast : ((a.toNat : Nat) : Int) = a := Int.toNat_of_nonneg h0
  unfold pendingEdges
  rw [← Finset.add_sum_erase _ _ hmem, ← Finset.add_sum_erase _
    (fun u : Nat => if Function.update vis a true (u : Int) = true
      then 0 else (g.edgesOf (u : Int)).length) hmem]
  have hrest : ∀ u ∈ (Finset.range g.adj_list.length).erase a.toNat,
      (if Function.update vis a true (u : Int) = true
        then 0 else (g.edgesOf (u : Int)).length)
      = (if vis (u : Int) = true then 0 else (g.edgesOf (u : Int)).length) := by
    intro u hu
    have hne : (u : Int) ≠ a := by
      intro h
      have := (Finset.mem_erase.1 hu).1
      apply this
      omega
    rw [Function.update_noteq hne]
  rw [Finset.sum_congr rfl hrest, hcast]
  simp [hv]
  ring

/-! ## Preservation of the Dijkstra invariant -/

theorem DInv.mono {g : Graph} {s B B1 : Int} {vis : Int → Bool} {d : Int → Int}
    {mh : List (Int × Int)} (h : DInv g s B vis d mh) (hB : B ≤ B1) :
    DInv g s B1 vis d mh :=
  ⟨h.src, fun v hv => ⟨(h.fin v hv).1, (h.fin v hv).2.1, le_trans (h.fin v hv).2.2 hB⟩,
    h.opt, h.opn, h.ent⟩

theorem DInv.of_perm {g : Graph} {s B : Int} {vis : Int → Bool} {d : Int → Int}
    {mh mh1 : List (Int × Int)} (h : DInv g s B vis d mh) (hp : mh.Perm mh1) :
    DInv g s B vis d mh1 :=
  ⟨h.src, h.fin, h.opt, fun v hv hf => hp.mem_iff.1 (h.opn v hv hf),
    fun e he => h.ent e (hp.mem_iff.2 he)⟩

theorem edgeWeightSum_cons (e : Int × Int) (es : List (Int × Int)) :
    edgeWeightSum (e :: es) = e.2 + edgeWeightSum es := by
  simp [edgeWeightSum]

theorem edgeWeightSum_nonneg_of {es : List (Int × Int)} (h : ∀ e ∈ es, (0 : Int) ≤ e.2) :
    0 ≤ edgeWeightSum es := by
  unfold edgeWeightSum
  apply List.sum_nonneg
  intro x hx
  obtain ⟨e, he, rfl⟩ := List.mem_map.1 hx
  exact h e he

theorem relaxEdges_spec {H : MinHeap (Int × Int)} (hH : IsMinQueue H Prod.snd) {g : Graph}
    (hw : NonNegative g) (hr : NeighboursInRange g)
    (s a : Int) (vis : Int → Bool) (hva : vis a = true) :
    ∀ (es : List (Int × Int)) (B : Int) (d : Int → Int) (mh : H.Q),
      (∀ e ∈ es, HasEdge g a e.1 e.2) → B + edgeWeightSum es < INT_MAX →
      DInv g s B vis d (H.entries mh) → SettledOn g (fun u => vis u = true ∧ u ≠ a) d →
      ∃ d1 mh1, relaxEdges H (g.adj_list.length : Int) a es (d, mh) = .ok (d1, mh1) ∧
        DInv g s (B + edgeWeightSum es) vis d1 (H.entries mh1) ∧
        SettledOn g (fun u => vis u = true ∧ u ≠ a) d1 ∧
        (∀ e ∈ es, d1 e.1 ≠ INT_MAX ∧ d1 e.1 ≤ d1 a + e.2) ∧ (∀ v, d1 v ≤ d v) ∧
        d1 a = d a ∧
        (H.entries mh1).length ≤ (H.entries mh).length + es.length := by
  intro es
  induction es with
  | nil =>
    intro B d mh _ _ hinv hset
    refine ⟨d, mh, rfl, ?_, hset, ?_, fun _ => le_refl _, rfl, by simp⟩
    · simpa [edgeWeightSum] using hinv
    · intro e he; simp at he
  | cons e es ih =>
    intro B d mh hedges hB hinv hset
    obtain ⟨v, w⟩ := e
    have hedge : HasEdge g a v w := hedges (v, w) (List.mem_cons_self _ _)
    have hedges1 : ∀ e ∈ es, HasEdge g a e.1 e.2 :=
      fun e he => hedges e (List.mem_cons_of_mem _ he)
    have hw0 : 0 ≤ w := hasEdge_nonneg hw hedge
    have hvr := (hasEdge_range hr hedge).2
    have hsum0 : 0 ≤ edgeWeightSum es :=
      edgeWeightSum_nonneg_of fun e he => hasEdge_nonneg hw (hedges1 e he)
    rw [edgeWeightSum_cons] at hB
    simp only at hB
    have haf := hinv.fin a (hinv.opt a hva).1
    have hda0 : 0 ≤ d a := walk_nonneg hw haf.2.1
    have hdaB : d a ≤ B := haf.2.2
    have hIM : INT_MAX = 2147483647 := rfl
    have hwrap : wrapInt (d a + w) = d a + w := wrapInt_eq_self (by omega) (by omega)
    rw [edgeWeightSum_cons]
    simp only [relaxEdges, hvr, and_self, if_true, hwrap, Function.update_same]
    by_cases hgt : d v > d a + w
    · simp only [hgt, if_true]
      have hvis : vis v = false := by
        by_contra hc
        have hc1 : vis v = true := by simpa using hc
        have := (hinv.opt v hc1).2 _ (Walk.snoc haf.2.1 hedge)
        omega
      have hva_ne : v ≠ a := by
        intro h; rw [h] at hvis; rw [hva] at hvis; exact Bool.noConfusion hvis
      have hinv1 : DInv g s (B + w) vis (Function.update d v (d a + w))
          ((v, d a + w) :: H.entries mh) := by
        refine ⟨?_, ?_, ?_, ?_, ?_⟩
        · by_cases hsv : s = v
          · exfalso
            have := hinv.src
            rw [hsv] at this
            omega
          · rw [Function.update_noteq hsv]; exact hinv.src
        · intro x hx
          by_cases hxv : x = v
          · subst hxv
            rw [Function.update_same]
            exact ⟨hvr, Walk.snoc haf.2.1 hedge, by omega⟩
          · rw [Function.update_noteq hxv] at hx ⊢
            have := hinv.fin x hx
            exact ⟨this.1, this.2.1, by omega⟩
        · intro x hx
          have hxv : x ≠ v := by
            intro h; rw [h] at hx; rw [hvis] at hx; exact Bool.noConfusion hx
          rw [Function.update_noteq hxv]
          exact hinv.opt x hx
        · intro x hx hfin
          by_cases hxv : x = v
          · subst hxv
            rw [Function.update_same]
            exact List.mem_cons_self _ _
          · rw [Function.update_noteq hxv] at hfin ⊢
            exact List.mem_cons_of_mem _ (hinv.opn x hx hfin)
        · intro e he
          rcases List.mem_cons.1 he with rfl | he
          · simp only [Function.update_same]
            exact ⟨hvr, le_refl _, by omega⟩
          · have := hinv.ent e he
            by_cases hev : e.1 = v
            · rw [hev, Function.update_same]
              rw [hev] at this
              exact ⟨this.1, by omega, by omega⟩
            · rw [Function.update_noteq hev]
              exact this
      have hset1 : SettledOn g (fun u => vis u = true ∧ u ≠ a)
          (Function.update d v (d a + w)) := by
        intro u hu y w1 hy
        have huv : u ≠ v := by
          intro h; rw [h] at hu; rw [hvis] at hu; exact Bool.noConfusion hu.1
        rw [Function.update_noteq huv]
        have := hset u hu y w1 hy
        by_cases hyv : y = v
        · rw [hyv, Function.update_same]
          rw [hyv] at this
          exact ⟨by omega, by omega⟩
        · rw [Function.update_noteq hyv]
          exact this
      obtain ⟨d1, mh1, hrun, hI, hS, hE, hM, hA, hL⟩ :=
        ih (B + w) (Function.update d v (d a + w)) (H.push mh (v, d a + w)) hedges1
          (by omega) (hinv1.of_perm (hH.entries_push mh (v, d a + w)).symm) hset1
      have hAa : d1 a = d a := by
        rw [hA, Function.update_noteq (Ne.symm hva_ne)]
      refine ⟨d1, mh1, hrun, ?_, hS, ?_, ?_, hAa, ?_⟩
      · rw [← add_assoc]; exact hI
      · intro e he
        rcases List.mem_cons.1 he with rfl | he
        · have := hM v
          rw [Function.update_same] at this
          simp only
          exact ⟨by omega, by omega⟩
        · exact hE e he
      · intro x
        have := hM x
        by_cases hxv : x = v
        · rw [hxv, Function.update_same] at this
          rw [hxv]
          omega
        · rw [Function.update_noteq hxv] at this
          exact this
      · rw [hH.length_push] at hL
        simp only [List.length_cons]
        omega
    · simp only [hgt, if_false]
      obtain ⟨d1, mh1, hrun, hI, hS, hE, hM, hA, hL⟩ :=
        ih B d mh hedges1 (by omega) hinv hset
      refine ⟨d1, mh1, hrun, hI.mono (by omega), hS, ?_, hM, hA, ?_⟩
      · intro e he
        rcases List.mem_cons.1 he with rfl | he
        · have := hM v
          simp only
          exact ⟨by omega, by omega⟩
        · exact hE e he
      · simp only [List.length_cons]
        omega

theorem walk_visited_or_queued {g : Graph} (hw : NonNegative g) {s B : Int}
    {vis : Int → Bool} {d : Int → Int} {mh : List (Int × Int)}
    (hinv : DInv g s B vis d mh) (hset : SettledOn g (fun u => vis u = true) d)
    {x W : Int} (hwalk : Walk g s x W) (hW : W < INT_MAX) :
    (vis x = true ∧ d x ≤ W) ∨ ∃ e ∈ mh, e.2 ≤ W := by
  induction hwalk with
  | nil =>
    by_cases hv : vis s = true
    · exact Or.inl ⟨hv, le_of_eq hinv.src⟩
    · right
      have hv0 : vis s = false := by simpa using hv
      have hfin : d s ≠ INT_MAX := by rw [hinv.src]; decide
      refine ⟨(s, d s), hinv.opn s hv0 hfin, ?_⟩
      simp only [hinv.src, le_refl]
  | @snoc u v w W1 hwk he ih =>
    have hw0 : 0 ≤ w := hasEdge_nonneg hw he
    have hW1 : 0 ≤ W1 := walk_nonneg hw hwk
    rcases ih (by omega) with ⟨hvu, hdu⟩ | ⟨e, he1, he2⟩
    · have hrel := (hset u hvu v w he).2
      have hfin : d v ≠ INT_MAX := (hset u hvu v w he).1
      by_cases hv : vis v = true
      · exact Or.inl ⟨hv, by omega⟩
      · right
        have hv0 : vis v = false := by simpa using hv
        exact ⟨(v, d v), hinv.opn v hv0 hfin, by simp only; omega⟩
    · exact Or.inr ⟨e, he1, by omega⟩

theorem popped_is_final {g : Graph} (hw : NonNegative g) {s B : Int}
    {vis : Int → Bool} {d : Int → Int} {mh : List (Int × Int)}
    (hinv : DInv g s B vis d mh) (hset : SettledOn g (fun u => vis u = true) d)
    (hB : B < INT_MAX) {top : Int × Int} (hmem : top ∈ mh)
    (hmin : ∀ e ∈ mh, top.2 ≤ e.2)
    (hv : vis top.1 = false) : ∀ W, Walk g s top.1 W → d top.1 ≤ W := by
  intro W hwalk
  have hent := hinv.ent top hmem
  have hfin := hinv.fin top.1 hent.2.2
  by_cases hW : W < INT_MAX
  · rcases walk_visited_or_queued hw hinv hset hwalk hW with ⟨hv1, _⟩ | ⟨e, he1, he2⟩
    · rw [hv] at hv1; exact Bool.noConfusion hv1
    · have := hmin e he1
      omega
  · omega

/-- One iteration of the loop of `dijkstra` from a state satisfying the
invariant: either the queue is empty and the loop ends, or the next state
satisfies the invariant and the termination measure has decreased. -/
theorem dijkstraStep_spec {H : MinHeap (Int × Int)} (hH : IsMinQueue H Prod.snd) {g : Graph}
    (hw : NonNegative g) (hr : NeighboursInRange g) (hT : g.totalWeight < INT_MAX) (s : Int)
    (st : DState H.Q)
    (hinv : DInv g s (visitedWeight g st.visited) st.visited st.d (H.entries st.mh))
    (hset : SettledOn g (fun u => st.visited u = true) st.d) :
    (dijkstraStep H g (g.adj_list.length : Int) st = .ok none ∧ H.entries st.mh = []) ∨
    ∃ st1 : DState H.Q, dijkstraStep H g (g.adj_list.length : Int) st = .ok (some st1) ∧
      DInv g s (visitedWeight g st1.visited) st1.visited st1.d (H.entries st1.mh) ∧
      SettledOn g (fun u => st1.visited u = true) st1.d ∧
      (H.entries st1.mh).length + pendingEdges g st1.visited
        < (H.entries st.mh).length + pendingEdges g st.visited := by
  obtain ⟨d, vis, mh⟩ := st
  simp only at hinv hset ⊢
  unfold dijkstraStep
  simp only
  cases hpop : H.pop mh with
  | none => exact Or.inl ⟨rfl, hH.pop_none mh hpop⟩
  | some p =>
    obtain ⟨top, rest⟩ := p
    right
    have hmem : top ∈ H.entries mh := (hH.mem_pop hpop top).2 (Or.inl rfl)
    have hmin := (hH.pop_some mh top rest hpop).2
    have hent := hinv.ent top hmem
    have hlen := hH.length_pop hpop
    have hsub : ∀ e ∈ H.entries rest, e ∈ H.entries mh :=
      fun e he => (hH.mem_pop hpop e).2 (Or.inr he)
    simp only [hent.1, and_self, if_true]
    by_cases hv : vis top.1 = true
    · simp only [hv, Bool.not_true, Bool.false_eq_true, if_false]
      refine ⟨_, rfl, ?_, hset, by simp only; omega⟩
      refine ⟨hinv.src, hinv.fin, hinv.opt, ?_, fun e he => hinv.ent e (hsub e he)⟩
      intro x hx hfin
      rcases (hH.mem_pop hpop _).1 (hinv.opn x hx hfin) with h | h
      · exfalso
        rw [← h] at hv
        simp only at hv hx
        rw [hx] at hv
        exact Bool.noConfusion hv
      · exact h
    · have hv0 : vis top.1 = false := by simpa using hv
      simp only [hv0, Bool.not_false, if_true]
      have hBle := visitedWeight_le_total hw (Function.update vis top.1 true)
      have hupd := visitedWeight_update g vis hent.1.1 hent.1.2 hv0
      have hpend := pendingEdges_update g vis hent.1.1 hent.1.2 hv0
      have hfinal := popped_is_final hw hinv hset
        (lt_of_le_of_lt (visitedWeight_le_total hw vis) hT) hmem hmin hv0
      have hinv1 : DInv g s (visitedWeight g vis) (Function.update vis top.1 true) d
          (H.entries rest) := by
        refine ⟨hinv.src, hinv.fin, ?_, ?_, fun e he => hinv.ent e (hsub e he)⟩
        · intro x hx
          by_cases hxa : x = top.1
          · rw [hxa]; exact ⟨hent.2.2, hfinal⟩
          · rw [Function.update_noteq hxa] at hx
            exact hinv.opt x hx
        · intro x hx hfin
          have hxa : x ≠ top.1 := by
            intro h; rw [h, Function.update_same] at hx; exact Bool.noConfusion hx
          rw [Function.update_noteq hxa] at hx
          rcases (hH.mem_pop hpop _).1 (hinv.opn x hx hfin) with h | h
          · exfalso; apply hxa; rw [← h]
          · exact h
      have hset1 : SettledOn g
          (fun u => Function.update vis top.1 true u = true ∧ u ≠ top.1) d := by
        intro u hu
        have := hu.1
        rw [Function.update_noteq hu.2] at this
        exact hset u this
      obtain ⟨d1, mh1, hrun, hI, hS, hE, _, _, hL⟩ :=
        relaxEdges_spec hH hw hr s top.1 (Function.update vis top.1 true)
          (Function.update_same _ _ _) (g.edgesOf top.1) (visitedWeight g vis) d rest
          (fun e he => ⟨hent.1.1, he⟩) (by omega) hinv1 hset1
      rw [hrun]
      refine ⟨_, rfl, ?_, ?_, by simp only; omega⟩
      · simp only; rw [hupd]; exact hI
      · intro u hu v w he
        by_cases hua : u = top.1
        · rw [hua] at he ⊢
          exact hE (v, w) he.2
        · exact hS u ⟨hu, hua⟩ v w he

theorem dijkstraLoop_spec {H : MinHeap (Int × Int)} (hH : IsMinQueue H Prod.snd) {g : Graph}
    (hw : NonNegative g) (hr : NeighboursInRange g) (hT : g.totalWeight < INT_MAX) (s : Int) :
    ∀ (fuel : Nat) (st : DState H.Q),
      DInv g s (visitedWeight g st.visited) st.visited st.d (H.entries st.mh) →
      SettledOn g (fun u => st.visited u = true) st.d →
      (H.entries st.mh).length + pendingEdges g st.visited < fuel →
      ∃ d vis, dijkstraLoop H g (g.adj_list.length : Int) fuel st = .ok d ∧
        DInv g s g.totalWeight vis d [] ∧ SettledOn g (fun u => vis u = true) d := by
  intro fuel
  induction fuel with
  | zero => intro st _ _ h; omega
  | succ fuel ih =>
    intro st hinv hset hfuel
    rcases dijkstraStep_spec hH hw hr hT s st hinv hset with ⟨hrun, hnil⟩ | ⟨st1, hrun, hI, hS, hM⟩
    · refine ⟨st.d, st.visited, ?_, ?_, hset⟩
      · simp only [dijkstraLoop, hrun]
      · rw [hnil] at hinv
        exact hinv.mono (visitedWeight_le_total hw st.visited)
    · obtain ⟨d, vis, hloop, hfin⟩ := ih st1 hI hS (by omega)
      refine ⟨d, vis, ?_, hfin⟩
      simp only [dijkstraLoop, hrun]
      exact hloop

theorem hasNegativeWeight_eq_false {g : Graph} (hw : NonNegative g) :
    hasNegativeWeight g = false := by
  unfold hasNegativeWeight
  rw [List.any_eq_false]
  intro es hes
  rw [Bool.not_eq_true, List.any_eq_false]
  intro e he
  have := hw es hes e he
  simp only [decide_eq_true_eq, not_lt]
  exact this

theorem hasNegativeWeight_eq_true {g : Graph}
    (h : ∃ es ∈ g.adj_list, ∃ e ∈ es, e.2 < (0 : Int)) : hasNegativeWeight g = true := by
  obtain ⟨es, hes, e, he, hneg⟩ := h
  unfold hasNegativeWeight
  rw [List.any_eq_true]
  refine ⟨es, hes, ?_⟩
  rw [List.any_eq_true]
  exact ⟨e, he, by simpa using hneg⟩

theorem tableToList_length (n : Nat) (d : Int → Int) : (tableToList n d).length = n := by
  simp [tableToList]

theorem tableToList_getElem? (n : Nat) (d : Int → Int) {v : Int} (h0 : 0 ≤ v)
    (h1 : v < (n : Int)) : (tableToList n d)[v.toNat]? = some (d v) := by
  have hlt : v.toNat < n := by omega
  simp [tableToList, List.getElem?_map, List.getElem?_range hlt, Int.toNat_of_nonneg h0]

theorem walk_inv {g : Graph} {s v W : Int} (h : Walk g s v W) :
    (v = s ∧ W = 0) ∨ ∃ u w W1, Walk g s u W1 ∧ HasEdge g u v w ∧ W = W1 + w := by
  cases h with
  | nil => exact Or.inl ⟨rfl, rfl⟩
  | snoc hwk he => exact Or.inr ⟨_, _, _, hwk, he, rfl⟩

theorem reachable_range {g : Graph} (hr : NeighboursInRange g) {s v : Int}
    (hs : 0 ≤ s ∧ s < (g.adj_list.length : Int)) (h : Reachable g s v) :
    0 ≤ v ∧ v < (g.adj_list.length : Int) := by
  obtain ⟨W, hwalk⟩ := h
  cases hwalk with
  | nil => exact hs
  | snoc _ he => exact (hasEdge_range hr he).2

/-- The outcome of `dijkstra` on a well-formed input: a table holding the least
walk weight for every reachable node and `INT_MAX` for every other node. -/
theorem dijkstra_spec {H : MinHeap (Int × Int)} (hH : IsMinQueue H Prod.snd) {g : Graph}
    (hr : NeighboursInRange g) (hw : NonNegative g)
    (hT : g.totalWeight < INT_MAX) {s : Int} (h0 : 0 ≤ s)
    (h1 : s < (g.adj_list.length : Int)) :
    ∃ d : Int → Int, dijkstra H g s = .ok (tableToList g.adj_list.length d) ∧
      (∀ v, Reachable g s v → IsShortestDist g s v (d v)) ∧
      (∀ v, ¬ Reachable g s v → d v = INT_MAX) := by
  have hinit : DInv g s (visitedWeight g (fun _ => false)) (fun _ => false)
      (Function.update (fun _ => INT_MAX) s 0) [(s, 0)] := by
    refine ⟨Function.update_same _ _ _, ?_, ?_, ?_, ?_⟩
    · intro v hv
      by_cases hvs : v = s
      · subst hvs
        rw [Function.update_same, visitedWeight_init]
        exact ⟨⟨h0, h1⟩, Walk.nil, le_refl _⟩
      · rw [Function.update_noteq hvs] at hv
        exact absurd rfl hv
    · intro v hv; exact Bool.noConfusion hv
    · intro v _ hv
      by_cases hvs : v = s
      · subst hvs
        rw [Function.update_same]
        exact List.mem_singleton.2 rfl
      · rw [Function.update_noteq hvs] at hv
        exact absurd rfl hv
    · intro e he
      rw [List.mem_singleton.1 he]
      simp only [Function.update_same, le_refl, true_and]
      exact ⟨⟨h0, h1⟩, by decide⟩
  have hset : SettledOn g (fun u => (fun _ : Int => false) u = true)
      (Function.update (fun _ => INT_MAX) s 0) := by
    intro u hu; exact Bool.noConfusion hu
  have hsingle := hH.entries_single (s, (0 : Int))
  obtain ⟨d, vis, hrun, hI, hS⟩ := dijkstraLoop_spec hH hw hr hT s (g.edgeCount + 2)
    ⟨Function.update (fun _ => INT_MAX) s 0, fun _ => false, H.push H.empty (s, 0)⟩
    (hinit.of_perm hsingle.symm) hset
    (by simp only [pendingEdges_init, hsingle.length_eq, List.length_singleton]; omega)
  have hvisited : ∀ v W, Walk g s v W → vis v = true := by
    intro v W hwalk
    induction hwalk with
    | nil =>
      by_contra hc
      have hc0 : vis s = false := by simpa using hc
      have := hI.opn s hc0 (by rw [hI.src]; decide)
      simp at this
    | @snoc u v1 w1 W1 _ he ih =>
      by_contra hc
      have hc0 : vis v1 = false := by simpa using hc
      have := hI.opn v1 hc0 (hS u ih v1 w1 he).1
      simp at this
  refine ⟨d, ?_, ?_, ?_⟩
  · unfold dijkstra
    simp only [ge_iff_le, not_le.2 h1, if_false, hasNegativeWeight_eq_false hw,
      Bool.false_eq_true, not_lt.2 h0, hrun]
  · rintro v ⟨W, hwalk⟩
    have hv := hI.opt v (hvisited v W hwalk)
    exact ⟨(hI.fin v hv.1).2.1, hv.2⟩
  · intro v hv
    by_contra hc
    exact hv ⟨_, (hI.fin v hc).2.1⟩

/-! ## The loop without the bound on the total weight -/

theorem relaxEdges_reach {H : MinHeap (Int × Int)} (hH : IsMinQueue H Prod.snd) {g : Graph}
    (hr : NeighboursInRange g) (s a : Int) (ha : Reachable g s a) :
    ∀ (es : List (Int × Int)) (d : Int → Int) (mh : H.Q),
      (∀ e ∈ es, HasEdge g a e.1 e.2) →
      (∀ v, d v ≠ INT_MAX → Reachable g s v) →
      (∀ e ∈ H.entries mh,
        (0 ≤ e.1 ∧ e.1 < (g.adj_list.length : Int)) ∧ Reachable g s e.1) →
      ∃ d1 mh1, relaxEdges H (g.adj_list.length : Int) a es (d, mh) = .ok (d1, mh1) ∧
        (∀ v, d1 v ≠ INT_MAX → Reachable g s v) ∧
        (∀ e ∈ H.entries mh1,
          (0 ≤ e.1 ∧ e.1 < (g.adj_list.length : Int)) ∧ Reachable g s e.1) ∧
        (H.entries mh1).length ≤ (H.entries mh).length + es.length := by
  intro es
  induction es with
  | nil => intro d mh _ hd hm; exact ⟨d, mh, rfl, hd, hm, by simp⟩
  | cons e es ih =>
    intro d mh hedges hd hm
    obtain ⟨v, w⟩ := e
    have hedge : HasEdge g a v w := hedges (v, w) (List.mem_cons_self _ _)
    have hedges1 : ∀ e ∈ es, HasEdge g a e.1 e.2 :=
      fun e he => hedges e (List.mem_cons_of_mem _ he)
    have hvr := (hasEdge_range hr hedge).2
    have hv : Reachable g s v := by
      obtain ⟨W, hW⟩ := ha
      exact ⟨_, Walk.snoc hW hedge⟩
    simp only [relaxEdges, hvr, and_self, if_true, Function.update_same]
    by_cases hgt : d v > wrapInt (d a + w)
    · simp only [hgt, if_true]
      obtain ⟨d1, mh1, hrun, hd1, hm1, hL⟩ :=
        ih (Function.update d v (wrapInt (d a + w))) (H.push mh (v, wrapInt (d a + w))) hedges1
          (by
            intro x hx
            by_cases hxv : x = v
            · rw [hxv]; exact hv
            · rw [Function.update_noteq hxv] at hx; exact hd x hx)
          (by
            intro e he
            rcases List.mem_cons.1 ((hH.entries_push mh _).mem_iff.1 he) with rfl | he
            · exact ⟨hvr, hv⟩
            · exact hm e he)
      refine ⟨d1, mh1, hrun, hd1, hm1, ?_⟩
      rw [hH.length_push] at hL
      simp only [List.length_cons]
      omega
    · simp only [hgt, if_false]
      obtain ⟨d1, mh1, hrun, hd1, hm1, hL⟩ := ih d mh hedges1 hd hm
      refine ⟨d1, mh1, hrun, hd1, hm1, ?_⟩
      simp only [List.length_cons]
      omega

theorem dijkstraStep_reach {H : MinHeap (Int × Int)} (hH : IsMinQueue H Prod.snd) {g : Graph}
    (hr : NeighboursInRange g) (s : Int) (st : DState H.Q)
    (hd : ∀ v, st.d v ≠ INT_MAX → Reachable g s v)
    (hm : ∀ e ∈ H.entries st.mh,
      (0 ≤ e.1 ∧ e.1 < (g.adj_list.length : Int)) ∧ Reachable g s e.1) :
    dijkstraStep H g (g.adj_list.length : Int) st = .ok none ∨
    ∃ st1 : DState H.Q, dijkstraStep H g (g.adj_list.length : Int) st = .ok (some st1) ∧
      (∀ v, st1.d v ≠ INT_MAX → Reachable g s v) ∧
      (∀ e ∈ H.entries st1.mh,
        (0 ≤ e.1 ∧ e.1 < (g.adj_list.length : Int)) ∧ Reachable g s e.1) ∧
      (H.entries st1.mh).length + pendingEdges g st1.visited
        < (H.entries st.mh).length + pendingEdges g st.visited := by
  obtain ⟨d, vis, mh⟩ := st
  simp only at hd hm ⊢
  unfold dijkstraStep
  simp only
  cases hpop : H.pop mh with
  | none => exact Or.inl rfl
  | some p =>
    obtain ⟨top, rest⟩ := p
    right
    have hmem : top ∈ H.entries mh := (hH.mem_pop hpop top).2 (Or.inl rfl)
    have hent := hm top hmem
    have hlen := hH.length_pop hpop
    have hsub : ∀ e ∈ H.entries rest, e ∈ H.entries mh :=
      fun e he => (hH.mem_pop hpop e).2 (Or.inr he)
    simp only [hent.1, and_self, if_true]
    by_cases hv : vis top.1 = true
    · simp only [hv, Bool.not_true, Bool.false_eq_true, if_false]
      exact ⟨_, rfl, hd, fun e he => hm e (hsub e he), by simp only; omega⟩
    · have hv0 : vis top.1 = false := by simpa using hv
      simp only [hv0, Bool.not_false, if_true]
      have hpend := pendingEdges_update g vis hent.1.1 hent.1.2 hv0
      obtain ⟨d1, mh1, hrun, hd1, hm1, hL⟩ :=
        relaxEdges_reach hH hr s top.1 hent.2 (g.edgesOf top.1) d rest
          (fun e he => ⟨hent.1.1, he⟩) hd (fun e he => hm e (hsub e he))
      rw [hrun]
      exact ⟨_, rfl, hd1, hm1, by simp only; omega⟩

theorem dijkstraLoop_reach {H : MinHeap (Int × Int)} (hH : IsMinQueue H Prod.snd) {g : Graph}
    (hr : NeighboursInRange g) (s : Int) :
    ∀ (fuel : Nat) (st : DState H.Q),
      (∀ v, st.d v ≠ INT_MAX → Reachable g s v) →
      (∀ e ∈ H.entries st.mh,
        (0 ≤ e.1 ∧ e.1 < (g.adj_list.length : Int)) ∧ Reachable g s e.1) →
      (H.entries st.mh).length + pendingEdges g st.visited < fuel →
      ∃ d, dijkstraLoop H g (g.adj_list.length : Int) fuel st = .ok d ∧
        ∀ v, d v ≠ INT_MAX → Reachable g s v := by
  intro fuel
  induction fuel with
  | zero => intro st _ _ h; omega
  | succ fuel ih =>
    intro st hd hm hfuel
    rcases dijkstraStep_reach hH hr s st hd hm with hrun | ⟨st1, hrun, hd1, hm1, hM⟩
    · refine ⟨st.d, ?_, hd⟩
      simp only [dijkstraLoop, hrun]
    · obtain ⟨d, hloop, hfin⟩ := ih st1 hd1 hm1 (by omega)
      refine ⟨d, ?_, hfin⟩
      simp only [dijkstraLoop, hrun]
      exact hloop

/-- On a graph with in-range neighbours and no negative weight `dijkstra`
succeeds, and the entries it leaves finite belong to reachable nodes. -/
theorem dijkstra_reach {H : MinHeap (Int × Int)} (hH : IsMinQueue H Prod.snd) {g : Graph}
    (hr : NeighboursInRange g) (hw : NonNegative g)
    {s : Int} (h0 : 0 ≤ s) (h1 : s < (g.adj_list.length : Int)) :
    ∃ d : Int → Int, dijkstra H g s = .ok (tableToList g.adj_list.length d) ∧
      ∀ v, ¬ Reachable g s v → d v = INT_MAX := by
  have hsingle := hH.entries_single (s, (0 : Int))
  obtain ⟨d, hrun, hd⟩ := dijkstraLoop_reach hH hr s (g.edgeCount + 2)
    ⟨Function.update (fun _ => INT_MAX) s 0, fun _ => false, H.push H.empty (s, 0)⟩
    (by
      intro v hv
      by_cases hvs : v = s
      · rw [hvs]; exact ⟨0, Walk.nil⟩
      · simp only [Function.update_noteq hvs] at hv
        exact absurd rfl hv)
    (by
      intro e he
      rw [List.mem_singleton.1 (hsingle.mem_iff.1 he)]
      exact ⟨⟨h0, h1⟩, 0, Walk.nil⟩)
    (by simp only [pendingEdges_init, hsingle.length_eq, List.length_singleton]; omega)
  refine ⟨d, ?_, ?_⟩
  · unfold dijkstra
    simp only [ge_iff_le, not_le.2 h1, if_false, hasNegativeWeight_eq_false hw,
      Bool.false_eq_true, not_lt.2 h0, hrun]
  · intro v hv
    by_contra hc
    exact hv (hd v hc)

theorem dijkstraRows_ok (H : MinHeap (Int × Int)) (g : Graph) :
    ∀ l : List Nat, (∀ i ∈ l, ∃ row, dijkstra H g (i : Int) = .ok row) →
      dijkstraRows H g l = .ok (l.map (rowOf H g)) := by
  intro l
  induction l with
  | nil => intro _; rfl
  | cons i l ih =>
    intro h
    obtain ⟨row, hrow⟩ := h i (List.mem_cons_self _ _)
    have hl := ih fun j hj => h j (List.mem_cons_of_mem _ hj)
    simp only [dijkstraRows, hrow, hl, List.map_cons, rowOf]

/-! ## Cells, ids and the heuristic -/

theorem cellId_bounds {n : Nat} {c : Int × Int} (hc : InGrid n c) :
    0 ≤ c.1 * (n : Int) ∧ c.1 * (n : Int) + (n : Int) ≤ (n : Int) * n ∧
      0 ≤ cellId n c ∧ cellId n c < (n : Int) * n := by
  obtain ⟨h1, h2, h3, h4⟩ := hc
  have hn0 : (0 : Int) ≤ n := Int.ofNat_nonneg n
  have ha : 0 ≤ c.1 * (n : Int) := mul_nonneg h1 hn0
  have hb : (c.1 + 1) * (n : Int) ≤ (n : Int) * n :=
    mul_le_mul_of_nonneg_right (by omega) hn0
  have hb1 : c.1 * (n : Int) + (n : Int) ≤ (n : Int) * n := by
    have : (c.1 + 1) * (n : Int) = c.1 * (n : Int) + n := by ring
    omega
  unfold cellId
  exact ⟨ha, hb1, by omega, by omega⟩

theorem cellId_wrap {n : Nat} (hn : GridFits n) {c : Int × Int} (hc : InGrid n c) :
    wrapInt (wrapInt (c.1 * (n : Int)) + c.2) = cellId n c := by
  obtain ⟨ha, hb, _, _⟩ := cellId_bounds hc
  obtain ⟨h1, h2, h3, h4⟩ := hc
  have hn0 : (0 : Int) ≤ n := Int.ofNat_nonneg n
  have hfit : (n : Int) * n + 2 * n ≤ 2147483647 := hn
  have e1 : wrapInt (c.1 * (n : Int)) = c.1 * (n : Int) :=
    wrapInt_eq_self (by omega) (by omega)
  rw [e1, wrapInt_eq_self (by omega) (by omega)]
  rfl

theorem cellId_div {n : Nat} {c : Int × Int} (hc : InGrid n c) :
    Int.tdiv (cellId n c) n = c.1 ∧ Int.tmod (cellId n c) n = c.2 := by
  obtain ⟨_, _, h0, _⟩ := cellId_bounds hc
  obtain ⟨h1, h2, h3, h4⟩ := hc
  have hn0 : (0 : Int) < n := by omega
  rw [Int.tdiv_eq_ediv h0 (le_of_lt hn0), Int.tmod_eq_emod h0 (le_of_lt hn0)]
  unfold cellId
  constructor
  · rw [Int.add_comm, Int.add_mul_ediv_right _ _ (ne_of_gt hn0), Int.ediv_eq_zero_of_lt h3 h4]
    omega
  · rw [Int.add_comm, Int.add_mul_emod_self, Int.emod_eq_of_lt h3 h4]

theorem cellId_inj {n : Nat} {c c1 : Int × Int} (hc : InGrid n c) (hc1 : InGrid n c1)
    (h : cellId n c = cellId n c1) : c = c1 := by
  have h1 := cellId_div hc
  have h2 := cellId_div hc1
  rw [h] at h1
  exact Prod.ext (h1.1.symm.trans h2.1) (h1.2.symm.trans h2.2)

theorem mazeAt_isSome {maze : List (List Int)} {n : Nat} (hg : IsGrid maze n)
    {c : Int × Int} (hc : InGrid n c) : ∃ v, mazeAt maze c.1 c.2 = some v := by
  obtain ⟨h1, h2, h3, h4⟩ := hc
  obtain ⟨hl, hrow⟩ := hg
  have hx : c.1.toNat < maze.length := by omega
  have hy : c.2.toNat < (maze[c.1.toNat]).length := by
    rw [hrow _ (List.getElem_mem _)]; omega
  refine ⟨(maze[c.1.toNat])[c.2.toNat], ?_⟩
  unfold mazeAt
  simp only [h1, h3, and_self, if_true, List.getElem?_eq_getElem hx,
    List.getElem?_eq_getElem hy]

theorem heuristic_nonneg (a b : Int × Int) : 0 ≤ heuristic a b := by
  unfold heuristic
  positivity

theorem heuristic_self (a : Int × Int) : heuristic a a = 0 := by
  simp [heuristic]

theorem heuristic_le {n : Nat} {a b : Int × Int} (ha : InGrid n a) (hb : InGrid n b) :
    heuristic a b ≤ 2 * (n : Int) := by
  obtain ⟨h1, h2, h3, h4⟩ := ha
  obtain ⟨h5, h6, h7, h8⟩ := hb
  unfold heuristic
  have e1 : |a.1 - b.1| ≤ (n : Int) := abs_le.2 ⟨by omega, by omega⟩
  have e2 : |a.2 - b.2| ≤ (n : Int) := abs_le.2 ⟨by omega, by omega⟩
  omega

theorem heuristic_step {maze : List (List Int)} {n : Nat} {c c1 : Int × Int}
    (h : GridStep maze n c c1) (goal : Int × Int) :
    heuristic c goal ≤ heuristic c1 goal + 1 := by
  obtain ⟨_, _, hadj⟩ := h
  unfold heuristic
  rcases hadj with rfl | rfl | rfl | rfl <;> simp only <;>
    rcases abs_cases (c.1 - goal.1) with ⟨e1, _⟩ | ⟨e1, _⟩ <;>
    rcases abs_cases (c.2 - goal.2) with ⟨e2, _⟩ | ⟨e2, _⟩ <;>
    rcases abs_cases (c.1 - 1 - goal.1) with ⟨e3, _⟩ | ⟨e3, _⟩ <;>
    rcases abs_cases (c.1 + 1 - goal.1) with ⟨e4, _⟩ | ⟨e4, _⟩ <;>
    rcases abs_cases (c.2 - 1 - goal.2) with ⟨e5, _⟩ | ⟨e5, _⟩ <;>
    rcases abs_cases (c.2 + 1 - goal.2) with ⟨e6, _⟩ | ⟨e6, _⟩ <;>
    omega

/-- The Manhattan distance never exceeds the length of a walk to the goal. -/
theorem heuristic_admissible {maze : List (List Int)} {n : Nat} {c goal : Int × Int}
    {m : Nat} (h : GridWalk maze n c goal m) : heuristic c goal ≤ (m : Int) := by
  induction h with
  | refl c => simp [heuristic_self]
  | @step c c1 c2 k hs _ ih =>
    have := heuristic_step hs c2
    push_cast
    omega

theorem gridWalk_snoc {maze : List (List Int)} {n : Nat} {c c1 c2 : Int × Int} {k : Nat}
    (h : GridWalk maze n c c1 k) (hs : GridStep maze n c1 c2) :
    GridWalk maze n c c2 (k + 1) := by
  induction h with
  | refl c => exact GridWalk.step hs (GridWalk.refl _)
  | step hs1 _ ih => exact GridWalk.step hs1 (ih hs)

/-! ## Sums over the cells -/

theorem mem_cells {n : Nat} {c : Int × Int} : c ∈ cells n ↔ InGrid n c := by
  unfold cells InGrid
  rw [Finset.mem_product, Finset.mem_Ico, Finset.mem_Ico]
  tauto

theorem card_cells (n : Nat) : ((cells n).card : Int) = (n : Int) * n := by
  unfold cells
  rw [Finset.card_product, Int.card_Ico]
  simp

theorem cellSum_update (n : Nat) (f : Int → Int) (cost : Int × Int → Int)
    {c1 : Int × Int} (hc1 : InGrid n c1) (v : Int) :
    ∑ c in cells n, f (Function.update cost c1 v c)
      = ∑ c in cells n, f (cost c) - f (cost c1) + f v := by
  have hmem : c1 ∈ cells n := mem_cells.2 hc1
  rw [← Finset.add_sum_erase _ _ hmem,
    ← Finset.add_sum_erase _ (fun c => f (cost c)) hmem]
  have hrest : ∀ c ∈ (cells n).erase c1, f (Function.update cost c1 v c) = f (cost c) := by
    intro c hc
    rw [Function.update_noteq (Finset.mem_erase.1 hc).1]
  rw [Finset.sum_congr rfl hrest, Function.update_same]
  ring

theorem finiteCount_le (n : Nat) (cost : Int × Int → Int) :
    finiteCount n cost ≤ (n : Int) * n := by
  unfold finiteCount
  rw [← card_cells n, Finset.card_eq_sum_ones]
  push_cast
  apply Finset.sum_le_sum
  intro c _
  by_cases h : cost c = INT_MAX <;> simp [h]

theorem finiteCount_update (n : Nat) (cost : Int × Int → Int) {c1 : Int × Int}
    (hc1 : InGrid n c1) {v : Int} (hv : v ≠ INT_MAX) :
    finiteCount n (Function.update cost c1 v)
      = finiteCount n cost - (if cost c1 = INT_MAX then 0 else 1) + 1 := by
  unfold finiteCount
  rw [cellSum_update n (fun x => if x = INT_MAX then 0 else 1) cost hc1 v]
  simp [hv]

theorem costPotential_update (n : Nat) (cost : Int × Int → Int) {c1 : Int × Int}
    (hc1 : InGrid n c1) {v : Int} (hv : v ≠ INT_MAX) :
    costPotential n (Function.update cost c1 v)
      = costPotential n cost - (if cost c1 = INT_MAX then (n : Int) * n else cost c1) + v := by
  unfold costPotential
  rw [cellSum_update n (fun x => if x = INT_MAX then (n : Int) * n else x) cost hc1 v]
  simp [hv]

/-! ## Preservation of the A* invariant -/

theorem gridFits_sq {n : Nat} (hn : GridFits n) : (n : Int) * n + 2 * n ≤ 2147483647 := hn

theorem AInv.reorder {maze : List (List Int)} {n : Nat} {start goal : Int × Int}
    {P : Int × Int → Prop} {mh mh1 : List Node} {came : Int × Int → Int × Int}
    {cost : Int × Int → Int} (h : AInv maze n start goal P mh came cost)
    (hp : mh.Perm mh1) : AInv maze n start goal P mh1 came cost := by
  refine ⟨h.src, h.fin, h.par, fun e he => h.ent e (hp.mem_iff.2 he), ?_⟩
  intro c hc hf
  rcases h.ost c hc hf with ⟨e, he, h1, h2⟩ | h3
  · exact Or.inl ⟨e, hp.mem_iff.1 he, h1, h2⟩
  · exact Or.inr h3

/-- A successful relaxation of the move `c → c1` keeps the invariant and
lowers the termination measure. -/
theorem AInv.relax {maze : List (List Int)} {n : Nat} {start goal c c1 : Int × Int}
    {mh : List Node} {came : Int × Int → Int × Int} {cost : Int × Int → Int}
    (hn : GridFits n) (hinv : AInv maze n start goal (fun x => x ≠ c) mh came cost)
    (hfin : cost c ≠ INT_MAX) (hstep : GridStep maze n c c1)
    (hlt : cost c + 1 < cost c1) :
    AInv maze n start goal (fun x => x ≠ c)
      (⟨cellId n c1, cost c + 1 + heuristic c1 goal⟩ :: mh)
      (Function.update came c1 c) (Function.update cost c1 (cost c + 1)) ∧
    costPotential n (Function.update cost c1 (cost c + 1)) + 1 ≤ costPotential n cost := by
  have hfit := gridFits_sq hn
  have hn0 : (0 : Int) ≤ n := Int.ofNat_nonneg n
  have hIM : INT_MAX = 2147483647 := rfl
  have hc := hinv.fin c hfin
  have hc0 : 0 ≤ cost c := hc.2.1
  have hn1 : (1 : Int) ≤ n := by
    obtain ⟨h1, h2, _, _⟩ := hc.1
    omega
  have hcF : cost c + 1 ≤ finiteCount n cost := hc.2.2.1
  have hF := finiteCount_le n cost
  have hc1 : InGrid n c1 := hstep.1
  have hne : c1 ≠ c := by
    intro h; rw [h] at hlt; omega
  have hns : c1 ≠ start := by
    intro h
    have := hinv.src
    rw [h, this] at hlt
    omega
  have hv : cost c + 1 ≠ INT_MAX := by omega
  have hFu := finiteCount_update n cost hc1 hv
  have hF1 := finiteCount_le n (Function.update cost c1 (cost c + 1))
  have hFle : finiteCount n cost ≤ finiteCount n (Function.update cost c1 (cost c + 1)) := by
    rw [hFu]; split <;> omega
  have hnew : cost c + 2 ≤ finiteCount n (Function.update cost c1 (cost c + 1)) := by
    by_cases h1 : cost c1 = INT_MAX
    · rw [hFu]; simp only [h1, if_true]; omega
    · have := (hinv.fin c1 h1).2.2.1
      omega
  have hmono : ∀ x, Function.update cost c1 (cost c + 1) x ≤ cost x := by
    intro x
    by_cases hx : x = c1
    · rw [hx, Function.update_same]; omega
    · rw [Function.update_noteq hx]
  have hfinmono : ∀ x, cost x ≠ INT_MAX → Function.update cost c1 (cost c + 1) x ≠ INT_MAX := by
    intro x hx
    by_cases hxc : x = c1
    · rw [hxc, Function.update_same]; exact hv
    · rw [Function.update_noteq hxc]; exact hx
  refine ⟨⟨?_, ?_, ?_, ?_, ?_⟩, ?_⟩
  · rw [Function.update_noteq (Ne.symm hns)]
    exact hinv.src
  · intro x hx
    by_cases hxc : x = c1
    · subst hxc
      rw [Function.update_same]
      obtain ⟨k, hk⟩ := hc.2.2.2
      exact ⟨hc1, by omega, by omega, k + 1, gridWalk_snoc hk hstep⟩
    · rw [Function.update_noteq hxc] at hx ⊢
      have := hinv.fin x hx
      exact ⟨this.1, this.2.1, by omega, this.2.2.2⟩
  · intro x hxs hx
    by_cases hxc : x = c1
    · subst hxc
      rw [Function.update_same, Function.update_same, Function.update_noteq (Ne.symm hne)]
      exact ⟨hfin, hstep, le_refl _⟩
    · rw [Function.update_noteq hxc] at hx ⊢
      rw [Function.update_noteq hxc]
      have := hinv.par x hxs hx
      exact ⟨hfinmono _ this.1, this.2.1, le_trans (add_le_add_right (hmono _) 1) this.2.2⟩
  · intro e he
    rcases List.mem_cons.1 he with rfl | he
    · refine ⟨c1, hc1, rfl, ?_, Or.inr ?_⟩
      · rw [Function.update_same]; exact hv
      · rw [Function.update_same]
    · obtain ⟨x, hx1, hx2, hx3, hx4⟩ := hinv.ent e he
      refine ⟨x, hx1, hx2, hfinmono x hx3, ?_⟩
      rcases hx4 with h | h
      · exact Or.inl h
      · exact Or.inr (le_trans (add_le_add_right (hmono x) _) h)
  · intro x hxP hx
    by_cases hxc : x = c1
    · left
      refine ⟨_, List.mem_cons_self _ _, ?_, ?_⟩
      · rw [hxc]
      · rw [hxc, Function.update_same]
    · rw [Function.update_noteq hxc] at hx
      rcases hinv.ost x hxP hx with ⟨e, he, he1, he2⟩ | ⟨hg, hs⟩
      · left
        refine ⟨e, List.mem_cons_of_mem _ he, he1, ?_⟩
        rw [Function.update_noteq hxc]
        exact he2
      · right
        refine ⟨hg, ?_⟩
        intro x1 hx1
        have := hs x1 hx1
        rw [Function.update_noteq hxc]
        exact ⟨hfinmono _ this.1, le_trans (hmono _) this.2⟩
  · rw [costPotential_update n cost hc1 hv]
    by_cases h1 : cost c1 = INT_MAX
    · simp only [h1, if_true]; omega
    · simp only [h1, if_false]; omega

theorem mem_dirs {d : Int × Int} (hd : d ∈ dirs) :
    d = (-1, 0) ∨ d = (0, -1) ∨ d = (1, 0) ∨ d = (0, 1) := by
  simpa [dirs] using hd

theorem gridStep_iff_dirs {maze : List (List Int)} {n : Nat} {c c1 : Int × Int} :
    GridStep maze n c c1 ↔
      ∃ d ∈ dirs, c1 = (c.1 + d.1, c.2 + d.2) ∧ InGrid n c1 ∧ Walkable maze c1 := by
  constructor
  · rintro ⟨h1, h2, h3⟩
    rcases h3 with h | h | h | h
    · exact ⟨(-1, 0), by simp [dirs], by rw [h]; simp; rfl, h1, h2⟩
    · exact ⟨(0, -1), by simp [dirs], by rw [h]; simp; rfl, h1, h2⟩
    · exact ⟨(1, 0), by simp [dirs], by rw [h]; simp, h1, h2⟩
    · exact ⟨(0, 1), by simp [dirs], by rw [h]; simp, h1, h2⟩
  · rintro ⟨d, hd, h, h1, h2⟩
    refine ⟨h1, h2, ?_⟩
    rcases mem_dirs hd with rfl | rfl | rfl | rfl
    · left; rw [h]; simp; rfl
    · right; left; rw [h]; simp; rfl
    · right; right; left; rw [h]; simp
    · right; right; right; rw [h]; simp

theorem relaxNeighbors_step {H : MinHeap Node} (hH : IsMinQueue H Node.priority)
    {maze : List (List Int)} {n : Nat} {start goal c : Int × Int}
    {st : AState H.Q} (hn : GridFits n) (hg : IsGrid maze n) (hgoal : InGrid n goal)
    (hc : InGrid n c)
    (hinv : AInv maze n start goal (fun x => x ≠ c) (H.entries st.mh) st.cameFrom st.costSoFar)
    (hfin : st.costSoFar c ≠ INT_MAX) {d : Int × Int} (hd : d ∈ dirs) :
    ∃ st1 : AState H.Q,
      (∀ ds, relaxNeighbors H maze n goal c.1 c.2 (d :: ds) st
        = relaxNeighbors H maze n goal c.1 c.2 ds st1) ∧
      AInv maze n start goal (fun x => x ≠ c) (H.entries st1.mh) st1.cameFrom st1.costSoFar ∧
      st1.costSoFar c = st.costSoFar c ∧
      (∀ x, st1.costSoFar x ≤ st.costSoFar x) ∧
      (∀ x, st.costSoFar x ≠ INT_MAX → st1.costSoFar x ≠ INT_MAX) ∧
      (GridStep maze n c (c.1 + d.1, c.2 + d.2) →
        st1.costSoFar (c.1 + d.1, c.2 + d.2) ≠ INT_MAX ∧
          st1.costSoFar (c.1 + d.1, c.2 + d.2) ≤ st.costSoFar c + 1) ∧
      ((H.entries st1.mh).length : Int) + costPotential n st1.costSoFar
        ≤ ((H.entries st.mh).length : Int) + costPotential n st.costSoFar := by
  obtain ⟨dx, dy⟩ := d
  dsimp only
  have hfit := gridFits_sq hn
  have hIM : INT_MAX = 2147483647 := rfl
  have hcg := hinv.fin c hfin
  have hc0 : 0 ≤ st.costSoFar c := hcg.2.1
  have hcF : st.costSoFar c + 1 ≤ finiteCount n st.costSoFar := hcg.2.2.1
  have hF := finiteCount_le n st.costSoFar
  obtain ⟨hx0, hx1, hy0, hy1⟩ := hc
  have hn0 : (0 : Int) ≤ n := Int.ofNat_nonneg n
  have hdd : -1 ≤ dx ∧ dx ≤ 1 ∧ -1 ≤ dy ∧ dy ≤ 1 := by
    rcases mem_dirs hd with h | h | h | h <;>
      · rw [Prod.mk.injEq] at h
        obtain ⟨rfl, rfl⟩ := h
        decide
  have hwx : wrapInt (c.1 + dx) = c.1 + dx := wrapInt_eq_self (by omega) (by omega)
  have hwy : wrapInt (c.2 + dy) = c.2 + dy := wrapInt_eq_self (by omega) (by omega)
  have hwc : wrapInt (st.costSoFar c + 1) = st.costSoFar c + 1 :=
    wrapInt_eq_self (by omega) (by omega)
  have hcc : InGrid n (c.1, c.2) := ⟨hx0, hx1, hy0, hy1⟩
  by_cases hin : InGrid n (c.1 + dx, c.2 + dy)
  · have hin' : c.1 + dx ≥ 0 ∧ c.1 + dx < (n : Int) ∧ c.2 + dy ≥ 0 ∧ c.2 + dy < (n : Int) :=
      ⟨hin.1, hin.2.1, hin.2.2.1, hin.2.2.2⟩
    obtain ⟨v, hv⟩ := mazeAt_isSome hg hin
    simp only at hv
    by_cases hv1 : v = 1
    · subst hv1
      have hstep : GridStep maze n c (c.1 + dx, c.2 + dy) :=
        gridStep_iff_dirs.2 ⟨(dx, dy), hd, rfl, hin, hv⟩
      have hwid := cellId_wrap hn hin
      dsimp only at hwid
      by_cases hlt : st.costSoFar c + 1 < st.costSoFar (c.1 + dx, c.2 + dy)
      · have hh0 := heuristic_nonneg (c.1 + dx, c.2 + dy) goal
        have hh1 := heuristic_le hin hgoal
        have hwp : wrapInt (st.costSoFar c + 1 + heuristic (c.1 + dx, c.2 + dy) goal)
            = st.costSoFar c + 1 + heuristic (c.1 + dx, c.2 + dy) goal :=
          wrapInt_eq_self (by omega) (by omega)
        obtain ⟨hI, hP⟩ := AInv.relax hn hinv hfin hstep hlt
        have hne : (c.1 + dx, c.2 + dy) ≠ c := by
          intro h; rw [h] at hlt; omega
        refine ⟨⟨H.push st.mh
            ⟨cellId n (c.1 + dx, c.2 + dy),
              st.costSoFar c + 1 + heuristic (c.1 + dx, c.2 + dy) goal⟩,
            Function.update st.cameFrom (c.1 + dx, c.2 + dy) c,
            Function.update st.costSoFar (c.1 + dx, c.2 + dy) (st.costSoFar c + 1)⟩,
          ?_, hI.reorder (hH.entries_push _ _).symm, ?_, ?_, ?_, ?_, ?_⟩
        · intro ds
          simp only [relaxNeighbors, hwx, hwy, hin', and_self, if_true, hv, hwid, hcc, hwc,
            hlt, hwp]
        · simp only
          rw [Function.update_noteq (Ne.symm hne)]
        · intro x
          simp only
          by_cases hx : x = (c.1 + dx, c.2 + dy)
          · rw [hx, Function.update_same]; omega
          · rw [Function.update_noteq hx]
        · intro x hx
          simp only
          by_cases hxc : x = (c.1 + dx, c.2 + dy)
          · rw [hxc, Function.update_same]; omega
          · rw [Function.update_noteq hxc]; exact hx
        · intro _
          simp only
          rw [Function.update_same]
          exact ⟨by omega, le_refl _⟩
        · simp only [hH.length_push]
          push_cast
          omega
      · refine ⟨st, ?_, hinv, rfl, fun _ => le_refl _, fun _ h => h, ?_, le_refl _⟩
        · intro ds
          simp only [relaxNeighbors, hwx, hwy, hin', and_self, if_true, hv, hwid, hcc, hwc,
            hlt, if_false]
        · intro _
          exact ⟨by omega, by omega⟩
    · refine ⟨st, ?_, hinv, rfl, fun _ => le_refl _, fun _ h => h, ?_, le_refl _⟩
      · intro ds
        simp only [relaxNeighbors, hwx, hwy, hin', and_self, if_true, hv, hv1, if_false]
      · intro hs
        have := hs.2.1
        unfold Walkable at this
        simp only at this
        rw [hv] at this
        exact absurd (Option.some.inj this) hv1
  · have hin' : ¬ (c.1 + dx ≥ 0 ∧ c.1 + dx < (n : Int) ∧ c.2 + dy ≥ 0 ∧ c.2 + dy < (n : Int)) :=
      fun h => hin ⟨h.1, h.2.1, h.2.2.1, h.2.2.2⟩
    refine ⟨st, ?_, hinv, rfl, fun _ => le_refl _, fun _ h => h, ?_, le_refl _⟩
    · intro ds
      simp only [relaxNeighbors, hwx, hwy, hin', if_false]
    · intro hs
      exact absurd hs.1 hin

theorem relaxNeighbors_spec {H : MinHeap Node} (hH : IsMinQueue H Node.priority)
    {maze : List (List Int)} {n : Nat} {start goal c : Int × Int}
    (hn : GridFits n) (hg : IsGrid maze n) (hgoal : InGrid n goal) (hc : InGrid n c) :
    ∀ (ds : List (Int × Int)) (st : AState H.Q), (∀ d ∈ ds, d ∈ dirs) →
      AInv maze n start goal (fun x => x ≠ c) (H.entries st.mh) st.cameFrom st.costSoFar →
      st.costSoFar c ≠ INT_MAX →
      ∃ st1 : AState H.Q, relaxNeighbors H maze n goal c.1 c.2 ds st = .ok st1 ∧
        AInv maze n start goal (fun x => x ≠ c)
          (H.entries st1.mh) st1.cameFrom st1.costSoFar ∧
        st1.costSoFar c = st.costSoFar c ∧
        (∀ x, st1.costSoFar x ≤ st.costSoFar x) ∧
        (∀ x, st.costSoFar x ≠ INT_MAX → st1.costSoFar x ≠ INT_MAX) ∧
        (∀ d ∈ ds, GridStep maze n c (c.1 + d.1, c.2 + d.2) →
          st1.costSoFar (c.1 + d.1, c.2 + d.2) ≠ INT_MAX ∧
            st1.costSoFar (c.1 + d.1, c.2 + d.2) ≤ st1.costSoFar c + 1) ∧
        ((H.entries st1.mh).length : Int) + costPotential n st1.costSoFar
          ≤ ((H.entries st.mh).length : Int) + costPotential n st.costSoFar := by
  intro ds
  induction ds with
  | nil =>
    intro st _ hinv _
    exact ⟨st, rfl, hinv, rfl, fun _ => le_refl _, fun _ h => h,
      fun d hd => absurd hd (List.not_mem_nil d), le_refl _⟩
  | cons d ds ih =>
    intro st hds hinv hfin
    obtain ⟨st0, hrun0, hI0, hc0, hm0, hf0, hs0, hM0⟩ :=
      relaxNeighbors_step hH hn hg hgoal hc hinv hfin (hds d (List.mem_cons_self _ _))
    obtain ⟨st1, hrun1, hI1, hc1, hm1, hf1, hs1, hM1⟩ :=
      ih st0 (fun d hd => hds d (List.mem_cons_of_mem _ hd)) hI0 (by rw [hc0]; exact hfin)
    refine ⟨st1, by rw [hrun0, hrun1], hI1, by rw [hc1, hc0],
      fun x => le_trans (hm1 x) (hm0 x), fun x hx => hf1 x (hf0 x hx), ?_, le_trans hM1 hM0⟩
    intro d1 hd1 hstep
    rcases List.mem_cons.1 hd1 with rfl | hd1
    · have := hs0 hstep
      refine ⟨hf1 _ this.1, ?_⟩
      have h2 := hm1 (c.1 + d1.1, c.2 + d1.2)
      rw [hc1, hc0]
      omega
    · exact hs1 d1 hd1 hstep

/-- The expansion of a popped cell `c` other than the goal re-establishes the
invariant on every cell and lowers the termination measure. -/
theorem expand_spec {H : MinHeap Node} (hH : IsMinQueue H Node.priority)
    {maze : List (List Int)} {n : Nat} {start goal : Int × Int}
    (hn : GridFits n) (hg : IsGrid maze n) (hgoal : InGrid n goal)
    {mh rest : H.Q} {came : Int × Int → Int × Int} {cost : Int × Int → Int}
    {e : Node} (hinv : AInv maze n start goal (fun _ => True) (H.entries mh) came cost)
    (hpop : H.pop mh = some (e, rest)) {c : Int × Int} (hc : InGrid n c)
    (hid : e.nodeID = cellId n c) (hfin : cost c ≠ INT_MAX) (hne : c ≠ goal) :
    ∃ st1 : AState H.Q,
      relaxNeighbors H maze n goal c.1 c.2 dirs ⟨rest, came, cost⟩ = .ok st1 ∧
      AInv maze n start goal (fun _ => True) (H.entries st1.mh) st1.cameFrom st1.costSoFar ∧
      ((H.entries st1.mh).length : Int) + costPotential n st1.costSoFar + 1
        ≤ ((H.entries mh).length : Int) + costPotential n cost := by
  have hsub : ∀ x ∈ H.entries rest, x ∈ H.entries mh :=
    fun x hx => (hH.mem_pop hpop x).2 (Or.inr hx)
  have hlen := hH.length_pop hpop
  have hpre : AInv maze n start goal (fun x => x ≠ c) (H.entries rest) came cost := by
    refine ⟨hinv.src, hinv.fin, hinv.par, fun x hx => hinv.ent x (hsub x hx), ?_⟩
    intro x hx hxf
    rcases hinv.ost x trivial hxf with ⟨e1, he1, hid1, hp1⟩ | h
    · left
      rcases (hH.mem_pop hpop e1).1 he1 with h | h
      · exfalso
        apply hx
        rw [h, hid] at hid1
        exact (cellId_inj hc (hinv.fin x hxf).1 hid1).symm
      · exact ⟨e1, h, hid1, hp1⟩
    · right
      exact h
  obtain ⟨st1, hrun, hI, hcc, _, _, hs, hM⟩ :=
    relaxNeighbors_spec hH hn hg hgoal hc dirs ⟨rest, came, cost⟩ (fun _ h => h) hpre hfin
  refine ⟨st1, hrun, ⟨hI.src, hI.fin, hI.par, hI.ent, ?_⟩, ?_⟩
  · intro x _ hxf
    by_cases hxc : x = c
    · right
      rw [hxc]
      refine ⟨hne, ?_⟩
      intro c1 hstep
      obtain ⟨d, hd, hc1, _, _⟩ := gridStep_iff_dirs.1 hstep
      rw [hc1] at hstep ⊢
      exact hs d hd hstep
    · exact hI.ost x hxc hxf
  · simp only at hM
    rw [hlen]
    push_cast
    omega

/-- A cell with a finite cost whose walk to the goal has `m` moves is
witnessed in the queue by an entry of priority at most that cost plus `m`. -/
theorem queue_bound {maze : List (List Int)} {n : Nat} {start goal : Int × Int}
    {mh : List Node} {came : Int × Int → Int × Int} {cost : Int × Int → Int}
    (hinv : AInv maze n start goal (fun _ => True) mh came cost) :
    ∀ {c : Int × Int} {m : Nat}, GridWalk maze n c goal m → cost c ≠ INT_MAX →
      ∃ e ∈ mh, e.priority ≤ cost c + (m : Int) := by
  intro c m hwalk
  induction hwalk with
  | refl c =>
    intro hfin
    rcases hinv.ost c trivial hfin with ⟨e, he, _, hp⟩ | h
    · rw [heuristic_self] at hp
      exact ⟨e, he, by push_cast; omega⟩
    · exact absurd rfl h.1
  | @step c c1 c2 k hs hw ih =>
    intro hfin
    rcases hinv.ost c trivial hfin with ⟨e, he, _, hp⟩ | h
    · have hadm := heuristic_admissible (GridWalk.step hs hw)
      exact ⟨e, he, by omega⟩
    · have := h.2 c1 hs
      obtain ⟨e, he, hp⟩ := ih hinv this.1
      exact ⟨e, he, by push_cast; omega⟩

/-- With an empty queue every cell reachable from a cell of finite cost has a
finite cost, and the goal has none. -/
theorem empty_queue_unreachable {maze : List (List Int)} {n : Nat} {start goal : Int × Int}
    {came : Int × Int → Int × Int} {cost : Int × Int → Int}
    (hinv : AInv maze n start goal (fun _ => True) [] came cost) :
    ∀ k, ¬ GridWalk maze n start goal k := by
  have hall : ∀ {c c1 : Int × Int} {k : Nat}, GridWalk maze n c c1 k →
      cost c ≠ INT_MAX → cost c1 ≠ INT_MAX := by
    intro c c1 k hwalk
    induction hwalk with
    | refl c => exact fun h => h
    | @step c c1 c2 k hs _ ih =>
      intro hfin
      rcases hinv.ost c trivial hfin with ⟨e, he, _⟩ | h
      · simp at he
      · exact ih (h.2 c1 hs).1
  intro k hwalk
  have hs : cost start ≠ INT_MAX := by
    rw [hinv.src]; decide
  have hgf := hall hwalk hs
  rcases hinv.ost goal trivial hgf with ⟨e, he, _⟩ | h
  · simp at he
  · exact h.1 rfl

/-! ## Path reconstruction -/

theorem validMoves_snoc {maze : List (List Int)} {n : Nat} :
    ∀ (pre : List Char) (c c1 : Int × Int) (l : Char), ValidMoves maze n c pre c1 →
      IsMoveLetter l → InGrid n (moveCell c1 l) → Walkable maze (moveCell c1 l) →
      ValidMoves maze n c (pre ++ [l]) (moveCell c1 l) := by
  intro pre
  induction pre with
  | nil =>
    intro c c1 l h hl hi hw
    have hcc : c = c1 := h
    subst hcc
    exact ⟨hl, hi, hw, rfl⟩
  | cons m ms ih =>
    intro c c1 l h hl hi hw
    obtain ⟨h1, h2, h3, h4⟩ := h
    exact ⟨h1, h2, h3, ih _ _ _ h4 hl hi hw⟩

theorem validMoves_gridWalk {maze : List (List Int)} {n : Nat} :
    ∀ (ms : List Char) (c c1 : Int × Int), ValidMoves maze n c ms c1 →
      GridWalk maze n c c1 ms.length := by
  intro ms
  induction ms with
  | nil =>
    intro c c1 h
    have hcc : c = c1 := h
    subst hcc
    exact GridWalk.refl _
  | cons m ms ih =>
    intro c c1 h
    obtain ⟨h1, h2, h3, h4⟩ := h
    refine GridWalk.step ⟨h2, h3, ?_⟩ (ih _ _ h4)
    unfold moveCell
    rcases h1 with rfl | rfl | rfl | rfl <;> simp

theorem validMoves_replay {maze : List (List Int)} {n : Nat} :
    ∀ (ms : List Char) (c c1 : Int × Int), ValidMoves maze n c ms c1 →
      (∀ m ∈ ms, IsMoveLetter m) ∧
      (∀ x ∈ replayCells c ms, InGrid n x ∧ Walkable maze x) ∧ replayEnd c ms = c1 := by
  intro ms
  induction ms with
  | nil =>
    intro c c1 h
    have hcc : c = c1 := h
    subst hcc
    simp [replayCells, replayEnd]
  | cons m ms ih =>
    intro c c1 h
    obtain ⟨h1, h2, h3, h4⟩ := h
    obtain ⟨i1, i2, i3⟩ := ih _ _ h4
    refine ⟨?_, ?_, ?_⟩
    · intro x hx
      rcases List.mem_cons.1 hx with rfl | hx
      · exact h1
      · exact i1 x hx
    · intro x hx
      simp only [replayCells] at hx
      rcases List.mem_cons.1 hx with rfl | hx
      · exact ⟨h2, h3⟩
      · exact i2 x hx
    · simpa [replayEnd] using i3

/-- The letter chosen by the reconstruction for the move `p → cur` is a move
letter that leads from `p` to `cur`. -/
theorem letter_spec {maze : List (List Int)} {n : Nat} {p cur : Int × Int}
    (hs : GridStep maze n p cur) (path : String) :
    ∃ l : Char, IsMoveLetter l ∧ moveCell p l = cur ∧
      (if p.1 = cur.1 then
          if p.2 < cur.2 then "R" ++ path else "L" ++ path
        else
          if p.1 < cur.1 then "D" ++ path else "U" ++ path).toList = l :: path.toList := by
  obtain ⟨_, _, hadj⟩ := hs
  rcases hadj with h | h | h | h
  · refine ⟨'U', Or.inl rfl, by rw [h]; rfl, ?_⟩
    have e1 : ¬ p.1 = cur.1 := by rw [h]; dsimp only; omega
    have e2 : ¬ p.1 < cur.1 := by rw [h]; dsimp only; omega
    simp only [e1, e2, if_false]
    rfl
  · refine ⟨'L', Or.inr (Or.inr (Or.inl rfl)), by rw [h]; rfl, ?_⟩
    have e1 : p.1 = cur.1 := by rw [h]
    have e2 : ¬ p.2 < cur.2 := by rw [h]; dsimp only; omega
    simp only [e1, e2, if_true, if_false]
    rfl
  · refine ⟨'D', Or.inr (Or.inl rfl), by rw [h]; rfl, ?_⟩
    have e1 : ¬ p.1 = cur.1 := by rw [h]; dsimp only; omega
    have e2 : p.1 < cur.1 := by rw [h]; dsimp only; omega
    simp only [e1, e2, if_true, if_false]
    rfl
  · refine ⟨'R', Or.inr (Or.inr (Or.inr rfl)), by rw [h]; rfl, ?_⟩
    have e1 : p.1 = cur.1 := by rw [h]
    have e2 : p.2 < cur.2 := by rw [h]; dsimp only; omega
    simp only [e1, e2, if_true]
    rfl

theorem reconstructPath_spec {maze : List (List Int)} {n : Nat} {start goal : Int × Int}
    {P : Int × Int → Prop} {mh : List Node} {came : Int × Int → Int × Int}
    {cost : Int × Int → Int} (hinv : AInv maze n start goal P mh came cost) :
    ∀ (fuel : Nat) (cur : Int × Int) (acc : String), cost cur ≠ INT_MAX →
      cost cur < (fuel : Int) →
      ∃ (r : String) (pre : List Char),
        reconstructPath n start came fuel cur acc = .ok r ∧
        r.toList = pre ++ acc.toList ∧ ValidMoves maze n start pre cur ∧
        (pre.length : Int) ≤ cost cur := by
  intro fuel
  induction fuel with
  | zero =>
    intro cur acc hfin hlt
    have := (hinv.fin cur hfin).2.1
    simp only [Nat.cast_zero] at hlt
    omega
  | succ fuel ih =>
    intro cur acc hfin hlt
    have hcur := hinv.fin cur hfin
    by_cases hcs : cur = start
    · refine ⟨acc, [], ?_, by simp, hcs.symm, ?_⟩
      · simp only [reconstructPath, hcs, ne_eq, not_true_eq_false, if_false]
      · simpa using hcur.2.1
    · obtain ⟨hpf, hps, hpc⟩ := hinv.par cur hcs hfin
      obtain ⟨l, hl, hmove, hletter⟩ := letter_spec hps acc
      obtain ⟨r, pre, hrun, hr, hv, hlen⟩ := ih (came cur) _ hpf
        (by push_cast at hlt; omega)
      refine ⟨r, pre ++ [l], ?_, ?_, ?_, ?_⟩
      · simp only [reconstructPath, ne_eq, hcs, not_false_eq_true, if_true, hcur.1]
        exact hrun
      · rw [hr, hletter]; simp
      · have := validMoves_snoc pre start (came cur) l hv hl
          (by rw [hmove]; exact hcur.1) (by rw [hmove]; exact hps.2.1)
        rw [hmove] at this
        exact this
      · simp only [List.length_append, List.length_singleton]
        push_cast
        omega

/-! ## The A* loop -/

theorem costPotential_nonneg {maze : List (List Int)} {n : Nat} {start goal : Int × Int}
    {P : Int × Int → Prop} {mh : List Node} {came : Int × Int → Int × Int}
    {cost : Int × Int → Int} (hinv : AInv maze n start goal P mh came cost) :
    0 ≤ costPotential n cost := by
  unfold costPotential
  apply Finset.sum_nonneg
  intro c _
  by_cases h : cost c = INT_MAX
  · simp only [h, if_true]
    exact mul_nonneg (Int.ofNat_nonneg n) (Int.ofNat_nonneg n)
  · simp only [h, if_false]
    exact (hinv.fin c h).2.1

theorem string_length_toList (r : String) : r.length = r.toList.length := rfl

theorem aStarLoop_spec {H : MinHeap Node} (hH : IsMinQueue H Node.priority)
    {maze : List (List Int)} {n : Nat} {start goal : Int × Int}
    (hn : GridFits n) (hg : IsGrid maze n) (hgoal : InGrid n goal) :
    ∀ (fuel : Nat) (st : AState H.Q),
      AInv maze n start goal (fun _ => True) (H.entries st.mh) st.cameFrom st.costSoFar →
      ((H.entries st.mh).length : Int) + costPotential n st.costSoFar < (fuel : Int) →
      ∃ r : String, aStarLoop H maze n start goal fuel st = .ok r ∧
        ((r = "No path found" ∧ ∀ k, ¬ GridWalk maze n start goal k) ∨
          (ValidMoves maze n start r.toList goal ∧
            ∀ k, GridWalk maze n start goal k → r.length ≤ k)) := by
  intro fuel
  induction fuel with
  | zero =>
    intro st hinv hlt
    have := costPotential_nonneg hinv
    simp only [Nat.cast_zero] at hlt
    omega
  | succ fuel ih =>
    intro st hinv hlt
    obtain ⟨mh, came, cost⟩ := st
    simp only at hlt hinv
    simp only [aStarLoop]
    cases hpop : H.pop mh with
    | none =>
      have hnil : H.entries mh = [] := hH.pop_none mh hpop
      rw [hnil] at hinv
      exact ⟨_, rfl, Or.inl ⟨rfl, empty_queue_unreachable hinv⟩⟩
    | some p =>
      obtain ⟨e, rest⟩ := p
      have hmem : e ∈ H.entries mh := (hH.mem_pop hpop e).2 (Or.inl rfl)
      obtain ⟨c, hc, hid, hfin, hpri⟩ := hinv.ent e hmem
      have hgid := cellId_wrap hn hgoal
      simp only [hgid]
      by_cases hcg : e.nodeID = cellId n goal
      · simp only [hcg, if_true]
        have hceq : c = goal := cellId_inj hc hgoal (hid.symm.trans hcg)
        subst hceq
        have hcF := (hinv.fin c hfin).2.2.1
        have hF := finiteCount_le n cost
        obtain ⟨r, pre, hrun, hr, hv, hlen⟩ :=
          reconstructPath_spec hinv (n * n + 1) c "" hfin (by push_cast; omega)
        have hrp : r.toList = pre := by rw [hr]; simp
        refine ⟨r, hrun, Or.inr ⟨by rw [hrp]; exact hv, ?_⟩⟩
        intro k hwalk
        have hsrc : cost start = 0 := hinv.src
        have hcost : cost c ≤ (k : Int) := by
          rcases hpri with h | h
          · rw [h, hsrc]; exact Int.ofNat_nonneg k
          · obtain ⟨e1, he1, hp1⟩ := queue_bound hinv hwalk (by rw [hsrc]; decide)
            have hmin := (hH.pop_some mh e rest hpop).2 e1 he1
            rw [hsrc] at hp1
            rw [heuristic_self] at h
            omega
        rw [string_length_toList, hrp]
        omega
      · simp only [hcg, if_false]
        have hne : c ≠ goal := by
          intro h; apply hcg; rw [hid, h]
        have hn0 : n ≠ 0 := by
          intro h
          obtain ⟨h1, h2, _, _⟩ := hc
          rw [h] at h2
          simp only [Nat.cast_zero] at h2
          omega
        simp only [hn0, if_false]
        obtain ⟨hdiv, hmod⟩ := cellId_div hc
        rw [hid, hdiv, hmod]
        obtain ⟨st1, hrun, hI, hM⟩ := expand_spec hH hn hg hgoal hinv hpop hc hid hfin hne
        rw [hrun]
        simp only
        exact ih st1 hI (by push_cast at hlt; omega)

/-- The outcome of `aStar` on an `n × n` grid with in-bounds start and goal:
either the no-path string when no walk joins them, or a sequence of valid moves
from start to goal that is no longer than any walk between them. -/
theorem aStar_spec {H : MinHeap Node} (hH : IsMinQueue H Node.priority)
    {maze : List (List Int)} {n : Nat} {start goal : Int × Int}
    (hn : GridFits n) (hg : IsGrid maze n) (hstart : InGrid n start)
    (hgoal : InGrid n goal) :
    ∃ r : String, aStar H maze n start goal = .ok r ∧
      ((r = "No path found" ∧ ∀ k, ¬ GridWalk maze n start goal k) ∨
        (ValidMoves maze n start r.toList goal ∧
          ∀ k, GridWalk maze n start goal k → r.length ≤ k)) := by
  have hIM : INT_MAX = 2147483647 := rfl
  have hconstF : finiteCount n (fun _ => INT_MAX) = 0 := by simp [finiteCount]
  have hconstP : costPotential n (fun _ => INT_MAX) = ((n : Int) * n) * ((n : Int) * n) := by
    simp [costPotential, card_cells]
  have h0 : (0 : Int) ≠ INT_MAX := by decide
  have hinit : AInv maze n start goal (fun _ => True)
      [⟨cellId n start, 0⟩] (fun _ => (-1, -1))
      (Function.update (fun _ => INT_MAX) start 0) := by
    refine ⟨?_, ?_, ?_, ?_, ?_⟩
    · simp only [Function.update_same]
    · intro c hcf
      by_cases hcs : c = start
      · subst hcs
        rw [Function.update_same, finiteCount_update n _ hstart h0, hconstF]
        simp only [if_true]
        exact ⟨hstart, le_refl _, by omega, 0, GridWalk.refl _⟩
      · rw [Function.update_noteq hcs] at hcf
        exact absurd rfl hcf
    · intro c hcs hcf
      rw [Function.update_noteq hcs] at hcf
      exact absurd rfl hcf
    · intro e he
      rw [List.mem_singleton.1 he]
      refine ⟨start, hstart, rfl, ?_, Or.inl rfl⟩
      simp only [Function.update_same]
      exact h0
    · intro c _ hcf
      by_cases hcs : c = start
      · subst hcs
        left
        refine ⟨_, List.mem_singleton.2 rfl, rfl, ?_⟩
        simp only [Function.update_same]
        have := heuristic_nonneg c goal
        omega
      · rw [Function.update_noteq hcs] at hcf
        exact absurd rfl hcf
  have hsingle := hH.entries_single (⟨cellId n start, 0⟩ : Node)
  have hsq : (0 : Int) ≤ (n : Int) * n := mul_nonneg (Int.ofNat_nonneg n) (Int.ofNat_nonneg n)
  have hmeasure : ((H.entries (H.push H.empty (⟨cellId n start, 0⟩ : Node))).length : Int)
      + costPotential n (Function.update (fun _ => INT_MAX) start 0)
      < ((n * n * n * n + 2 : Nat) : Int) := by
    rw [costPotential_update n _ hstart h0, hconstP, hsingle.length_eq]
    simp only [if_true, List.length_singleton]
    push_cast
    have : (n : Int) * n * n * n = ((n : Int) * n) * ((n : Int) * n) := by ring
    rw [this]
    omega
  obtain ⟨r, hrun, hpost⟩ := aStarLoop_spec hH hn hg hgoal (n * n * n * n + 2)
    ⟨H.push H.empty ⟨cellId n start, 0⟩, fun _ => (-1, -1),
      Function.update (fun _ => INT_MAX) start 0⟩ (hinit.reorder hsingle.symm) hmeasure
  refine ⟨r, ?_, hpost⟩
  unfold aStar
  simp only [hstart, if_true, cellId_wrap hn hstart]
  exact hrun

/-! ## The parent table, for every queue and every maze -/

theorem relaxNeighbors_parents (H : MinHeap Node) {maze : List (List Int)} {n : Nat}
    (hn : (n : Int) ≤ INT_MAX) (goal : Int × Int) (x y : Int) :
    ∀ (ds : List (Int × Int)) (st st1 : AState H.Q), (∀ d ∈ ds, d ∈ dirs) →
      relaxNeighbors H maze n goal x y ds st = .ok st1 →
      ParentsValid maze n st.cameFrom → ParentsValid maze n st1.cameFrom := by
  intro ds
  induction ds with
  | nil =>
    intro st st1 _ hrun hP
    simp only [relaxNeighbors, Except.ok.injEq] at hrun
    rw [← hrun]
    exact hP
  | cons d ds ih =>
    intro st st1 hds hrun hP
    obtain ⟨dx, dy⟩ := d
    have hd := hds (dx, dy) (List.mem_cons_self _ _)
    have hds1 : ∀ d ∈ ds, d ∈ dirs := fun d hd => hds d (List.mem_cons_of_mem _ hd)
    simp only [relaxNeighbors] at hrun
    split at hrun
    · rename_i hin
      split at hrun
      · exact absurd hrun (by simp)
      · rename_i cell hcell
        split at hrun
        · rename_i hone
          split at hrun
          · rename_i hxy
            split at hrun
            · refine ih _ st1 hds1 hrun ?_
              intro c
              simp only
              by_cases hc : c = (wrapInt (x + dx), wrapInt (y + dy))
              · right
                rw [hc, Function.update_same]
                obtain ⟨hx0, hx1, hy0, hy1⟩ := hxy
                have hIM : INT_MAX = 2147483647 := rfl
                simp only at hx0 hx1 hy0 hy1
                have hdd : -1 ≤ dx ∧ dx ≤ 1 ∧ -1 ≤ dy ∧ dy ≤ 1 := by
                  rcases mem_dirs hd with h | h | h | h <;>
                    · rw [Prod.mk.injEq] at h
                      obtain ⟨rfl, rfl⟩ := h
                      decide
                have hwx : wrapInt (x + dx) = x + dx := wrapInt_eq_self (by omega) (by omega)
                have hwy : wrapInt (y + dy) = y + dy := wrapInt_eq_self (by omega) (by omega)
                rw [hwx, hwy] at hin hcell ⊢
                rw [hone] at hcell
                exact gridStep_iff_dirs.2 ⟨(dx, dy), hd, rfl,
                  ⟨hin.1, hin.2.1, hin.2.2.1, hin.2.2.2⟩, hcell⟩
              · rw [Function.update_noteq hc]
                exact hP c
            · exact ih _ st1 hds1 hrun hP
          · exact absurd hrun (by simp)
        · exact ih _ st1 hds1 hrun hP
    · exact ih _ st1 hds1 hrun hP

theorem reconstructPath_outside {n : Nat} {start : Int × Int}
    (came : Int × Int → Int × Int) (hs : InGrid n start) {cur : Int × Int}
    (hc : ¬ InGrid n cur) (fuel : Nat) (acc r : String) :
    reconstructPath n start came fuel cur acc ≠ .ok r := by
  have hne : cur ≠ start := fun h => hc (h ▸ hs)
  cases fuel with
  | zero => simp [reconstructPath]
  | succ fuel => simp [reconstructPath, hne, hc]

theorem reconstructPath_valid {maze : List (List Int)} {n : Nat} {start : Int × Int}
    {came : Int × Int → Int × Int} (hs : InGrid n start) (hP : ParentsValid maze n came) :
    ∀ (fuel : Nat) (cur : Int × Int) (acc r : String),
      reconstructPath n start came fuel cur acc = .ok r →
      ∃ pre : List Char, r.toList = pre ++ acc.toList ∧ ValidMoves maze n start pre cur := by
  intro fuel
  induction fuel with
  | zero => intro cur acc r hrun; simp [reconstructPath] at hrun
  | succ fuel ih =>
    intro cur acc r hrun
    by_cases hcs : cur = start
    · simp only [reconstructPath, hcs, ne_eq, not_true_eq_false, if_false,
        Except.ok.injEq] at hrun
      exact ⟨[], by rw [← hrun]; simp, hcs.symm⟩
    · by_cases hin : InGrid n cur
      · simp only [reconstructPath, ne_eq, hcs, not_false_eq_true, if_true, hin] at hrun
        rcases hP cur with hsent | hstep
        · exfalso
          refine reconstructPath_outside came hs ?_ fuel _ r hrun
          rw [hsent]
          intro h
          have := h.1
          simp only at this
          omega
        · obtain ⟨l, hl, hmove, hletter⟩ := letter_spec hstep acc
          obtain ⟨pre, hr, hv⟩ := ih _ _ r hrun
          refine ⟨pre ++ [l], ?_, ?_⟩
          · rw [hr, hletter]; simp
          · have := validMoves_snoc pre start (came cur) l hv hl
              (by rw [hmove]; exact hin) (by rw [hmove]; exact hstep.2.1)
            rw [hmove] at this
            exact this
      · simp [reconstructPath, hcs, hin] at hrun

theorem aStarLoop_valid (H : MinHeap Node) {maze : List (List Int)} {n : Nat}
    (hn : (n : Int) ≤ INT_MAX) {start goal : Int × Int} (hs : InGrid n start) :
    ∀ (fuel : Nat) (st : AState H.Q) (r : String),
      aStarLoop H maze n start goal fuel st = .ok r → ParentsValid maze n st.cameFrom →
      r = "No path found" ∨ ValidMoves maze n start r.toList goal := by
  intro fuel
  induction fuel with
  | zero => intro st r hrun; simp [aStarLoop] at hrun
  | succ fuel ih =>
    intro st r hrun hP
    simp only [aStarLoop] at hrun
    split at hrun
    · left
      exact (Except.ok.inj hrun).symm
    · rename_i current rest hpop
      split at hrun
      · right
        obtain ⟨pre, hr, hv⟩ := reconstructPath_valid hs hP _ _ _ _ hrun
        have : r.toList = pre := by rw [hr]; simp
        rw [this]
        exact hv
      · split at hrun
        · exact absurd hrun (by simp)
        · split at hrun
          · exact absurd hrun (by simp)
          · rename_i st1 hrelax
            exact ih st1 r hrun
              (relaxNeighbors_parents H hn goal _ _ dirs _ st1 (fun _ h => h) hrelax hP)

/-- Whatever the queue and the maze, a string returned by `aStar` from an
in-bounds start is the no-path result or a sequence of valid moves from the
start to the goal. -/
theorem aStar_valid (H : MinHeap Node) {maze : List (List Int)} {n : Nat}
    (hn : (n : Int) ≤ INT_MAX) {start goal : Int × Int} (hs : InGrid n start) {r : String}
    (hrun : aStar H maze n start goal = .ok r) :
    r = "No path found" ∨ ValidMoves maze n start r.toList goal := by
  unfold aStar at hrun
  simp only [hs, if_true] at hrun
  exact aStarLoop_valid H hn hs _ _ r hrun (fun _ => Or.inl rfl)

/-! ## Correctness of the breadth-first search -/

theorem mem_gridNeighbours {maze : List (List Int)} {n : Nat} {c c1 : Int × Int} :
    c1 ∈ gridNeighbours maze n c ↔ GridStep maze n c c1 := by
  rw [gridStep_iff_dirs]
  unfold gridNeighbours Walkable
  simp only [List.mem_filter, List.mem_map, Bool.and_eq_true, decide_eq_true_eq]
  constructor
  · rintro ⟨⟨d, hd, rfl⟩, h1, h2⟩
    exact ⟨d, hd, rfl, h1, h2⟩
  · rintro ⟨d, hd, h, h1, h2⟩
    exact ⟨⟨d, hd, h.symm⟩, h1, h2⟩

theorem gridWalk_zero {maze : List (List Int)} {n : Nat} {c c1 : Int × Int}
    (h : GridWalk maze n c c1 0) : c = c1 := by
  cases h
  rfl

theorem gridWalk_snoc_inv {maze : List (List Int)} {n : Nat} :
    ∀ (k : Nat) (c c2 : Int × Int), GridWalk maze n c c2 (k + 1) →
      ∃ c1, GridWalk maze n c c1 k ∧ GridStep maze n c1 c2 := by
  intro k
  induction k with
  | zero =>
    intro c c2 h
    cases h with
    | step hs hw =>
      have := gridWalk_zero hw
      subst this
      exact ⟨c, GridWalk.refl _, hs⟩
  | succ k ih =>
    intro c c2 h
    cases h with
    | step hs hw =>
      obtain ⟨c1, h1, h2⟩ := ih _ _ hw
      exact ⟨c1, GridWalk.step hs h1, h2⟩

theorem gridWalk_inGrid {maze : List (List Int)} {n : Nat} {c c1 : Int × Int} {k : Nat}
    (h : GridWalk maze n c c1 k) : c = c1 ∨ (InGrid n c1 ∧ Walkable maze c1) := by
  induction h with
  | refl c => exact Or.inl rfl
  | @step c c1 c2 k hs _ ih =>
    rcases ih with h | h
    · right; rw [← h]; exact ⟨hs.1, hs.2.1⟩
    · exact Or.inr h

theorem exists_minWalk {maze : List (List Int)} {n : Nat} {start c : Int × Int} {k : Nat}
    (h : GridWalk maze n start c k) : ∃ d, d ≤ k ∧ MinWalk maze n start c d := by
  classical
  have hex : ∃ d, GridWalk maze n start c d := ⟨k, h⟩
  refine ⟨Nat.find hex, Nat.find_min' hex h, Nat.find_spec hex, ?_⟩
  intro m hm
  exact Nat.find_min' hex hm

theorem length_le_of_subset_cells {n : Nat} {l : List (Int × Int)} (hnd : l.Nodup)
    (hsub : ∀ c ∈ l, InGrid n c) : l.length ≤ n * n := by
  have h1 : l.toFinset ⊆ cells n := by
    intro c hc
    exact mem_cells.2 (hsub c (List.mem_toFinset.1 hc))
  have h2 := Finset.card_le_card h1
  rw [List.toFinset_card_of_nodup hnd] at h2
  have h3 := card_cells n
  have h4 : (cells n).card = n * n := by exact_mod_cast h3
  omega

theorem bfsLevels_spec {maze : List (List Int)} {n : Nat} {start goal : Int × Int}
    (hstart : InGrid n start) :
    ∀ (fuel : Nat) (seen frontier : List (Int × Int)) (depth : Nat),
      (∀ c, c ∈ frontier ↔ MinWalk maze n start c depth) →
      (∀ c, c ∈ seen ↔ ∃ k, k ≤ depth ∧ GridWalk maze n start c k) →
      seen.Nodup → (∀ k, k < depth → ¬ GridWalk maze n start goal k) →
      n * n + 1 ≤ seen.length + fuel →
      (∃ d, bfsLevels maze n goal fuel seen frontier depth = some d ∧
          MinWalk maze n start goal d) ∨
        (bfsLevels maze n goal fuel seen frontier depth = none ∧
          ∀ k, ¬ GridWalk maze n start goal k) := by
  intro fuel
  induction fuel with
  | zero =>
    intro seen frontier depth _ hseen hnd _ hfuel
    exfalso
    have := @length_le_of_subset_cells n seen hnd (by
      intro c hc
      obtain ⟨k, _, hk⟩ := (hseen c).1 hc
      rcases gridWalk_inGrid hk with h | h
      · rw [← h]; exact hstart
      · exact h.1)
    omega
  | succ fuel ih =>
    intro seen frontier depth hfr hseen hnd hbelow hfuel
    have hsub : ∀ c ∈ seen, InGrid n c := by
      intro c hc
      obtain ⟨k, _, hk⟩ := (hseen c).1 hc
      rcases gridWalk_inGrid hk with h | h
      · rw [← h]; exact hstart
      · exact h.1
    simp only [bfsLevels]
    by_cases hg : goal ∈ frontier
    · simp only [hg, if_true]
      exact Or.inl ⟨depth, rfl, (hfr goal).1 hg⟩
    · simp only [hg, if_false]
      have hnext : ∀ c, c ∈ ((frontier.flatMap (gridNeighbours maze n)).filter
          fun c => decide (c ∉ seen)).dedup ↔ MinWalk maze n start c (depth + 1) := by
        intro c
        rw [List.mem_dedup, List.mem_filter, List.mem_flatMap]
        simp only [decide_eq_true_eq, mem_gridNeighbours]
        constructor
        · rintro ⟨⟨f, hf, hs⟩, hns⟩
          have hfw := (hfr f).1 hf
          refine ⟨gridWalk_snoc hfw.1 hs, ?_⟩
          intro k hk
          by_contra hlt
          exact hns ((hseen c).2 ⟨k, by omega, hk⟩)
        · rintro ⟨hw, hmin⟩
          obtain ⟨f, hf, hs⟩ := gridWalk_snoc_inv _ _ _ hw
          refine ⟨⟨f, (hfr f).2 ⟨hf, ?_⟩, hs⟩, ?_⟩
          · intro k hk
            have := hmin _ (gridWalk_snoc hk hs)
            omega
          · intro hc
            obtain ⟨k, hk, hkw⟩ := (hseen c).1 hc
            have := hmin k hkw
            omega
      have hgoal_depth : ¬ GridWalk maze n start goal depth := by
        intro hw
        apply hg
        refine (hfr goal).2 ⟨hw, ?_⟩
        intro k hk
        by_contra hlt
        exact hbelow k (by omega) hk
      by_cases hempty : ((frontier.flatMap (gridNeighbours maze n)).filter
          fun c => decide (c ∉ seen)).dedup = []
      · simp only [hempty, if_true]
        right
        refine ⟨trivial, ?_⟩
        have hall : ∀ k c, GridWalk maze n start c k → c ∈ seen := by
          intro k
          induction k with
          | zero => intro c hw; exact (hseen c).2 ⟨0, Nat.zero_le _, hw⟩
          | succ k ihk =>
            intro c hw
            obtain ⟨d, hd, hmw⟩ := exists_minWalk hw
            by_cases hdd : d ≤ depth
            · exact (hseen c).2 ⟨d, hdd, hmw.1⟩
            · exfalso
              obtain ⟨f, hf, hs⟩ := gridWalk_snoc_inv _ _ _ hw
              obtain ⟨kf, hkf, hfw⟩ := (hseen f).1 (ihk f hf)
              have h1 := hmw.2 _ (gridWalk_snoc hfw hs)
              have hd1 : d = depth + 1 := by omega
              rw [hd1] at hmw
              have := (hnext c).2 hmw
              rw [hempty] at this
              simp at this
        intro k hw
        obtain ⟨k1, hk1, hw1⟩ := (hseen goal).1 (hall k goal hw)
        rcases Nat.lt_or_ge k1 depth with h | h
        · exact hbelow k1 h hw1
        · have : k1 = depth := by omega
          rw [this] at hw1
          exact hgoal_depth hw1
      · simp only [hempty, if_false]
        have hlen : 0 < (((frontier.flatMap (gridNeighbours maze n)).filter
            fun c => decide (c ∉ seen)).dedup).length := List.length_pos.2 hempty
        apply ih
        · exact hnext
        · intro c
          rw [List.mem_append, hseen c, hnext c]
          constructor
          · rintro (⟨k, hk, hw⟩ | h)
            · exact ⟨k, by omega, hw⟩
            · exact ⟨depth + 1, le_refl _, h.1⟩
          · rintro ⟨k, hk, hw⟩
            obtain ⟨d, hd, hmw⟩ := exists_minWalk hw
            by_cases hdd : d ≤ depth
            · exact Or.inl ⟨d, hdd, hmw.1⟩
            · have hd1 : d = depth + 1 := by omega
              rw [hd1] at hmw
              exact Or.inr hmw
        · rw [List.nodup_append]
          refine ⟨hnd, List.nodup_dedup _, ?_⟩
          intro c hc1 hc2
          rw [List.mem_dedup, List.mem_filter] at hc2
          simp only [decide_eq_true_eq] at hc2
          exact hc2.2 hc1
        · intro k hk hw
          rcases Nat.lt_or_ge k depth with h | h
          · exact hbelow k h hw
          · have : k = depth := by omega
            rw [this] at hw
            exact hgoal_depth hw
        · rw [List.length_append]
          omega

/-- The breadth-first search returns the least length of a walk from the
start to the goal, and `none` exactly when there is no walk. -/
theorem bfsShortestLength_spec {maze : List (List Int)} {n : Nat} {start goal : Int × Int}
    (hstart : InGrid n start) :
    (∃ d, bfsShortestLength maze n start goal = some d ∧ MinWalk maze n start goal d) ∨
      (bfsShortestLength maze n start goal = none ∧ ∀ k, ¬ GridWalk maze n start goal k) := by
  unfold bfsShortestLength
  apply bfsLevels_spec hstart
  · intro c
    rw [List.mem_singleton]
    constructor
    · intro h; rw [h]; exact ⟨GridWalk.refl _, fun _ _ => Nat.zero_le _⟩
    · intro h; exact (gridWalk_zero h.1).symm
  · intro c
    rw [List.mem_singleton]
    constructor
    · intro h; rw [h]; exact ⟨0, le_refl _, GridWalk.refl _⟩
    · rintro ⟨k, hk, hw⟩
      have : k = 0 := by omega
      rw [this] at hw
      exact (gridWalk_zero hw).symm
  · exact List.nodup_singleton _
  · intro k hk; omega
  · simp

theorem no_walk_of_bfs_none {maze : List (List Int)} {n : Nat} {start goal : Int × Int}
    (hstart : InGrid n start) (h : bfsShortestLength maze n start goal = none) :
    ∀ k, ¬ GridWalk maze n start goal k := by
  rcases @bfsShortestLength_spec maze n start goal hstart with ⟨d, hd, _⟩ | ⟨_, hno⟩
  · rw [h] at hd; exact absurd hd (by simp)
  · exact hno

theorem walk_of_bfs_some {maze : List (List Int)} {n : Nat} {start goal : Int × Int}
    (hstart : InGrid n start) {d : Nat} (h : bfsShortestLength maze n start goal = some d) :
    GridWalk maze n start goal d := by
  rcases @bfsShortestLength_spec maze n start goal hstart with ⟨d1, hd, hm⟩ | ⟨hn, _⟩
  · rw [h] at hd
    rw [Option.some.inj hd]
    exact hm.1
  · rw [h] at hn; exact absurd hn (by simp)

/-! ## Undirected graphs -/

theorem hasEdge_source {g : Graph} {u v w : Int} (h : HasEdge g u v w) :
    0 ≤ u ∧ u < (g.adj_list.length : Int) := by
  obtain ⟨h0, hmem⟩ := h
  unfold Graph.edgesOf at hmem
  by_cases hlt : u.toNat < g.adj_list.length
  · exact ⟨h0, by omega⟩
  · rw [List.getD_eq_default _ _ (by omega)] at hmem
    simp at hmem

theorem hasEdge_mirror {g : Graph} (hu : Undirected g) {u v w : Int}
    (h : HasEdge g u v w) : HasEdge g v u w := by
  obtain ⟨h0, h1⟩ := hasEdge_source h
  have hmem := h.2
  have hcast : ((u.toNat : Nat) : Int) = u := Int.toNat_of_nonneg h0
  have := hu u.toNat (List.mem_range.2 (by omega)) (v, w) (by rw [hcast]; exact hmem)
  rw [hcast] at this
  exact this

theorem neighboursInRange_of_undirected {g : Graph} (hu : Undirected g) :
    NeighboursInRange g := by
  intro es hes e he
  obtain ⟨u, hlt, rfl⟩ := List.getElem_of_mem hes
  have hedge : HasEdge g (u : Int) e.1 e.2 := by
    refine ⟨Int.ofNat_nonneg u, ?_⟩
    rw [edgesOf_natCast, List.getD_eq_getElem _ _ hlt]
    exact he
  exact hasEdge_source (hasEdge_mirror hu hedge)

theorem walk_cons {g : Graph} {s u : Int} {w : Int} (he : HasEdge g s u w) :
    ∀ {v W : Int}, Walk g u v W → Walk g s v (w + W) := by
  intro v W hwalk
  induction hwalk with
  | nil =>
    have := Walk.snoc (Walk.nil : Walk g s s 0) he
    simpa using this
  | @snoc x y w1 W1 _ he1 ih =>
    have := Walk.snoc ih he1
    rw [add_assoc] at this
    exact this

theorem walk_reverse {g : Graph} (hu : Undirected g) {s v W : Int}
    (h : Walk g s v W) : Walk g v s W := by
  induction h with
  | nil => exact Walk.nil
  | @snoc x y w1 W1 _ he ih =>
    have := walk_cons (hasEdge_mirror hu he) ih
    rw [add_comm] at this
    exact this

theorem entryAt_rows {H : MinHeap (Int × Int)} {g : Graph} {i j : Nat}
    (hi : i < g.adj_list.length) (hj : j < g.adj_list.length) {d : Int → Int}
    (hd : dijkstra H g (i : Int) = .ok (tableToList g.adj_list.length d)) :
    entryAt ((List.range g.adj_list.length).map (rowOf H g)) i j = d j := by
  have h1 : ((List.range g.adj_list.length).map (rowOf H g))[i]? = some (rowOf H g i) := by
    rw [List.getElem?_map, List.getElem?_range hi]; rfl
  have h2 : (tableToList g.adj_list.length d)[j]? = some (d j) := by
    have := tableToList_getElem? g.adj_list.length d (Int.ofNat_nonneg j)
      (by exact_mod_cast hj)
    simpa using this
  simp only [entryAt, List.getD_eq_getElem?_getD, h1, Option.getD_some, rowOf, hd, h2]

theorem noPath_not_moves : ¬ ∀ c ∈ "No path found".toList, IsMoveLetter c := by decide

/-! ## Lemmas on the run of `dijkstra` -/

theorem dinv_init {g : Graph} {s : Int} (h0 : 0 ≤ s) (h1 : s < (g.adj_list.length : Int)) :
    DInv g s (visitedWeight g (fun _ => false)) (fun _ => false)
      (Function.update (fun _ => INT_MAX) s 0) [(s, 0)] := by
  refine ⟨Function.update_same _ _ _, ?_, ?_, ?_, ?_⟩
  · intro v hv
    by_cases hvs : v = s
    · subst hvs
      rw [Function.update_same, visitedWeight_init]
      exact ⟨⟨h0, h1⟩, Walk.nil, le_refl _⟩
    · rw [Function.update_noteq hvs] at hv
      exact absurd rfl hv
  · intro v hv; exact Bool.noConfusion hv
  · intro v _ hv
    by_cases hvs : v = s
    · subst hvs
      rw [Function.update_same]
      exact List.mem_singleton.2 rfl
    · rw [Function.update_noteq hvs] at hv
      exact absurd rfl hv
  · intro e he
    rw [List.mem_singleton.1 he]
    simp only [Function.update_same, le_refl, true_and]
    exact ⟨⟨h0, h1⟩, by decide⟩

theorem dijkstraInit_inv {H : MinHeap (Int × Int)} (hH : IsMinQueue H Prod.snd) {g : Graph}
    {s : Int} (h0 : 0 ≤ s) (h1 : s < (g.adj_list.length : Int)) :
    DInv g s (visitedWeight g (dijkstraInit H s).visited) (dijkstraInit H s).visited
      (dijkstraInit H s).d (H.entries (dijkstraInit H s).mh) ∧
    SettledOn g (fun u => (dijkstraInit H s).visited u = true) (dijkstraInit H s).d ∧
    (H.entries (dijkstraInit H s).mh).length + pendingEdges g (dijkstraInit H s).visited
      = g.edgeCount + 1 := by
  have hsingle := hH.entries_single (s, (0 : Int))
  refine ⟨(dinv_init h0 h1).of_perm hsingle.symm, ?_, ?_⟩
  · intro u hu; exact Bool.noConfusion hu
  · simp only [dijkstraInit, pendingEdges_init, hsingle.length_eq, List.length_singleton]
    omega

theorem dijkstraIter_add (H : MinHeap (Int × Int)) (g : Graph) (n : Int) :
    ∀ (j k : Nat) (st st1 : DState H.Q), dijkstraIter H g n j st = some st1 →
      dijkstraIter H g n (j + k) st = dijkstraIter H g n k st1 := by
  intro j
  induction j with
  | zero =>
    intro k st st1 h
    simp only [dijkstraIter, Option.some.injEq] at h
    rw [h, Nat.zero_add]
  | succ j ih =>
    intro k st st1 h
    rw [Nat.add_right_comm]
    simp only [dijkstraIter] at h ⊢
    cases hstep : dijkstraStep H g n st with
    | error f => simp [hstep] at h
    | ok o =>
      cases o with
      | none => simp [hstep] at h
      | some st2 =>
        simp only [hstep] at h ⊢
        exact ih k st2 st1 h

theorem dijkstraIter_succ (H : MinHeap (Int × Int)) (g : Graph) (n : Int)
    {j : Nat} {st st1 st2 : DState H.Q} (h : dijkstraIter H g n j st = some st1)
    (hstep : dijkstraStep H g n st1 = .ok (some st2)) :
    dijkstraIter H g n (j + 1) st = some st2 := by
  rw [dijkstraIter_add H g n j 1 st st1 h]
  simp only [dijkstraIter, hstep]

/-- The invariant holds in every state the loop reaches. -/
theorem dijkstraIter_inv {H : MinHeap (Int × Int)} (hH : IsMinQueue H Prod.snd) {g : Graph}
    (hw : NonNegative g) (hr : NeighboursInRange g) (hT : g.totalWeight < INT_MAX) (s : Int) :
    ∀ (k : Nat) (st st1 : DState H.Q),
      DInv g s (visitedWeight g st.visited) st.visited st.d (H.entries st.mh) →
      SettledOn g (fun u => st.visited u = true) st.d →
      dijkstraIter H g (g.adj_list.length : Int) k st = some st1 →
      DInv g s (visitedWeight g st1.visited) st1.visited st1.d (H.entries st1.mh) ∧
      SettledOn g (fun u => st1.visited u = true) st1.d := by
  intro k
  induction k with
  | zero =>
    intro st st1 hinv hset h
    simp only [dijkstraIter, Option.some.injEq] at h
    rw [← h]
    exact ⟨hinv, hset⟩
  | succ k ih =>
    intro st st1 hinv hset h
    simp only [dijkstraIter] at h
    rcases dijkstraStep_spec hH hw hr hT s st hinv hset with ⟨hrun, _⟩ | ⟨st2, hrun, hI, hS, _⟩
    · simp [hrun] at h
    · simp only [hrun] at h
      exact ih st2 st1 hI hS h

/-- The marks only grow, and a step that marks node `a` has popped an entry of `a`. -/
theorem dijkstraStep_visited {H : MinHeap (Int × Int)} {g : Graph} {n : Int}
    {st st1 : DState H.Q} (hstep : dijkstraStep H g n st = .ok (some st1)) :
    (∀ v, st.visited v = true → st1.visited v = true) ∧
    ∀ a, st.visited a = false → st1.visited a = true →
      ∃ top rest, H.pop st.mh = some (top, rest) ∧ top.1 = a := by
  unfold dijkstraStep at hstep
  cases hpop : H.pop st.mh with
  | none => simp [hpop] at hstep
  | some p =>
    obtain ⟨top, rest⟩ := p
    simp only [hpop] at hstep
    by_cases hin : 0 ≤ top.1 ∧ top.1 < n
    · simp only [hin, and_self, if_true] at hstep
      by_cases hv : st.visited top.1 = true
      · simp only [hv, Bool.not_true, Bool.false_eq_true, if_false, Except.ok.injEq,
          Option.some.injEq] at hstep
        rw [← hstep]
        refine ⟨fun v h => h, ?_⟩
        intro a h1 h2
        simp only at h2
        rw [h1] at h2
        exact Bool.noConfusion h2
      · have hvf : st.visited top.1 = false := by simpa using hv
        simp only [hvf, Bool.not_false, if_true] at hstep
        cases hrel : relaxEdges H n top.1 (g.edgesOf top.1) (st.d, rest) with
        | error f => simp [hrel] at hstep
        | ok r =>
          obtain ⟨d1, mh1⟩ := r
          simp only [hrel, Except.ok.injEq, Option.some.injEq] at hstep
          rw [← hstep]
          constructor
          · intro v h
            simp only
            by_cases hva : v = top.1
            · rw [hva, Function.update_same]
            · rw [Function.update_noteq hva]; exact h
          · intro a h1 h2
            simp only at h2
            by_cases hva : a = top.1
            · exact ⟨top, rest, rfl, hva.symm⟩
            · rw [Function.update_noteq hva, h1] at h2
              exact Bool.noConfusion h2
    · simp [hin] at hstep

theorem dijkstraIter_visited {H : MinHeap (Int × Int)} {g : Graph} {n : Int} :
    ∀ (k : Nat) (st st1 : DState H.Q), dijkstraIter H g n k st = some st1 →
      ∀ v, st.visited v = true → st1.visited v = true := by
  intro k
  induction k with
  | zero =>
    intro st st1 h v hv
    simp only [dijkstraIter, Option.some.injEq] at h
    rw [← h]; exact hv
  | succ k ih =>
    intro st st1 h v hv
    simp only [dijkstraIter] at h
    cases hstep : dijkstraStep H g n st with
    | error f => simp [hstep] at h
    | ok o =>
      cases o with
      | none => simp [hstep] at h
      | some st2 =>
        simp only [hstep] at h
        exact ih st2 st1 h v ((dijkstraStep_visited hstep).1 v hv)

/-- A visited node carries the least walk weight. -/
theorem DInv.visited_shortest {g : Graph} {s B : Int} {vis : Int → Bool} {d : Int → Int}
    {mh : List (Int × Int)} (h : DInv g s B vis d mh) {a : Int} (ha : vis a = true) :
    IsShortestDist g s a (d a) :=
  ⟨(h.fin a (h.opt a ha).1).2.1, (h.opt a ha).2⟩

theorem isShortestDist_unique {g : Graph} {s v x y : Int} (hx : IsShortestDist g s v x)
    (hy : IsShortestDist g s v y) : x = y :=
  le_antisymm (hx.2 y hy.1) (hy.2 x hx.1)

/-! ## Termination of the loop and the entries it pushes -/

theorem dijkstraStep_none {H : MinHeap (Int × Int)} {g : Graph} {n : Int}
    {st : DState H.Q} (hstep : dijkstraStep H g n st = .ok none) : H.pop st.mh = none := by
  unfold dijkstraStep at hstep
  cases hpop : H.pop st.mh with
  | none => rfl
  | some p =>
    obtain ⟨top, rest⟩ := p
    simp only [hpop] at hstep
    by_cases hin : 0 ≤ top.1 ∧ top.1 < n
    · simp only [hin, and_self, if_true] at hstep
      by_cases hv : st.visited top.1 = true
      · simp [hv] at hstep
      · have hvf : st.visited top.1 = false := by simpa using hv
        simp only [hvf, Bool.not_false, if_true] at hstep
        cases hrel : relaxEdges H n top.1 (g.edgesOf top.1) (st.d, rest) with
        | error f => simp [hrel] at hstep
        | ok r => simp [hrel] at hstep
    · simp [hin] at hstep

/-- Without any bound on the weights the loop ends within its fuel, in a state
whose queue is empty. -/
theorem dijkstraIter_reach {H : MinHeap (Int × Int)} (hH : IsMinQueue H Prod.snd) {g : Graph}
    (hr : NeighboursInRange g) (s : Int) :
    ∀ (fuel : Nat) (st : DState H.Q),
      (∀ v, st.d v ≠ INT_MAX → Reachable g s v) →
      (∀ e ∈ H.entries st.mh,
        (0 ≤ e.1 ∧ e.1 < (g.adj_list.length : Int)) ∧ Reachable g s e.1) →
      (H.entries st.mh).length + pendingEdges g st.visited < fuel →
      ∃ (k : Nat) (st1 : DState H.Q), k < fuel ∧
        dijkstraIter H g (g.adj_list.length : Int) k st = some st1 ∧
        dijkstraStep H g (g.adj_list.length : Int) st1 = .ok none ∧
        dijkstraLoop H g (g.adj_list.length : Int) fuel st = .ok st1.d := by
  intro fuel
  induction fuel with
  | zero => intro st _ _ h; omega
  | succ fuel ih =>
    intro st hd hm hfuel
    rcases dijkstraStep_reach hH hr s st hd hm with hrun | ⟨st1, hrun, hd1, hm1, hM⟩
    · refine ⟨0, st, Nat.succ_pos _, rfl, hrun, ?_⟩
      simp only [dijkstraLoop, hrun]
    · obtain ⟨k, st2, hk, hiter, hend, hloop⟩ := ih st1 hd1 hm1 (by omega)
      refine ⟨k + 1, st2, Nat.succ_lt_succ hk, ?_, hend, ?_⟩
      · simp only [dijkstraIter, hrun]
        exact hiter
      · simp only [dijkstraLoop, hrun]
        exact hloop

/-- What `relaxEdges` leaves in the queue: the entries it found there, and
entries pushed for a node whose distance had just strictly decreased to the
value pushed.  Distances only decrease. -/
theorem relaxEdges_pushes {H : MinHeap (Int × Int)} (hH : IsMinQueue H Prod.snd)
    (n a : Int) :
    ∀ (es : List (Int × Int)) (d : Int → Int) (mh : H.Q) (d1 : Int → Int) (mh1 : H.Q),
      relaxEdges H n a es (d, mh) = .ok (d1, mh1) →
      (∀ v, d1 v ≤ d v) ∧
      ∀ e ∈ H.entries mh1, e ∈ H.entries mh ∨ (e.2 < d e.1 ∧ d1 e.1 ≤ e.2) := by
  intro es
  induction es with
  | nil =>
    intro d mh d1 mh1 h
    simp only [relaxEdges, Except.ok.injEq, Prod.mk.injEq] at h
    obtain ⟨rfl, rfl⟩ := h
    exact ⟨fun _ => le_refl _, fun e he => Or.inl he⟩
  | cons e es ih =>
    intro d mh d1 mh1 h
    obtain ⟨v, w⟩ := e
    simp only [relaxEdges] at h
    by_cases hin : 0 ≤ v ∧ v < n
    · simp only [hin, and_self, if_true] at h
      by_cases hgt : d v > wrapInt (d a + w)
      · simp only [hgt, if_true, Function.update_same] at h
        obtain ⟨hmono, hq⟩ := ih _ _ d1 mh1 h
        have hstep : ∀ x, Function.update d v (wrapInt (d a + w)) x ≤ d x := by
          intro x
          by_cases hxv : x = v
          · rw [hxv, Function.update_same]; omega
          · rw [Function.update_noteq hxv]
        refine ⟨fun x => le_trans (hmono x) (hstep x), ?_⟩
        intro e he
        rcases hq e he with h1 | ⟨h1, h2⟩
        · rcases List.mem_cons.1 ((hH.entries_push mh _).mem_iff.1 h1) with h3 | h3
          · refine Or.inr ?_
            rw [h3]
            simp only
            have := hmono v
            rw [Function.update_same] at this
            exact ⟨by omega, this⟩
          · exact Or.inl h3
        · exact Or.inr ⟨lt_of_lt_of_le h1 (hstep e.1), h2⟩
      · simp only [hgt, if_false] at h
        exact ih d mh d1 mh1 h
    · simp [hin] at h

/-- One iteration of the loop only lowers distances, and every entry it leaves
in the queue was there before or was pushed after a strict decrease. -/
theorem dijkstraStep_pushes {H : MinHeap (Int × Int)} (hH : IsMinQueue H Prod.snd)
    {g : Graph} {n : Int} {st st1 : DState H.Q}
    (hstep : dijkstraStep H g n st = .ok (some st1)) :
    (∀ v, st1.d v ≤ st.d v) ∧
    ∀ e ∈ H.entries st1.mh, e ∈ H.entries st.mh ∨ (e.2 < st.d e.1 ∧ st1.d e.1 ≤ e.2) := by
  unfold dijkstraStep at hstep
  cases hpop : H.pop st.mh with
  | none => simp [hpop] at hstep
  | some p =>
    obtain ⟨top, rest⟩ := p
    have hsub : ∀ x ∈ H.entries rest, x ∈ H.entries st.mh :=
      fun x hx => (hH.mem_pop hpop x).2 (Or.inr hx)
    simp only [hpop] at hstep
    by_cases hin : 0 ≤ top.1 ∧ top.1 < n
    · simp only [hin, and_self, if_true] at hstep
      by_cases hv : st.visited top.1 = true
      · simp only [hv, Bool.not_true, Bool.false_eq_true, if_false, Except.ok.injEq,
          Option.some.injEq] at hstep
        rw [← hstep]
        exact ⟨fun _ => le_refl _, fun e he => Or.inl (hsub e he)⟩
      · have hvf : st.visited top.1 = false := by simpa using hv
        simp only [hvf, Bool.not_false, if_true] at hstep
        cases hrel : relaxEdges H n top.1 (g.edgesOf top.1) (st.d, rest) with
        | error f => simp [hrel] at hstep
        | ok r =>
          obtain ⟨d1, mh1⟩ := r
          simp only [hrel, Except.ok.injEq, Option.some.injEq] at hstep
          rw [← hstep]
          obtain ⟨hmono, hq⟩ := relaxEdges_pushes hH n top.1 _ _ _ _ _ hrel
          refine ⟨hmono, ?_⟩
          intro e he
          rcases hq e he with h1 | h1
          · exact Or.inl (hsub e h1)
          · exact Or.inr h1
    · simp [hin] at hstep

/-! ## Agreement of the variant without the visited test -/

/-- With a sum that leaves the range of `int` the two functions can differ.  On
the graph `0→1 (1)`, `0→2 (2^30)`, `1→3 (1)`, `2→1 (INT_MAX)` from start 0,
whose weights sum to more than `INT_MAX`, the relaxation of the edge `2 → 1`
computes `2^30 + INT_MAX`, which wraps to `-2^30 - 1`, lowers `d[1]` of the
visited node 1 and pushes a second entry for it.  `dijkstra` discards that
entry and leaves `d[3] = 2`; the variant relaxes the edge `1 → 3` again and
ends with `d[3] = -2^30`.  The entry `d[1]` is wrong in both tables. -/
theorem dijkstraNoCheck_overflow :
    NonNegative graphStale ∧ NeighboursInRange graphStale ∧
    ¬ graphStale.totalWeight < INT_MAX ∧
    dijkstra distHeap graphStale 0 = .ok [0, -1073741825, 1073741824, 2] ∧
    dijkstraNoCheck distHeap graphStale 0 7 =
      .ok [0, -1073741825, 1073741824, -1073741824] :=
  ⟨by unfold NonNegative; decide, by unfold NeighboursInRange; decide, by decide,
    by decide, by decide⟩

/-! ## The final table -/

/-- With an empty queue every node joined to the start by a walk is visited. -/
theorem final_visited {g : Graph} {s B : Int} {vis : Int → Bool} {d : Int → Int}
    (hI : DInv g s B vis d []) (hS : SettledOn g (fun u => vis u = true) d) :
    ∀ v W, Walk g s v W → vis v = true := by
  intro v W hwalk
  induction hwalk with
  | nil =>
    by_contra hc
    have hc0 : vis s = false := by simpa using hc
    have := hI.opn s hc0 (by rw [hI.src]; decide)
    simp at this
  | @snoc u v1 w1 W1 _ he ih =>
    by_contra hc
    have hc0 : vis v1 = false := by simpa using hc
    have := hI.opn v1 hc0 (hS u ih v1 w1 he).1
    simp at this

/-- The table returned by `dijkstra` on a well-formed input: an entry is
`INT_MAX` exactly when its node is not reachable, and is otherwise the least
walk weight. -/
theorem dijkstra_final {H : MinHeap (Int × Int)} (hH : IsMinQueue H Prod.snd) {g : Graph}
    (hr : NeighboursInRange g) (hw : NonNegative g)
    (hT : g.totalWeight < INT_MAX) {s : Int} (h0 : 0 ≤ s)
    (h1 : s < (g.adj_list.length : Int)) :
    ∃ d : Int → Int, dijkstra H g s = .ok (tableToList g.adj_list.length d) ∧
      (∀ v, d v = INT_MAX ↔ ¬ Reachable g s v) ∧
      (∀ v, d v ≠ INT_MAX → 0 ≤ d v ∧ IsShortestDist g s v (d v)) := by
  obtain ⟨hI0, hS0, hM0⟩ := @dijkstraInit_inv H hH g s h0 h1
  obtain ⟨d, vis, hrun, hI, hS⟩ := dijkstraLoop_spec hH hw hr hT s (g.edgeCount + 2)
    (dijkstraInit H s) hI0 hS0 (by omega)
  refine ⟨d, ?_, ?_, ?_⟩
  · unfold dijkstraInit at hrun
    unfold dijkstra
    simp only [ge_iff_le, not_le.2 h1, if_false, hasNegativeWeight_eq_false hw,
      Bool.false_eq_true, not_lt.2 h0, hrun]
  · intro v
    constructor
    · rintro hv ⟨W, hwalk⟩
      exact (hI.opt v (final_visited hI hS v W hwalk)).1 hv
    · intro hv
      by_contra hc
      exact hv ⟨_, (hI.fin v hc).2.1⟩
  · intro v hv
    have hwalk := (hI.fin v hv).2.1
    have hvis := final_visited hI hS v _ hwalk
    exact ⟨walk_nonneg hw hwalk, hI.visited_shortest hvis⟩

/-! ## Lemmas on the run of `aStar` -/

theorem aStarInit_inv {H : MinHeap Node} (hH : IsMinQueue H Node.priority)
    (maze : List (List Int)) {n : Nat} {start : Int × Int} (goal : Int × Int)
    (hn : GridFits n) (hstart : InGrid n start) :
    AInv maze n start goal (fun _ => True) (H.entries (aStarInit H n start).mh)
      (aStarInit H n start).cameFrom (aStarInit H n start).costSoFar := by
  have hIM : INT_MAX = 2147483647 := rfl
  have hconstF : finiteCount n (fun _ => INT_MAX) = 0 := by simp [finiteCount]
  have h0 : (0 : Int) ≠ INT_MAX := by decide
  have hinit : AInv maze n start goal (fun _ => True)
      [⟨cellId n start, 0⟩] (fun _ => (-1, -1))
      (Function.update (fun _ => INT_MAX) start 0) := by
    refine ⟨?_, ?_, ?_, ?_, ?_⟩
    · simp only [Function.update_same]
    · intro c hcf
      by_cases hcs : c = start
      · subst hcs
        rw [Function.update_same, finiteCount_update n _ hstart h0, hconstF]
        simp only [if_true]
        exact ⟨hstart, le_refl _, by omega, 0, GridWalk.refl _⟩
      · rw [Function.update_noteq hcs] at hcf
        exact absurd rfl hcf
    · intro c hcs hcf
      rw [Function.update_noteq hcs] at hcf
      exact absurd rfl hcf
    · intro e he
      rw [List.mem_singleton.1 he]
      refine ⟨start, hstart, rfl, ?_, Or.inl rfl⟩
      simp only [Function.update_same]
      exact h0
    · intro c _ hcf
      by_cases hcs : c = start
      · subst hcs
        left
        refine ⟨_, List.mem_singleton.2 rfl, rfl, ?_⟩
        simp only [Function.update_same]
        have := heuristic_nonneg c goal
        omega
      · rw [Function.update_noteq hcs] at hcf
        exact absurd rfl hcf
  have hsingle := hH.entries_single (⟨cellId n start, 0⟩ : Node)
  unfold aStarInit
  simp only [cellId_wrap hn hstart]
  exact hinit.reorder hsingle.symm

/-- The invariant holds in every state the loop of `aStar` reaches. -/
theorem aStarIter_inv {H : MinHeap Node} (hH : IsMinQueue H Node.priority)
    {maze : List (List Int)} {n : Nat} {start goal : Int × Int}
    (hn : GridFits n) (hg : IsGrid maze n) (hgoal : InGrid n goal) :
    ∀ (k : Nat) (st st1 : AState H.Q),
      AInv maze n start goal (fun _ => True) (H.entries st.mh) st.cameFrom st.costSoFar →
      aStarIter H maze n goal k st = some st1 →
      AInv maze n start goal (fun _ => True) (H.entries st1.mh) st1.cameFrom
        st1.costSoFar := by
  intro k
  induction k with
  | zero =>
    intro st st1 hinv h
    simp only [aStarIter, Option.some.injEq] at h
    rw [← h]; exact hinv
  | succ k ih =>
    intro st st1 hinv h
    obtain ⟨mh, came, cost⟩ := st
    simp only at hinv
    simp only [aStarIter] at h
    cases hpop : H.pop mh with
    | none => simp [hpop] at h
    | some p =>
      obtain ⟨e, rest⟩ := p
      simp only [hpop] at h
      have hmem : e ∈ H.entries mh := (hH.mem_pop hpop e).2 (Or.inl rfl)
      obtain ⟨c, hc, hid, hfin, _⟩ := hinv.ent e hmem
      have hgid := cellId_wrap hn hgoal
      simp only [hgid] at h
      by_cases hcg : e.nodeID = cellId n goal
      · simp [hcg] at h
      · simp only [hcg, if_false] at h
        have hne : c ≠ goal := by
          intro h1; apply hcg; rw [hid, h1]
        have hn0 : n ≠ 0 := by
          intro h1
          obtain ⟨h2, h3, _, _⟩ := hc
          rw [h1] at h3
          simp only [Nat.cast_zero] at h3
          omega
        simp only [hn0, if_false] at h
        obtain ⟨hdiv, hmod⟩ := cellId_div hc
        rw [hid, hdiv, hmod] at h
        obtain ⟨st2, hrun, hI, _⟩ := expand_spec hH hn hg hgoal hinv hpop hc hid hfin hne
        rw [hrun] at h
        simp only at h
        exact ih st2 st1 hI h

/-- The states of `aStarIter` are those of the loop `aStarLoop`. -/
theorem aStarLoop_iter (H : MinHeap Node) (maze : List (List Int)) (n : Nat)
    (start goal : Int × Int) :
    ∀ (k fuel : Nat) (st st1 : AState H.Q), aStarIter H maze n goal k st = some st1 →
      aStarLoop H maze n start goal (k + fuel) st = aStarLoop H maze n start goal fuel st1 := by
  intro k
  induction k with
  | zero =>
    intro fuel st st1 h
    simp only [aStarIter, Option.some.injEq] at h
    rw [h, Nat.zero_add]
  | succ k ih =>
    intro fuel st st1 h
    rw [Nat.add_right_comm]
    simp only [aStarIter] at h
    simp only [aStarLoop]
    cases hpop : H.pop st.mh with
    | none => simp [hpop] at h
    | some p =>
      obtain ⟨e, rest⟩ := p
      simp only [hpop] at h ⊢
      by_cases hcg : e.nodeID = wrapInt (wrapInt (goal.1 * n) + goal.2)
      · simp [hcg] at h
      · simp only [hcg, if_false] at h ⊢
        by_cases hn0 : n = 0
        · simp [hn0] at h
        · simp only [hn0, if_false] at h ⊢
          cases hrel : relaxNeighbors H maze n goal (Int.tdiv e.nodeID n)
              (Int.tmod e.nodeID n) dirs ⟨rest, st.cameFrom, st.costSoFar⟩ with
          | error f => simp [hrel] at h
          | ok st2 =>
            simp only [hrel] at h ⊢
            exact ih fuel st2 st1 h

/-- The walk over the parent table from a cell of finite cost: the
reconstruction succeeds, and the cells it visits form a chain from the cell to
the start in which every cell but the start has a recorded parent, one move
away from it. -/
theorem parent_chain {maze : List (List Int)} {n : Nat} {start goal : Int × Int}
    {P : Int × Int → Prop} {mh : List Node} {came : Int × Int → Int × Int}
    {cost : Int × Int → Int} (hinv : AInv maze n start goal P mh came cost) :
    ∀ (fuel : Nat) (cur : Int × Int) (acc : String), cost cur ≠ INT_MAX →
      cost cur < (fuel : Int) →
      ∃ (r : String) (chain : List (Int × Int)),
        reconstructPath n start came fuel cur acc = .ok r ∧
        r.toList.length + 1 = chain.length + acc.toList.length ∧
        chain.head? = some cur ∧ chain.getLast? = some start ∧
        (chain.length : Int) ≤ cost cur + 1 ∧ (∀ c ∈ chain, InGrid n c) ∧
        List.Chain' (fun c p => c ≠ start ∧ p = came c ∧ p ≠ (-1, -1) ∧ GridStep maze n p c)
          chain := by
  intro fuel
  induction fuel with
  | zero =>
    intro cur acc hfin hlt
    have := (hinv.fin cur hfin).2.1
    simp only [Nat.cast_zero] at hlt
    omega
  | succ fuel ih =>
    intro cur acc hfin hlt
    have hcur := hinv.fin cur hfin
    by_cases hcs : cur = start
    · refine ⟨acc, [cur], ?_, by simp [Nat.add_comm], rfl, by simp [hcs], ?_, ?_,
        List.chain'_singleton _⟩
      · simp only [reconstructPath, hcs, ne_eq, not_true_eq_false, if_false]
      · have := hcur.2.1
        simp only [List.length_singleton, Nat.cast_one]
        omega
      · intro c hc
        rw [List.mem_singleton.1 hc]
        exact hcur.1
    · obtain ⟨hpf, hps, hpc⟩ := hinv.par cur hcs hfin
      obtain ⟨l, _, _, hletter⟩ := letter_spec hps acc
      obtain ⟨r, chain, hrun, hlen, hhead, hlast, hbound, hin, hchain⟩ :=
        ih (came cur) _ hpf (by push_cast at hlt; omega)
      have hpin := (hinv.fin (came cur) hpf).1
      have hne : came cur ≠ (-1, -1) := by
        intro h
        rw [h] at hpin
        obtain ⟨h1, _⟩ := hpin
        simp only at h1
        omega
      refine ⟨r, cur :: chain, ?_, ?_, rfl, ?_, ?_, ?_, ?_⟩
      · simp only [reconstructPath, ne_eq, hcs, not_false_eq_true, if_true, hcur.1]
        exact hrun
      · rw [hletter] at hlen
        simp only [List.length_cons] at hlen ⊢
        omega
      · cases chain with
        | nil => simp at hhead
        | cons x xs => simpa using hlast
      · simp only [List.length_cons]
        push_cast
        omega
      · intro c hc
        rcases List.mem_cons.1 hc with rfl | hc
        · exact hcur.1
        · exact hin c hc
      · rw [List.chain'_cons']
        refine ⟨?_, hchain⟩
        intro y hy
        rw [hhead] at hy
        have hy1 : y = came cur := by simpa using hy.symm
        rw [hy1]
        exact ⟨hcs, rfl, hne, hps⟩

/-! ## Grids beyond the range of `int` -/

/-- The grid `gridOpen n` has `n` rows of `n` cells. -/
theorem isGrid_gridOpen (n : Nat) : IsGrid (gridOpen n) n := by
  refine ⟨by simp [gridOpen], ?_⟩
  intro row hrow
  rw [gridOpen, List.mem_replicate] at hrow
  rw [hrow.2, List.length_replicate]

/-- Every cell of `gridOpen n` is walkable. -/
theorem walkable_gridOpen {n : Nat} {c : Int × Int} (h : InGrid n c) :
    Walkable (gridOpen n) c := by
  obtain ⟨h1, h2, h3, h4⟩ := h
  have hx : c.1.toNat < n := by omega
  have hy : c.2.toNat < n := by omega
  unfold Walkable mazeAt gridOpen
  rw [if_pos ⟨h1, h3⟩, List.getElem?_eq_getElem (by simpa using hx)]
  simp only [List.getElem_replicate]
  rw [List.getElem?_eq_getElem (by simpa using hy), List.getElem_replicate]

/-- The grid `gridOnly n cells` has `n` rows of `n` cells. -/
theorem isGrid_gridOnly (n : Nat) (cells : List (Int × Int)) : IsGrid (gridOnly n cells) n := by
  refine ⟨by simp [gridOnly], ?_⟩
  intro row hrow
  rw [gridOnly, List.mem_map] at hrow
  obtain ⟨i, _, rfl⟩ := hrow
  simp

/-- The cells of `gridOnly n cells`: 1 on the listed cells, 0 elsewhere. -/
theorem mazeAt_gridOnly {n : Nat} (cells : List (Int × Int)) {c : Int × Int}
    (h : InGrid n c) :
    mazeAt (gridOnly n cells) c.1 c.2 = some (if c ∈ cells then 1 else 0) := by
  obtain ⟨h1, h2, h3, h4⟩ := h
  have hx : c.1.toNat < n := by omega
  have hy : c.2.toNat < n := by omega
  have ex : ((c.1.toNat : Nat) : Int) = c.1 := Int.toNat_of_nonneg h1
  have ey : ((c.2.toNat : Nat) : Int) = c.2 := Int.toNat_of_nonneg h3
  unfold mazeAt gridOnly
  rw [if_pos ⟨h1, h3⟩, List.getElem?_eq_getElem (by simpa using hx)]
  simp only [List.getElem_map, List.getElem_range]
  rw [List.getElem?_eq_getElem (by simpa using hy)]
  simp only [List.getElem_map, List.getElem_range, ex, ey]

/-- With the ids of two cells equal after the wrap, the first pop of `aStar`
passes the goal test and the reconstruction leaves the grid: on a grid of side
65537 the goal `(65535, 1)` has the id `65535 * 65537 + 1 = 2³² mod 2³² = 0` of
the start `(0, 0)`, whatever the maze holds. -/
theorem aStar_wrapped_goal (maze : List (List Int)) :
    aStar nodeHeap maze 65537 (0, 0) (65535, 1) = .error .memoryFault := rfl

/-- With the id of the start wrapped to a negative number, the first pop of
`aStar` decodes a cell outside the grid, no neighbour is pushed and the search
ends: on a grid of side 46341 the start `(46340, 46340)` has the id
`46341² - 1 - 2³² = -2147479016`, whatever the maze holds. -/
theorem aStar_wrapped_start (maze : List (List Int)) :
    aStar nodeHeap maze 46341 (46340, 46340) (46340, 46338) = .ok "No path found" := rfl

end ShortestPath

namespace Sorting
open ShortestPath

/-! ## Slices of a vector -/

theorem slice_length (arr : Int → Int) (lo : Int) (len : Nat) :
    (slice arr lo len).length = len := by
  simp [slice]

theorem slice_zero (arr : Int → Int) (lo : Int) : slice arr lo 0 = [] := rfl

theorem slice_succ (arr : Int → Int) (lo : Int) (len : Nat) :
    slice arr lo (len + 1) = slice arr lo len ++ [arr (lo + len)] := by
  simp [slice, List.range_succ]

theorem slice_append (arr : Int → Int) (lo : Int) (a b : Nat) :
    slice arr lo (a + b) = slice arr lo a ++ slice arr (lo + a) b := by
  induction b with
  | zero => simp [slice_zero]
  | succ b ih =>
    rw [← Nat.add_assoc, slice_succ, ih, slice_succ, List.append_assoc]
    push_cast
    rw [add_assoc]

theorem slice_cons (arr : Int → Int) (lo : Int) (len : Nat) :
    slice arr lo (len + 1) = arr lo :: slice arr (lo + 1) len := by
  rw [Nat.add_comm, slice_append]
  simp [slice, List.range_succ]

theorem slice_congr {arr arr1 : Int → Int} {lo : Int} {len : Nat}
    (h : ∀ t, lo ≤ t → t < lo + len → arr1 t = arr t) : slice arr1 lo len = slice arr lo len := by
  unfold slice
  apply List.map_congr_left
  intro t ht
  have := List.mem_range.1 ht
  exact h _ (by omega) (by omega)

theorem mem_slice {arr : Int → Int} {lo : Int} {len : Nat} {x : Int} :
    x ∈ slice arr lo len ↔ ∃ t, lo ≤ t ∧ t < lo + len ∧ arr t = x := by
  unfold slice
  rw [List.mem_map]
  constructor
  · rintro ⟨t, ht, rfl⟩
    have := List.mem_range.1 ht
    exact ⟨lo + t, by omega, by omega, rfl⟩
  · rintro ⟨t, h1, h2, rfl⟩
    refine ⟨(t - lo).toNat, List.mem_range.2 (by omega), ?_⟩
    congr 1
    omega

theorem slice_getD (arr : Int → Int) (lo : Int) (len : Nat) {t : Nat} (ht : t < len) :
    (slice arr lo len).getD t 0 = arr (lo + t) := by
  simp [slice, List.getD_eq_getElem?_getD, List.getElem?_map, List.getElem?_range ht]

theorem tableToList_eq_slice (n : Nat) (arr : Int → Int) : tableToList n arr = slice arr 0 n := by
  simp [tableToList, slice]

theorem slice_tableOf (arr : List Int) : slice (tableOf arr) 0 arr.length = arr := by
  apply List.ext_getElem
  · rw [slice_length]
  · intro t h1 h2
    simp [slice, tableOf, List.getD_eq_getElem?_getD, List.getElem?_eq_getElem h2]

theorem drop_eq_getD_cons {l : List Int} {i : Nat} (h : i < l.length) :
    l.drop i = l.getD i 0 :: l.drop (i + 1) := by
  rw [List.getD_eq_getElem _ _ h]
  exact List.drop_eq_getElem_cons h

/-! ## The merge step -/

theorem mergeWhile_spec (n : Nat) (left right : List Int) :
    ∀ (fuel i j : Nat) (k : Int) (arr : Int → Int), i ≤ left.length → j ≤ right.length →
      (left.length - i) + (right.length - j) < fuel → 0 ≤ k →
      k + (((left.length - i) + (right.length - j) : Nat) : Int) ≤ n →
      ∃ (i1 j1 : Nat) (arr1 : Int → Int),
        mergeWhile n left right fuel i j k arr
          = .ok (i1, j1, k + (((i1 - i) + (j1 - j) : Nat) : Int), arr1) ∧
        i ≤ i1 ∧ i1 ≤ left.length ∧ j ≤ j1 ∧ j1 ≤ right.length ∧
        slice arr1 k ((i1 - i) + (j1 - j)) ++ (left.drop i1 ++ right.drop j1)
          = List.merge (left.drop i) (right.drop j) (fun a b => decide (a ≤ b)) ∧
        ∀ t, (t < k ∨ k + (((i1 - i) + (j1 - j) : Nat) : Int) ≤ t) → arr1 t = arr t := by
  intro fuel
  induction fuel with
  | zero => intro i j k arr _ _ h; omega
  | succ fuel ih =>
    intro i j k arr hi hj hfuel hk0 hkn
    by_cases hcond : i < left.length ∧ j < right.length
    · have hkin : 0 ≤ k ∧ k < (n : Int) := ⟨hk0, by omega⟩
      rw [drop_eq_getD_cons hcond.1, drop_eq_getD_cons hcond.2, List.cons_merge_cons]
      by_cases hle : left.getD i 0 ≤ right.getD j 0
      · obtain ⟨i1, j1, arr1, hrun, h1, h2, h3, h4, hsl, hout⟩ :=
          ih (i + 1) j (k + 1) (Function.update arr k (left.getD i 0)) (by omega) hj
            (by omega) (by omega) (by omega)
        have hk : k + 1 + (((i1 - (i + 1)) + (j1 - j) : Nat) : Int)
            = k + (((i1 - i) + (j1 - j) : Nat) : Int) := by omega
        have hm : (i1 - i) + (j1 - j) = ((i1 - (i + 1)) + (j1 - j)) + 1 := by omega
        refine ⟨i1, j1, arr1, ?_, by omega, h2, h3, h4, ?_, ?_⟩
        · simp only [mergeWhile, hcond, and_self, if_true, hkin, hle]
          rw [hrun, hk]
        · have hak : arr1 k = left.getD i 0 := by
            rw [hout k (Or.inl (by omega)), Function.update_same]
          simp only [hle, decide_True, if_true]
          rw [hm, slice_cons, hak, List.cons_append, hsl, ← drop_eq_getD_cons hcond.2]
        · intro t ht
          rw [hout t (by omega), Function.update_noteq (by omega)]
      · obtain ⟨i1, j1, arr1, hrun, h1, h2, h3, h4, hsl, hout⟩ :=
          ih i (j + 1) (k + 1) (Function.update arr k (right.getD j 0)) hi (by omega)
            (by omega) (by omega) (by omega)
        have hk : k + 1 + (((i1 - i) + (j1 - (j + 1)) : Nat) : Int)
            = k + (((i1 - i) + (j1 - j) : Nat) : Int) := by omega
        have hm : (i1 - i) + (j1 - j) = ((i1 - i) + (j1 - (j + 1))) + 1 := by omega
        refine ⟨i1, j1, arr1, ?_, h1, h2, by omega, h4, ?_, ?_⟩
        · simp only [mergeWhile, hcond, and_self, if_true, hkin, hle, if_false]
          rw [hrun, hk]
        · have hak : arr1 k = right.getD j 0 := by
            rw [hout k (Or.inl (by omega)), Function.update_same]
          simp only [hle, decide_False, Bool.false_eq_true, if_false]
          rw [hm, slice_cons, hak, List.cons_append, hsl, ← drop_eq_getD_cons hcond.1]
        · intro t ht
          rw [hout t (by omega), Function.update_noteq (by omega)]
    · refine ⟨i, j, arr, ?_, le_refl _, hi, le_refl _, hj, ?_, fun _ _ => rfl⟩
      · simp only [mergeWhile, hcond, if_false]
        simp
      · simp only [Nat.sub_self, Nat.add_zero, slice_zero, List.nil_append]
        by_cases h1 : i < left.length
        · have h2 : right.length ≤ j := by
            by_contra hc
            exact hcond ⟨h1, by omega⟩
          rw [List.drop_eq_nil_of_le h2]
          simp
        · rw [List.drop_eq_nil_of_le (by omega)]
          simp

theorem copyRest_spec (n : Nat) (src : List Int) :
    ∀ (fuel p : Nat) (k : Int) (arr : Int → Int), p ≤ src.length →
      src.length - p < fuel → 0 ≤ k → k + ((src.length - p : Nat) : Int) ≤ n →
      ∃ arr1 : Int → Int,
        copyRest n src fuel p k arr = .ok (k + ((src.length - p : Nat) : Int), arr1) ∧
        slice arr1 k (src.length - p) = src.drop p ∧
        ∀ t, (t < k ∨ k + ((src.length - p : Nat) : Int) ≤ t) → arr1 t = arr t := by
  intro fuel
  induction fuel with
  | zero => intro p k arr _ h; omega
  | succ fuel ih =>
    intro p k arr hp hfuel hk0 hkn
    by_cases hcond : p < src.length
    · have hkin : 0 ≤ k ∧ k < (n : Int) := ⟨hk0, by omega⟩
      obtain ⟨arr1, hrun, hsl, hout⟩ :=
        ih (p + 1) (k + 1) (Function.update arr k (src.getD p 0)) (by omega) (by omega)
          (by omega) (by omega)
      have hk : k + 1 + ((src.length - (p + 1) : Nat) : Int)
          = k + ((src.length - p : Nat) : Int) := by omega
      have hm : src.length - p = (src.length - (p + 1)) + 1 := by omega
      refine ⟨arr1, ?_, ?_, ?_⟩
      · simp only [copyRest, hcond, if_true, hkin, and_self]
        rw [hrun, hk]
      · have hak : arr1 k = src.getD p 0 := by
          rw [hout k (Or.inl (by omega)), Function.update_same]
        rw [hm, slice_cons, hak, hsl, ← drop_eq_getD_cons hcond]
      · intro t ht
        rw [hout t (by omega), Function.update_noteq (by omega)]
    · refine ⟨arr, ?_, ?_, fun _ _ => rfl⟩
      · simp only [copyRest, hcond, if_false]
        have : src.length - p = 0 := by omega
        simp [this]
      · have : src.length - p = 0 := by omega
        rw [this, slice_zero, List.drop_eq_nil_of_le (by omega)]

/-- The function `merge` writes the merge of the two halves of `arr[lo..hi]`
over them and leaves the rest of the vector as it was. -/
theorem merge_spec (n : Nat) (arr : Int → Int) (lo mid hi : Int) (h0 : 0 ≤ lo)
    (h1 : lo ≤ mid) (h2 : mid < hi) (h3 : hi < (n : Int)) :
    ∃ arr3 : Int → Int, merge n arr lo mid hi = .ok arr3 ∧
      slice arr3 lo ((mid + 1 - lo).toNat + (hi - mid).toNat)
        = List.merge (slice arr lo (mid + 1 - lo).toNat) (slice arr (mid + 1) (hi - mid).toNat)
            (fun a b => decide (a ≤ b)) ∧
      ∀ t, (t < lo ∨ hi < t) → arr3 t = arr t := by
  have hguard : 0 ≤ lo ∧ lo ≤ mid + 1 ∧ mid + 1 ≤ hi + 1 ∧ hi + 1 ≤ (n : Int) :=
    ⟨h0, by omega, by omega, by omega⟩
  have hL := slice_length arr lo (mid + 1 - lo).toNat
  have hR := slice_length arr (mid + 1) (hi - mid).toNat
  obtain ⟨i1, j1, arr1, hrun1, _, hi1, _, hj1, hsl1, hout1⟩ :=
    mergeWhile_spec n (slice arr lo (mid + 1 - lo).toNat) (slice arr (mid + 1) (hi - mid).toNat)
      ((slice arr lo (mid + 1 - lo).toNat).length
        + (slice arr (mid + 1) (hi - mid).toNat).length + 1) 0 0 lo arr
      (Nat.zero_le _) (Nat.zero_le _) (by omega) h0 (by rw [hL, hR]; omega)
  simp only [Nat.sub_zero, List.drop_zero] at hrun1 hsl1 hout1
  rw [hL] at hi1
  rw [hR] at hj1
  obtain ⟨arr2, hrun2, hsl2, hout2⟩ :=
    copyRest_spec n (slice arr lo (mid + 1 - lo).toNat)
      ((slice arr lo (mid + 1 - lo).toNat).length + 1) i1
      (lo + ((i1 + j1 : Nat) : Int)) arr1 (by omega) (by omega) (by omega)
      (by rw [hL]; omega)
  obtain ⟨arr3, hrun3, hsl3, hout3⟩ :=
    copyRest_spec n (slice arr (mid + 1) (hi - mid).toNat)
      ((slice arr (mid + 1) (hi - mid).toNat).length + 1) j1
      (lo + ((i1 + j1 : Nat) : Int)
        + (((slice arr lo (mid + 1 - lo).toNat).length - i1 : Nat) : Int)) arr2
      (by omega) (by omega) (by omega) (by rw [hL, hR]; omega)
  refine ⟨arr3, ?_, ?_, ?_⟩
  · unfold merge
    simp only [hguard, and_self, if_true, hrun1, hrun2, hrun3]
  all_goals rw [hL] at hsl2 hout2 hsl3 hout3
  all_goals rw [hR] at hsl3 hout3
  · have hsplit : (mid + 1 - lo).toNat + (hi - mid).toNat
        = (i1 + j1) + (((mid + 1 - lo).toNat - i1) + ((hi - mid).toNat - j1)) := by omega
    rw [hsplit, slice_append arr3 lo (i1 + j1) _,
      slice_append arr3 (lo + ((i1 + j1 : Nat) : Int)) ((mid + 1 - lo).toNat - i1) _,
      ← hsl1, hsl3]
    have e1 : slice arr3 lo (i1 + j1) = slice arr1 lo (i1 + j1) := by
      apply slice_congr
      intro t ht1 ht2
      rw [hout3 t (Or.inl (by omega)), hout2 t (Or.inl (by omega))]
    have e2 : slice arr3 (lo + ((i1 + j1 : Nat) : Int)) ((mid + 1 - lo).toNat - i1)
        = slice arr2 (lo + ((i1 + j1 : Nat) : Int)) ((mid + 1 - lo).toNat - i1) := by
      apply slice_congr
      intro t ht1 ht2
      rw [hout3 t (Or.inl (by omega))]
    rw [e1, e2, hsl2]
  · intro t ht
    rw [hout3 t (by omega), hout2 t (by omega), hout1 t (by omega)]

/-! ## The recursion of merge sort -/

theorem sorted_of_length_le_one {l : List Int} (h : l.length ≤ 1) : l.Sorted (· ≤ ·) := by
  cases l with
  | nil => exact List.sorted_nil
  | cons x xs =>
    cases xs with
    | nil => exact List.sorted_singleton x
    | cons y ys => simp at h

/-- The call `doMergeSort(arr, lo, hi)` on a range inside the vector returns,
leaves `arr[lo..hi]` sorted and a permutation of what it was, and does not
touch the rest of the vector. -/
theorem doMergeSort_spec (n : Nat) :
    ∀ (fuel : Nat) (arr : Int → Int) (lo hi : Int), 0 ≤ lo → hi < (n : Int) →
      hi - lo < (fuel : Int) → 0 < fuel →
      ∃ arr1 : Int → Int, doMergeSort n fuel arr lo hi = .ok arr1 ∧
        (slice arr1 lo (hi + 1 - lo).toNat).Sorted (· ≤ ·) ∧
        (slice arr1 lo (hi + 1 - lo).toNat).Perm (slice arr lo (hi + 1 - lo).toNat) ∧
        ∀ t, (t < lo ∨ hi < t) → arr1 t = arr t := by
  intro fuel
  induction fuel with
  | zero => intro arr lo hi _ _ _ h; omega
  | succ fuel ih =>
    intro arr lo hi h0 h1 hf _
    by_cases hge : lo ≥ hi
    · refine ⟨arr, ?_, ?_, List.Perm.refl _, fun _ _ => rfl⟩
      · simp only [doMergeSort, hge, if_true]
      · apply sorted_of_length_le_one
        rw [slice_length]
        omega
    · have htd : Int.tdiv (hi - lo) 2 = (hi - lo) / 2 :=
        Int.tdiv_eq_ediv (by omega) (by omega)
      obtain ⟨arr1, hrun1, hs1, hp1, hout1⟩ :=
        ih arr lo (lo + (hi - lo) / 2) h0 (by omega) (by push_cast at hf; omega)
          (by push_cast at hf; omega)
      obtain ⟨arr2, hrun2, hs2, hp2, hout2⟩ :=
        ih arr1 (lo + (hi - lo) / 2 + 1) hi (by omega) h1 (by push_cast at hf; omega)
          (by push_cast at hf; omega)
      obtain ⟨arr3, hrun3, hsl3, hout3⟩ :=
        merge_spec n arr2 lo (lo + (hi - lo) / 2) hi h0 (by omega) (by omega) h1
      have e1 : hi + 1 - (lo + (hi - lo) / 2 + 1) = hi - (lo + (hi - lo) / 2) := by ring
      rw [e1] at hs2 hp2
      have elen : (hi + 1 - lo).toNat
          = (lo + (hi - lo) / 2 + 1 - lo).toNat + (hi - (lo + (hi - lo) / 2)).toNat := by
        omega
      have eA : slice arr2 lo (lo + (hi - lo) / 2 + 1 - lo).toNat
          = slice arr1 lo (lo + (hi - lo) / 2 + 1 - lo).toNat := by
        apply slice_congr
        intro t ht1 ht2
        exact hout2 t (Or.inl (by omega))
      have eB : slice arr1 (lo + (hi - lo) / 2 + 1) (hi - (lo + (hi - lo) / 2)).toNat
          = slice arr (lo + (hi - lo) / 2 + 1) (hi - (lo + (hi - lo) / 2)).toNat := by
        apply slice_congr
        intro t ht1 ht2
        exact hout1 t (Or.inr (by omega))
      refine ⟨arr3, ?_, ?_, ?_, ?_⟩
      · simp only [doMergeSort, hge, if_false, htd, hrun1, hrun2, hrun3]
      · rw [elen, hsl3, eA]
        exact hs1.merge hs2
      · rw [elen, hsl3, eA]
        refine (List.merge_perm_append _).trans ?_
        rw [slice_append]
        refine List.Perm.append hp1 ?_
        rw [eB] at hp2
        have e2 : lo + ((lo + (hi - lo) / 2 + 1 - lo).toNat : Int) = lo + (hi - lo) / 2 + 1 := by
          omega
        rw [e2]
        exact hp2
      · intro t ht
        rw [hout3 t ht, hout2 t (by omega), hout1 t (by omega)]

/-- Runs of `mergeSort`: the empty vector, one element, and repeated values. -/
theorem mergeSort_examples :
    mergeSort [] = .ok [] ∧ mergeSort [5] = .ok [5] ∧
    mergeSort [3, -1, 2, 3, 0, 7, 3] = .ok [-1, 0, 2, 3, 3, 3, 7] := by
  decide

/-! ## Swaps and the two scans of `partition` -/

theorem swapAt_left (arr : Int → Int) (a b : Int) : swapAt arr a b a = arr b := by
  unfold swapAt
  by_cases h : a = b
  · rw [h, Function.update_same]
  · rw [Function.update_noteq h, Function.update_same]

theorem swapAt_right (arr : Int → Int) (a b : Int) : swapAt arr a b b = arr a := by
  unfold swapAt
  rw [Function.update_same]

theorem swapAt_of_ne (arr : Int → Int) {a b t : Int} (ha : t ≠ a) (hb : t ≠ b) :
    swapAt arr a b t = arr t := by
  unfold swapAt
  rw [Function.update_noteq hb, Function.update_noteq ha]

theorem swapAt_eq_comp (arr : Int → Int) (a b : Int) :
    swapAt arr a b = arr ∘ (Equiv.swap a b) := by
  funext t
  simp only [Function.comp_apply]
  by_cases ha : t = a
  · rw [ha, swapAt_left, Equiv.swap_apply_left]
  · by_cases hb : t = b
    · rw [hb, swapAt_right, Equiv.swap_apply_right]
    · rw [swapAt_of_ne arr ha hb, Equiv.swap_apply_of_ne_of_ne ha hb]

/-- A swap of two entries of `arr[lo .. lo + len - 1]` permutes that slice. -/
theorem slice_swapAt_perm (arr : Int → Int) {lo a b : Int} {len : Nat}
    (ha : lo ≤ a ∧ a < lo + len) (hb : lo ≤ b ∧ b < lo + len) :
    (slice (swapAt arr a b) lo len).Perm (slice arr lo len) := by
  have hidx : ∀ f : Int → Int,
      slice f lo len = ((List.range len).map fun (t : Nat) => lo + (t : Int)).map f := by
    intro f
    simp [slice, List.map_map, Function.comp_def]
  have hmem : ∀ x : Int,
      x ∈ ((List.range len).map fun (t : Nat) => lo + (t : Int)) ↔ lo ≤ x ∧ x < lo + len := by
    intro x
    rw [List.mem_map]
    constructor
    · rintro ⟨t, ht, rfl⟩
      have := List.mem_range.1 ht
      omega
    · rintro ⟨h1, h2⟩
      exact ⟨(x - lo).toNat, List.mem_range.2 (by omega), by omega⟩
  have hnd : ((List.range len).map fun (t : Nat) => lo + (t : Int)).Nodup := by
    apply List.Nodup.map _ (List.nodup_range len)
    intro x y hxy
    simp only at hxy
    omega
  rw [hidx, hidx, swapAt_eq_comp, ← List.map_map]
  apply List.Perm.map
  rw [List.perm_ext_iff_of_nodup (hnd.map (Equiv.swap a b).injective) hnd]
  intro x
  rw [hmem, List.mem_map]
  constructor
  · rintro ⟨y, hy, rfl⟩
    rw [hmem] at hy
    by_cases h1 : y = a
    · rw [h1, Equiv.swap_apply_left]; exact hb
    · by_cases h2 : y = b
      · rw [h2, Equiv.swap_apply_right]; exact ha
      · rw [Equiv.swap_apply_of_ne_of_ne h1 h2]; exact hy
  · intro hx
    refine ⟨Equiv.swap a b x, ?_, Equiv.swap_apply_self a b x⟩
    rw [hmem]
    by_cases h1 : x = a
    · rw [h1, Equiv.swap_apply_left]; exact hb
    · by_cases h2 : x = b
      · rw [h2, Equiv.swap_apply_right]; exact ha
      · rw [Equiv.swap_apply_of_ne_of_ne h1 h2]; exact hx

theorem scanUp_spec (n : Nat) (arr : Int → Int) (hi v : Int) (hhi : hi < (n : Int)) :
    ∀ (fuel : Nat) (i : Int) (used : List Int), 0 ≤ i → i ≤ hi → hi - i < (fuel : Int) →
      ∃ (i1 : Int) (used1 : List Int), scanUp n arr hi v fuel i used = .ok (i1, used1) ∧
        i < i1 ∧ i1 ≤ hi + 1 ∧ (∀ t, i < t → t < i1 → arr t < v) ∧
        (i1 ≤ hi → v ≤ arr i1) ∧ ∀ x ∈ used1, x ∈ used ∨ (i < x ∧ x ≤ hi) := by
  intro fuel
  induction fuel with
  | zero => intro i used _ h1 h2; simp only [Nat.cast_zero] at h2; omega
  | succ fuel ih =>
    intro i used h0 h1 hf
    by_cases hle : i + 1 ≤ hi
    · have hin : 0 ≤ i + 1 ∧ i + 1 < (n : Int) := ⟨by omega, by omega⟩
      by_cases hlt : arr (i + 1) < v
      · obtain ⟨i1, used1, hrun, h2, h3, h4, h5, h6⟩ :=
          ih (i + 1) ((i + 1) :: used) (by omega) hle (by push_cast at hf; omega)
        refine ⟨i1, used1, ?_, by omega, h3, ?_, h5, ?_⟩
        · simp only [scanUp, hle, if_true, hin, and_self, hlt]
          exact hrun
        · intro t ht1 ht2
          by_cases ht : t = i + 1
          · rw [ht]; exact hlt
          · exact h4 t (by omega) ht2
        · intro x hx
          rcases h6 x hx with h | h
          · rcases List.mem_cons.1 h with h | h
            · exact Or.inr ⟨by omega, by omega⟩
            · exact Or.inl h
          · exact Or.inr ⟨by omega, h.2⟩
      · refine ⟨i + 1, (i + 1) :: used, ?_, by omega, by omega, ?_, fun _ => by omega, ?_⟩
        · simp only [scanUp, hle, if_true, hin, and_self, hlt, if_false]
        · intro t ht1 ht2; omega
        · intro x hx
          rcases List.mem_cons.1 hx with h | h
          · exact Or.inr ⟨by omega, by omega⟩
          · exact Or.inl h
    · refine ⟨i + 1, used, ?_, by omega, by omega, ?_, fun h => by omega, fun x hx => Or.inl hx⟩
      · simp only [scanUp, hle, if_false]
      · intro t ht1 ht2; omega

theorem scanDown_spec (n : Nat) (arr : Int → Int) (lo v : Int) (hlo : 0 ≤ lo)
    (hstop : arr lo ≤ v) :
    ∀ (fuel : Nat) (j : Int) (used : List Int), lo < j → j ≤ (n : Int) →
      j - lo < (fuel : Int) + 1 →
      ∃ (j1 : Int) (used1 : List Int), scanDown n arr lo v fuel j used = .ok (j1, used1) ∧
        lo ≤ j1 ∧ j1 < j ∧ (∀ t, j1 < t → t < j → v < arr t) ∧
        arr j1 ≤ v ∧ ∀ x ∈ used1, x ∈ used ∨ (lo ≤ x ∧ x < j) := by
  intro fuel
  induction fuel with
  | zero => intro j used h1 _ h2; simp only [Nat.cast_zero] at h2; omega
  | succ fuel ih =>
    intro j used h1 hn hf
    have hge : j - 1 ≥ lo := by omega
    have hin : 0 ≤ j - 1 ∧ j - 1 < (n : Int) := ⟨by omega, by omega⟩
    by_cases hgt : arr (j - 1) > v
    · have hne : lo < j - 1 := by
        by_contra hc
        have : j - 1 = lo := by omega
        rw [this] at hgt
        omega
      obtain ⟨j1, used1, hrun, h2, h3, h4, h5, h6⟩ :=
        ih (j - 1) ((j - 1) :: used) hne (by omega) (by push_cast at hf; omega)
      refine ⟨j1, used1, ?_, h2, by omega, ?_, h5, ?_⟩
      · simp only [scanDown, hge, if_true, hin, and_self, hgt]
        exact hrun
      · intro t ht1 ht2
        by_cases ht : t = j - 1
        · rw [ht]; exact hgt
        · exact h4 t ht1 (by omega)
      · intro x hx
        rcases h6 x hx with h | h
        · rcases List.mem_cons.1 h with h | h
          · exact Or.inr ⟨by omega, by omega⟩
          · exact Or.inl h
        · exact Or.inr ⟨h.1, by omega⟩
    · refine ⟨j - 1, (j - 1) :: used, ?_, by omega, by omega, ?_, by omega, ?_⟩
      · simp only [scanDown, hge, if_true, hin, and_self, hgt, if_false]
      · intro t ht1 ht2; omega
      · intro x hx
        rcases List.mem_cons.1 hx with h | h
        · exact Or.inr ⟨by omega, by omega⟩
        · exact Or.inl h

/-! ## The partition step -/

theorem partitionLoop_spec (n : Nat) (lo hi v : Int) (hlo : 0 ≤ lo) (hhi : hi < (n : Int))
    (arr0 : Int → Int) :
    ∀ (fuel : Nat) (i j : Int) (arr : Int → Int) (used : List Int),
      lo ≤ i → i < j → j ≤ hi + 1 → j - i < 2 * (fuel : Int) → arr lo = v →
      (∀ t, lo < t → t ≤ i → arr t ≤ v) → (∀ t, j ≤ t → t ≤ hi → v ≤ arr t) →
      (slice arr lo (hi + 1 - lo).toNat).Perm (slice arr0 lo (hi + 1 - lo).toNat) →
      (∀ t, (t < lo ∨ hi < t) → arr t = arr0 t) →
      ∃ r : PartitionResult, partitionLoop n lo hi v fuel i j arr used = .ok r ∧
        lo ≤ r.pivot ∧ r.pivot ≤ hi ∧ r.arr lo = v ∧ r.arr r.pivot ≤ v ∧
        (∀ t, lo < t → t < r.pivot → r.arr t ≤ v) ∧
        (∀ t, r.pivot < t → t ≤ hi → v ≤ r.arr t) ∧
        (slice r.arr lo (hi + 1 - lo).toNat).Perm (slice arr0 lo (hi + 1 - lo).toNat) ∧
        (∀ t, (t < lo ∨ hi < t) → r.arr t = arr0 t) ∧
        ∀ x ∈ r.used, x ∈ used ∨ (lo ≤ x ∧ x ≤ hi) := by
  intro fuel
  induction fuel with
  | zero => intro i j arr used _ h1 _ h2; simp only [Nat.cast_zero] at h2; omega
  | succ fuel ih =>
    intro i j arr used hi0 hij hj hf hv hleft hright hperm hout
    obtain ⟨i1, used1, hrun1, hi1, hi2, hi3, hi4, hu1⟩ :=
      scanUp_spec n arr hi v hhi ((hi - lo).toNat + 2) i used (by omega) (by omega)
        (by push_cast; omega)
    obtain ⟨j1, used2, hrun2, hj1, hj2, hj3, hj4, hu2⟩ :=
      scanDown_spec n arr lo v hlo (le_of_eq hv) ((hi - lo).toNat + 2) j used1 (by omega)
        (by omega) (by push_cast; omega)
    have hused2 : ∀ x ∈ used2, x ∈ used ∨ (lo ≤ x ∧ x ≤ hi) := by
      intro x hx
      rcases hu2 x hx with h | h
      · rcases hu1 x h with h | h
        · exact Or.inl h
        · exact Or.inr ⟨by omega, h.2⟩
      · exact Or.inr ⟨h.1, by omega⟩
    have hbelow : ∀ t, lo < t → t < i1 → arr t ≤ v := by
      intro t ht1 ht2
      by_cases ht : t ≤ i
      · exact hleft t ht1 ht
      · exact le_of_lt (hi3 t (by omega) ht2)
    have habove : ∀ t, j1 < t → t ≤ hi → v ≤ arr t := by
      intro t ht1 ht2
      by_cases ht : j ≤ t
      · exact hright t ht ht2
      · exact le_of_lt (hj3 t ht1 (by omega))
    by_cases hcross : i1 ≥ j1
    · have hj1hi : j1 ≤ hi := by omega
      refine ⟨⟨j1, arr, used2⟩, ?_, hj1, hj1hi, hv, hj4, ?_, habove, hperm, hout, hused2⟩
      · simp only [partitionLoop, hrun1, hrun2, hcross, if_true]
      · intro t ht1 ht2
        simp only at ht2
        exact hbelow t ht1 (by omega)
    · have hin : (0 ≤ i1 ∧ i1 < (n : Int)) ∧ (0 ≤ j1 ∧ j1 < (n : Int)) :=
        ⟨⟨by omega, by omega⟩, ⟨by omega, by omega⟩⟩
      have hvi : v ≤ arr i1 := hi4 (by omega)
      obtain ⟨r, hrun, h1, h2, h3, h4, h5, h6, h7, h8, h9⟩ :=
        ih i1 j1 (swapAt arr i1 j1) (j1 :: i1 :: used2) (by omega) (by omega) (by omega)
          (by push_cast at hf; omega)
          (by rw [swapAt_of_ne arr (by omega) (by omega)]; exact hv)
          (by
            intro t ht1 ht2
            by_cases ht : t = i1
            · rw [ht, swapAt_left]; exact hj4
            · rw [swapAt_of_ne arr ht (by omega)]
              exact hbelow t ht1 (by omega))
          (by
            intro t ht1 ht2
            by_cases ht : t = j1
            · rw [ht, swapAt_right]; exact hvi
            · rw [swapAt_of_ne arr (by omega) ht]
              exact habove t (by omega) ht2)
          ((slice_swapAt_perm arr ⟨by omega, by omega⟩ ⟨by omega, by omega⟩).trans hperm)
          (by
            intro t ht
            rw [swapAt_of_ne arr (by omega) (by omega)]
            exact hout t ht)
      refine ⟨r, ?_, h1, h2, h3, h4, h5, h6, h7, h8, ?_⟩
      · simp only [partitionLoop, hrun1, hrun2, hcross, if_false, hin, and_self, if_true]
        exact hrun
      · intro x hx
        rcases h9 x hx with h | h
        · rcases List.mem_cons.1 h with h | h
          · exact Or.inr ⟨by omega, by omega⟩
          · rcases List.mem_cons.1 h with h | h
            · exact Or.inr ⟨by omega, by omega⟩
            · exact hused2 x h
        · exact Or.inr h

/-- The call `partition(arr, lo, hi)` on a range of at least two entries inside
the vector returns a position `p` in `[lo, hi]` and leaves the entries of
`arr[lo..p-1]` at most `arr[p]`, those of `arr[p+1..hi]` at least `arr[p]`, the
range a permutation of what it was and the rest of the vector untouched; every
index at which it accesses the vector lies in `[lo, hi]`. -/
theorem partition_spec (n : Nat) (arr : Int → Int) (lo hi : Int) (hlo : 0 ≤ lo)
    (hlt : lo < hi) (hhi : hi < (n : Int)) :
    ∃ r : PartitionResult, partition n arr lo hi = .ok r ∧
      lo ≤ r.pivot ∧ r.pivot ≤ hi ∧
      (∀ t, lo ≤ t → t < r.pivot → r.arr t ≤ r.arr r.pivot) ∧
      (∀ t, r.pivot < t → t ≤ hi → r.arr r.pivot ≤ r.arr t) ∧
      (slice r.arr lo (hi + 1 - lo).toNat).Perm (slice arr lo (hi + 1 - lo).toNat) ∧
      (∀ t, (t < lo ∨ hi < t) → r.arr t = arr t) ∧
      ∀ x ∈ r.used, lo ≤ x ∧ x ≤ hi := by
  have hguard : 0 ≤ lo ∧ lo < (n : Int) := ⟨hlo, by omega⟩
  obtain ⟨r, hrun, h1, h2, h3, h4, h5, h6, h7, h8, h9⟩ :=
    partitionLoop_spec n lo hi (arr lo) hlo hhi arr ((hi - lo).toNat + 2) lo (hi + 1) arr [lo]
      (le_refl _) (by omega) (le_refl _) (by push_cast; omega) rfl
      (by intro t ht1 ht2; omega) (by intro t ht1 ht2; omega) (List.Perm.refl _)
      (fun _ _ => rfl)
  have hpin : 0 ≤ r.pivot ∧ r.pivot < (n : Int) := ⟨by omega, by omega⟩
  refine ⟨⟨r.pivot, swapAt r.arr lo r.pivot, r.pivot :: lo :: r.used⟩, ?_, h1, h2, ?_, ?_,
    ?_, ?_, ?_⟩
  · simp only [partition, hguard, and_self, if_true, hrun, hpin]
  · intro t ht1 ht2
    simp only at ht2 ⊢
    rw [swapAt_right, h3]
    by_cases ht : t = lo
    · rw [ht, swapAt_left]; exact h4
    · rw [swapAt_of_ne r.arr ht (by omega)]
      exact h5 t (by omega) ht2
  · intro t ht1 ht2
    simp only at ht1 ⊢
    rw [swapAt_right, h3, swapAt_of_ne r.arr (by omega) (by omega)]
    exact h6 t ht1 ht2
  · exact (slice_swapAt_perm r.arr ⟨by omega, by omega⟩ ⟨by omega, by omega⟩).trans h7
  · intro t ht
    simp only
    rw [swapAt_of_ne r.arr (by omega) (by omega)]
    exact h8 t ht
  · intro x hx
    simp only at hx
    rcases List.mem_cons.1 hx with h | h
    · rw [h]; exact ⟨h1, h2⟩
    · rcases List.mem_cons.1 h with h | h
      · rw [h]; exact ⟨le_refl _, le_of_lt hlt⟩
      · rcases h9 x h with h | h
        · rw [List.mem_singleton.1 h]; exact ⟨le_refl _, le_of_lt hlt⟩
        · exact h

/-! ## The recursion of quick sort -/

theorem slice_one (arr : Int → Int) (lo : Int) : slice arr lo 1 = [arr lo] := by
  simp [slice, List.range_succ]

/-- The call `doQuickSort(arr, lo, hi)` on a range inside the vector returns,
leaves `arr[lo..hi]` sorted and a permutation of what it was, and does not
touch the rest of the vector; every call of `partition` it makes is on a range
inside `[lo, hi]` and accesses the vector inside that range only. -/
theorem doQuickSort_spec (n : Nat) :
    ∀ (fuel : Nat) (arr : Int → Int) (lo hi : Int), 0 ≤ lo → hi < (n : Int) →
      hi - lo < (fuel : Int) → 0 < fuel →
      ∃ (arr1 : Int → Int) (calls : List PartitionCall),
        doQuickSort n fuel arr lo hi = .ok (arr1, calls) ∧
        (slice arr1 lo (hi + 1 - lo).toNat).Sorted (· ≤ ·) ∧
        (slice arr1 lo (hi + 1 - lo).toNat).Perm (slice arr lo (hi + 1 - lo).toNat) ∧
        (∀ t, (t < lo ∨ hi < t) → arr1 t = arr t) ∧
        ∀ c ∈ calls, (lo ≤ c.lo ∧ c.lo < c.hi ∧ c.hi ≤ hi) ∧
          ∀ x ∈ c.used, c.lo ≤ x ∧ x ≤ c.hi := by
  intro fuel
  induction fuel with
  | zero => intro arr lo hi _ _ _ h; omega
  | succ fuel ih =>
    intro arr lo hi h0 h1 hf _
    by_cases hle : hi ≤ lo
    · refine ⟨arr, [], ?_, ?_, List.Perm.refl _, fun _ _ => rfl, ?_⟩
      · simp only [doQuickSort, hle, if_true]
      · apply sorted_of_length_le_one
        rw [slice_length]
        omega
      · intro c hc; simp at hc
    · obtain ⟨r, hrun, hp1, hp2, hbelow, habove, hperm, hout, hused⟩ :=
        partition_spec n arr lo hi h0 (by omega) h1
      obtain ⟨arr1, calls1, hrun1, hs1, hq1, hout1, hc1⟩ :=
        ih r.arr lo (r.pivot - 1) h0 (by omega) (by push_cast at hf; omega)
          (by push_cast at hf; omega)
      obtain ⟨arr2, calls2, hrun2, hs2, hq2, hout2, hc2⟩ :=
        ih arr1 (r.pivot + 1) hi (by omega) h1 (by push_cast at hf; omega)
          (by push_cast at hf; omega)
      have ea : (r.pivot - 1 + 1 - lo).toNat = (r.pivot - lo).toNat := by
        congr 1; ring
      have eb : (hi + 1 - (r.pivot + 1)).toNat = (hi - r.pivot).toNat := by
        congr 1; ring
      rw [ea] at hs1 hq1
      rw [eb] at hs2 hq2
      have elen : (hi + 1 - lo).toNat = (r.pivot - lo).toNat + (1 + (hi - r.pivot).toNat) := by
        omega
      have ep : lo + (((r.pivot - lo).toNat : Nat) : Int) = r.pivot := by omega
      have hsplit : ∀ f : Int → Int, slice f lo (hi + 1 - lo).toNat
          = slice f lo (r.pivot - lo).toNat
            ++ ([f r.pivot] ++ slice f (r.pivot + 1) (hi - r.pivot).toNat) := by
        intro f
        rw [elen, slice_append, slice_append, ep, slice_one]
        push_cast
        rfl
      have eA : slice arr2 lo (r.pivot - lo).toNat = slice arr1 lo (r.pivot - lo).toNat := by
        apply slice_congr
        intro t ht1 ht2
        exact hout2 t (Or.inl (by omega))
      have eP : arr2 r.pivot = r.arr r.pivot := by
        rw [hout2 r.pivot (Or.inl (by omega)), hout1 r.pivot (Or.inr (by omega))]
      have eB : slice arr1 (r.pivot + 1) (hi - r.pivot).toNat
          = slice r.arr (r.pivot + 1) (hi - r.pivot).toNat := by
        apply slice_congr
        intro t ht1 ht2
        exact hout1 t (Or.inr (by omega))
      rw [eB] at hq2
      have hA : ∀ x ∈ slice arr1 lo (r.pivot - lo).toNat, x ≤ r.arr r.pivot := by
        intro x hx
        obtain ⟨t, ht1, ht2, rfl⟩ := mem_slice.1 (hq1.mem_iff.1 hx)
        exact hbelow t ht1 (by omega)
      have hB : ∀ x ∈ slice arr2 (r.pivot + 1) (hi - r.pivot).toNat, r.arr r.pivot ≤ x := by
        intro x hx
        obtain ⟨t, ht1, ht2, rfl⟩ := mem_slice.1 (hq2.mem_iff.1 hx)
        exact habove t (by omega) (by omega)
      refine ⟨arr2, ⟨lo, hi, r.used⟩ :: calls1 ++ calls2, ?_, ?_, ?_, ?_, ?_⟩
      · simp only [doQuickSort, hle, if_false, hrun, hrun1, hrun2]
      · rw [hsplit arr2, eA, eP]
        unfold List.Sorted
        rw [List.pairwise_append]
        refine ⟨hs1, ?_, ?_⟩
        · rw [List.singleton_append, List.pairwise_cons]
          exact ⟨hB, hs2⟩
        · intro x hx y hy
          rcases List.mem_append.1 hy with h | h
          · rw [List.mem_singleton.1 h]; exact hA x hx
          · exact le_trans (hA x hx) (hB y h)
      · rw [hsplit arr2, eA, eP]
        refine List.Perm.trans ?_ hperm
        rw [hsplit r.arr]
        exact hq1.append ((List.Perm.refl _).append hq2)
      · intro t ht
        rw [hout2 t (by omega), hout1 t (by omega), hout t ht]
      · intro c hc
        rcases List.mem_cons.1 hc with h | h
        · rw [h]
          have hlt : lo < hi := by omega
          exact ⟨⟨le_refl _, hlt, le_refl _⟩, hused⟩
        · rcases List.mem_append.1 h with h | h
          · obtain ⟨⟨ha, hb, hd⟩, he⟩ := hc1 c h
            exact ⟨⟨ha, hb, by omega⟩, he⟩
          · obtain ⟨⟨ha, hb, hd⟩, he⟩ := hc2 c h
            exact ⟨⟨by omega, hb, hd⟩, he⟩

/-- Runs of `quickSort`: the empty vector, one element, a sorted vector, equal
values, and repeated values; the calls of `partition` on `[3, 1, 2]`. -/
theorem quickSort_examples :
    quickSort [] = .ok [] ∧ quickSort [5] = .ok [5] ∧
    quickSort [1, 2, 3, 4] = .ok [1, 2, 3, 4] ∧ quickSort [2, 2, 2] = .ok [2, 2, 2] ∧
    quickSort [3, -1, 2, 3, 0, 7, 3] = .ok [-1, 0, 2, 3, 3, 3, 7] ∧
    quickSortTrace [3, 1, 2]
      = .ok ([1, 2, 3], [⟨0, 2, [2, 0, 2, 2, 1, 0]⟩, ⟨0, 1, [1, 0, 1, 1, 0]⟩]) := by
  decide

end Sorting

namespace CoinChange
open ShortestPath

/-! ## Sums of positive coins -/

theorem le_sum_of_mem {coins : List Int} (hpos : ∀ c ∈ coins, 0 < c) :
    ∀ c ∈ coins, c ≤ coins.sum := by
  induction coins with
  | nil => intro c hc; simp at hc
  | cons x xs ih =>
    intro c hc
    have hx := hpos x (List.mem_cons_self _ _)
    have hxs : ∀ c ∈ xs, 0 < c := fun c hc => hpos c (List.mem_cons_of_mem _ hc)
    have hsum : 0 ≤ xs.sum := List.sum_nonneg (fun c hc => le_of_lt (hxs c hc))
    rw [List.sum_cons]
    rcases List.mem_cons.1 hc with rfl | hc
    · omega
    · have := ih hxs c hc
      omega

theorem length_le_sum {coins : List Int} (hpos : ∀ c ∈ coins, 0 < c) :
    (coins.length : Int) ≤ coins.sum := by
  induction coins with
  | nil => simp
  | cons x xs ih =>
    have hx := hpos x (List.mem_cons_self _ _)
    have := ih (fun c hc => hpos c (List.mem_cons_of_mem _ hc))
    rw [List.sum_cons, List.length_cons]
    push_cast
    omega

theorem sum_erase {coins : List Int} {d : Int} (h : d ∈ coins) :
    (coins.erase d).sum = coins.sum - d := by
  have := (List.perm_cons_erase h).sum_eq
  rw [List.sum_cons] at this
  omega

theorem mem_take_succ {denom : List Int} {i : Nat} (hi : i < denom.length) {c : Int} :
    c ∈ denom.take (i + 1) ↔ c ∈ denom.take i ∨ c = denom.getD i 0 := by
  rw [List.take_succ, List.mem_append, List.getElem?_eq_getElem hi,
    List.getD_eq_getElem _ _ hi]
  simp

/-! ## The table of `dpChange` -/

/-- A list of coins summing to `j` and drawn from the denominations of index
at most `i` either holds the denomination of index `i`, and the rest sums to
an amount below `j`, or is drawn from the denominations of index below `i`. -/
theorem count_le_at {qty : Int} {denom : List Int} (hpos : ∀ d ∈ denom, 0 < d) {i : Nat}
    (hi : i < denom.length) {j : Int} (hj0 : 0 ≤ j) (hj : j ≤ qty)
    {m : Int → Int × Int} (hinv : DPInv qty denom i j m) (coins : List Int)
    (hmem : ∀ c ∈ coins, c ∈ denom.take (i + 1)) (hsum : coins.sum = j) :
    (denom.getD i 0 ≤ j ∧ (m (j - denom.getD i 0)).1 + 1 ≤ (coins.length : Int)) ∨
      (m j).1 ≤ (coins.length : Int) := by
  have hdpos : 0 < denom.getD i 0 := by
    rw [List.getD_eq_getElem _ _ hi]
    exact hpos _ (List.getElem_mem _)
  have hcpos : ∀ c ∈ coins, 0 < c := fun c hc => hpos c (List.mem_of_mem_take (hmem c hc))
  by_cases hd : denom.getD i 0 ∈ coins
  · left
    have hle := le_sum_of_mem hcpos _ hd
    rw [hsum] at hle
    refine ⟨hle, ?_⟩
    have hlt : j - denom.getD i 0 < j := by omega
    have := hinv.opt (j - denom.getD i 0) (by omega) (by omega) (coins.erase (denom.getD i 0))
      (by
        intro c hc
        simp only [hlt, if_true]
        exact hmem c (List.mem_of_mem_erase hc))
      (by rw [sum_erase hd, hsum])
    rw [List.length_erase_of_mem hd] at this
    have hlen : 0 < coins.length := List.length_pos_of_mem hd
    omega
  · right
    apply hinv.opt j hj0 hj coins _ hsum
    intro c hc
    simp only [lt_irrefl, if_false]
    rcases (mem_take_succ hi).1 (hmem c hc) with h | h
    · exact h
    · rw [h] at hc
      exact absurd hc hd

theorem relaxAmount_spec {qty : Int} {denom : List Int} (hq : qty + 2 ≤ INT_MAX)
    (hpos : ∀ d ∈ denom, 0 < d) {i : Nat} (hi : i < denom.length) {j : Int}
    (hj0 : 0 ≤ j) (hj : j ≤ qty) {m : Int → Int × Int} (hinv : DPInv qty denom i j m) :
    ∃ m1 : Int → Int × Int,
      relaxAmount (qty + 1) (denom.getD i 0) i j m = .ok m1 ∧
      DPInv qty denom i (j + 1) m1 := by
  have hIM : INT_MAX = 2147483647 := rfl
  have hdpos : 0 < denom.getD i 0 := by
    rw [List.getD_eq_getElem _ _ hi]
    exact hpos _ (List.getElem_mem _)
  have hkeep : ∀ a, a ≠ j → ∀ coins : List Int,
      (∀ c ∈ coins, c ∈ denom.take (if a < j + 1 then i + 1 else i)) →
      ∀ c ∈ coins, c ∈ denom.take (if a < j then i + 1 else i) := by
    intro a ha coins h c hc
    have := h c hc
    by_cases h1 : a < j
    · have h2 : a < j + 1 := by omega
      simpa [h1, h2] using this
    · have h2 : ¬ a < j + 1 := by omega
      simpa [h1, h2] using this
  have hatj : ∀ coins : List Int,
      (∀ c ∈ coins, c ∈ denom.take (if j < j + 1 then i + 1 else i)) →
      ∀ c ∈ coins, c ∈ denom.take (i + 1) := by
    intro coins h c hc
    have := h c hc
    simpa using this
  -- the table is left as it is
  have hsame : (denom.getD i 0 ≤ j → (m j).1 ≤ (m (j - denom.getD i 0)).1 + 1) →
      DPInv qty denom i (j + 1) m := by
    intro hno
    refine ⟨hinv.zero, hinv.bound, hinv.tag, ?_⟩
    intro a ha0 ha coins hmem hsum
    by_cases haj : a = j
    · subst haj
      rcases count_le_at hpos hi hj0 hj hinv coins (hatj coins hmem) hsum with ⟨h1, h2⟩ | h
      · have := hno h1
        omega
      · exact h
    · exact hinv.opt a ha0 ha coins (hkeep a haj coins hmem) hsum
  by_cases hdj : denom.getD i 0 ≤ j
  · have hk : wrapInt (j - denom.getD i 0) = j - denom.getD i 0 :=
      wrapInt_eq_self (by omega) (by omega)
    have hkb := hinv.bound (j - denom.getD i 0) (by omega) (by omega)
    have hc : wrapInt ((m (j - denom.getD i 0)).1 + 1) = (m (j - denom.getD i 0)).1 + 1 :=
      wrapInt_eq_self (by omega) (by omega)
    have hin : (0 ≤ j - denom.getD i 0 ∧ j - denom.getD i 0 < qty + 1) ∧
        (0 ≤ j ∧ j < qty + 1) := ⟨⟨by omega, by omega⟩, ⟨hj0, by omega⟩⟩
    by_cases hlt : (m (j - denom.getD i 0)).1 + 1 < (m j).1
    · refine ⟨Function.update m j ((m (j - denom.getD i 0)).1 + 1, (i : Int)), ?_, ?_⟩
      · simp only [relaxAmount, hdj, if_true, hk, hin, and_self, hc, hlt]
      · have hjb := hinv.bound j hj0 hj
        have hne : j - denom.getD i 0 ≠ j := by omega
        have hmono : ∀ a, (Function.update m j
            ((m (j - denom.getD i 0)).1 + 1, (i : Int)) a).1 ≤ (m a).1 := by
          intro a
          by_cases haj : a = j
          · rw [haj, Function.update_same]; exact le_of_lt hlt
          · rw [Function.update_noteq haj]
        refine ⟨?_, ?_, ?_, ?_⟩
        · rw [Function.update_noteq (by omega)]
          exact hinv.zero
        · intro a ha0 ha
          by_cases haj : a = j
          · rw [haj, Function.update_same]
            simp only
            omega
          · rw [Function.update_noteq haj]
            exact hinv.bound a ha0 ha
        · intro a ha0 ha hfin
          by_cases haj : a = j
          · rw [haj] at hfin ⊢
            rw [Function.update_same] at hfin ⊢
            simp only [Int.toNat_ofNat]
            rw [Function.update_noteq hne]
            exact ⟨⟨Int.ofNat_nonneg i, by exact_mod_cast hi⟩, hdpos, hdj, le_refl _⟩
          · rw [Function.update_noteq haj] at hfin ⊢
            obtain ⟨h1, h2, h3, h4⟩ := hinv.tag a ha0 ha hfin
            exact ⟨h1, h2, h3, le_trans (add_le_add_right (hmono _) 1) h4⟩
        · intro a ha0 ha coins hmem hsum
          by_cases haj : a = j
          · subst haj
            rw [Function.update_same]
            simp only
            rcases count_le_at hpos hi hj0 hj hinv coins (hatj coins hmem) hsum
              with ⟨h1, h2⟩ | h
            · exact h2
            · omega
          · rw [Function.update_noteq haj]
            exact hinv.opt a ha0 ha coins (hkeep a haj coins hmem) hsum
    · refine ⟨m, ?_, hsame (fun _ => by omega)⟩
      simp only [relaxAmount, hdj, if_true, hk, hin, and_self, hc, hlt, if_false]
  · refine ⟨m, ?_, hsame (fun h => absurd h hdj)⟩
    simp only [relaxAmount, hdj, if_false]

theorem amountLoop_spec {qty : Int} {denom : List Int} (hq : qty + 2 ≤ INT_MAX)
    (hpos : ∀ d ∈ denom, 0 < d) {i : Nat} (hi : i < denom.length) :
    ∀ (fuel : Nat) (j : Int) (m : Int → Int × Int), 0 ≤ j → j ≤ qty + 1 →
      qty + 1 - j < (fuel : Int) → DPInv qty denom i j m →
      ∃ m1 : Int → Int × Int,
        amountLoop qty (qty + 1) (denom.getD i 0) i fuel j m = .ok m1 ∧
        DPInv qty denom i (qty + 1) m1 := by
  intro fuel
  induction fuel with
  | zero => intro j m _ h1 h2; simp only [Nat.cast_zero] at h2; omega
  | succ fuel ih =>
    intro j m hj0 hj hf hinv
    by_cases hle : j ≤ qty
    · obtain ⟨m1, hrun1, hinv1⟩ := relaxAmount_spec hq hpos hi hj0 hle hinv
      obtain ⟨m2, hrun2, hinv2⟩ := ih (j + 1) m1 (by omega) (by omega)
        (by push_cast at hf; omega) hinv1
      refine ⟨m2, ?_, hinv2⟩
      simp only [amountLoop, hle, if_true, hrun1]
      exact hrun2
    · have hjq : j = qty + 1 := by omega
      refine ⟨m, ?_, by rw [← hjq]; exact hinv⟩
      simp only [amountLoop, hle, if_false]

/-- The invariant at the end of the pass for the denomination of index `i` is
the invariant at the start of the pass for the next one. -/
theorem DPInv.next {qty : Int} {denom : List Int} {i : Nat} {m : Int → Int × Int}
    (h : DPInv qty denom i (qty + 1) m) : DPInv qty denom (i + 1) 0 m := by
  refine ⟨h.zero, h.bound, h.tag, ?_⟩
  intro a ha0 ha coins hmem hsum
  apply h.opt a ha0 ha coins _ hsum
  intro c hc
  have := hmem c hc
  have h1 : a < qty + 1 := by omega
  have h2 : ¬ a < 0 := by omega
  simpa [h1, h2] using this

theorem denomLoop_spec {qty : Int} {denom : List Int} (h0 : 0 ≤ qty) (hq : qty + 2 ≤ INT_MAX)
    (hpos : ∀ d ∈ denom, 0 < d) :
    ∀ (fuel i : Nat) (m : Int → Int × Int), i ≤ denom.length → denom.length - i < fuel →
      DPInv qty denom i 0 m →
      ∃ m1 : Int → Int × Int, denomLoop qty (qty + 1) denom fuel i m = .ok m1 ∧
        DPInv qty denom denom.length 0 m1 := by
  intro fuel
  induction fuel with
  | zero => intro i m _ h; omega
  | succ fuel ih =>
    intro i m hi hf hinv
    by_cases hlt : i < denom.length
    · obtain ⟨m1, hrun1, hinv1⟩ := amountLoop_spec hq hpos hlt (qty.toNat + 2) 0 m
        (le_refl _) (by omega) (by push_cast; omega) hinv
      obtain ⟨m2, hrun2, hinv2⟩ := ih (i + 1) m1 (by omega) (by omega) hinv1.next
      refine ⟨m2, ?_, hinv2⟩
      simp only [denomLoop, hlt, if_true, hrun1]
      exact hrun2
    · have hil : i = denom.length := by omega
      refine ⟨m, ?_, by rw [← hil]; exact hinv⟩
      simp only [denomLoop, hlt, if_false]

/-- The table before the first pass. -/
theorem dpInv_init {qty : Int} (denom : List Int) (h0 : 0 ≤ qty) :
    DPInv qty denom 0 0 (Function.update (fun _ => (qty + 1, -1)) 0 (0, -1)) := by
  refine ⟨Function.update_same _ _ _, ?_, ?_, ?_⟩
  · intro a ha0 ha
    by_cases h : a = 0
    · rw [h, Function.update_same]
      simp only
      omega
    · rw [Function.update_noteq h]
      simp only
      omega
  · intro a ha0 ha hfin
    rw [Function.update_noteq (by omega)] at hfin
    exact absurd rfl hfin
  · intro a ha0 ha coins hmem hsum
    have hnil : coins = [] := by
      cases coins with
      | nil => rfl
      | cons c cs =>
        have := hmem c (List.mem_cons_self _ _)
        have h2 : ¬ a < 0 := by omega
        simp [h2] at this
    rw [hnil] at hsum ⊢
    simp only [List.sum_nil] at hsum
    rw [← hsum, Function.update_same]
    simp

/-! ## Following the tags -/

theorem collectCoins_spec {qty : Int} {denom : List Int} (hq : qty + 2 ≤ INT_MAX)
    {i : Nat} {j : Int} {m : Int → Int × Int} (hinv : DPInv qty denom i j m) :
    ∀ (fuel : Nat) (a : Int) (acc : List Int), 0 ≤ a → a ≤ qty → a < (fuel : Int) →
      (m a).1 ≠ qty + 1 →
      ∃ coins : List Int,
        collectCoins (qty + 1) denom m fuel a acc = .ok (acc ++ coins) ∧
        (∀ c ∈ coins, c ∈ denom ∧ 0 < c) ∧ coins.sum = a ∧
        (coins.length : Int) ≤ (m a).1 := by
  intro fuel
  induction fuel with
  | zero => intro a acc h1 _ h2; simp only [Nat.cast_zero] at h2; omega
  | succ fuel ih =>
    intro a acc ha0 ha hf hfin
    have hIM : INT_MAX = 2147483647 := rfl
    by_cases hz : a = 0
    · refine ⟨[], ?_, by simp, by simp [hz], ?_⟩
      · simp only [collectCoins, hz, ne_eq, not_true_eq_false, if_false, List.append_nil]
      · rw [hz, hinv.zero]
        simp
    · obtain ⟨htag, hdpos, hdle, hcount⟩ := hinv.tag a (by omega) ha hfin
      have hin : 0 ≤ a ∧ a < qty + 1 := ⟨ha0, by omega⟩
      have hw : wrapInt (a - denom.getD (m a).2.toNat 0) = a - denom.getD (m a).2.toNat 0 :=
        wrapInt_eq_self (by omega) (by omega)
      have hab := hinv.bound a ha0 ha
      have hnb := hinv.bound (a - denom.getD (m a).2.toNat 0) (by omega) (by omega)
      obtain ⟨coins, hrun, hmem, hsum, hlen⟩ :=
        ih (a - denom.getD (m a).2.toNat 0) (acc ++ [denom.getD (m a).2.toNat 0])
          (by omega) (by omega) (by push_cast at hf; omega) (by omega)
      have hdmem : denom.getD (m a).2.toNat 0 ∈ denom := by
        have hlt : (m a).2.toNat < denom.length := by omega
        rw [List.getD_eq_getElem _ _ hlt]
        exact List.getElem_mem _
      refine ⟨denom.getD (m a).2.toNat 0 :: coins, ?_, ?_, ?_, ?_⟩
      · simp only [collectCoins, ne_eq, hz, not_false_eq_true, if_true, hin, and_self, htag, hw]
        rw [hrun, List.append_assoc]
        rfl
      · intro c hc
        rcases List.mem_cons.1 hc with rfl | hc
        · exact ⟨hdmem, hdpos⟩
        · exact hmem c hc
      · rw [List.sum_cons, hsum]
        omega
      · rw [List.length_cons]
        push_cast
        omega

theorem sumCoins_spec :
    ∀ (coins : List Int) (sum : Int), (∀ c ∈ coins, 0 < c) → 0 ≤ sum →
      sum + coins.sum ≤ INT_MAX → sumCoins coins sum = sum + coins.sum := by
  intro coins
  induction coins with
  | nil => intro sum _ _ _; simp [sumCoins]
  | cons c cs ih =>
    intro sum hpos hs hle
    have hIM : INT_MAX = 2147483647 := rfl
    have hc := hpos c (List.mem_cons_self _ _)
    have hcs : ∀ x ∈ cs, 0 < x := fun x hx => hpos x (List.mem_cons_of_mem _ hx)
    have hsum : 0 ≤ cs.sum := List.sum_nonneg (fun x hx => le_of_lt (hcs x hx))
    rw [List.sum_cons] at hle
    have hw : wrapInt (sum + c) = sum + c := wrapInt_eq_self (by omega) (by omega)
    simp only [sumCoins, hw]
    rw [ih (sum + c) hcs (by omega) (by omega), List.sum_cons]
    ring

/-! ## The result of `dpChange` -/

/-- The run of `dpChange` for an amount `0 ≤ qty ≤ INT_MAX - 2` and positive
denominations: the table `m` it builds, and the coins it returns. -/
theorem dpChange_spec {qty : Int} {denom : List Int} (h0 : 0 ≤ qty)
    (hq : qty + 2 ≤ INT_MAX) (hpos : ∀ d ∈ denom, 0 < d) :
    ∃ (m : Int → Int × Int) (coins : List Int),
      DPInv qty denom denom.length 0 m ∧ dpChange qty denom = .ok coins ∧
      ((m qty).1 = qty + 1 → coins = []) ∧
      ((m qty).1 ≠ qty + 1 →
        (∀ c ∈ coins, c ∈ denom) ∧ coins.sum = qty ∧ (coins.length : Int) ≤ (m qty).1) := by
  have hIM : INT_MAX = 2147483647 := rfl
  have hw : wrapInt (qty + 1) = qty + 1 := wrapInt_eq_self (by omega) (by omega)
  obtain ⟨m, hrun, hinv⟩ := denomLoop_spec h0 hq hpos (denom.length + 1) 0 _
    (Nat.zero_le _) (by omega) (dpInv_init denom h0)
  have hn1 : ¬ qty + 1 < 0 := by omega
  have hp1 : 0 < qty + 1 := by omega
  have hin : 0 ≤ qty ∧ qty < qty + 1 := ⟨h0, by omega⟩
  by_cases hfin : (m qty).1 = qty + 1
  · refine ⟨m, [], hinv, ?_, fun _ => rfl, fun h => absurd hfin h⟩
    simp only [dpChange, hw, hn1, if_false, hp1, if_true, hrun, hin, and_self, hfin]
  · obtain ⟨coins, hcol, hmem, hsum, hlen⟩ :=
      collectCoins_spec hq hinv (qty.toNat + 1) qty [] h0 (le_refl _) (by push_cast; omega) hfin
    rw [List.nil_append] at hcol
    have hs : sumCoins coins 0 = qty := by
      rw [sumCoins_spec coins 0 (fun c hc => (hmem c hc).2) (le_refl _) (by omega), hsum]
      omega
    refine ⟨m, coins, hinv, ?_, fun h => absurd h hfin,
      fun _ => ⟨fun c hc => (hmem c hc).1, hsum, hlen⟩⟩
    simp only [dpChange, hw, hn1, if_false, hp1, if_true, hrun, hin, and_self, hfin, hcol,
      hs, ne_eq, not_true_eq_false]

/-- The count of the amount `qty` in the final table is `qty + 1`, the value
that stands for "impossible", exactly when `qty` is not a sum of elements of
`denom`. -/
theorem impossible_iff {qty : Int} {denom : List Int} (h0 : 0 ≤ qty)
    (hq : qty + 2 ≤ INT_MAX) (hpos : ∀ d ∈ denom, 0 < d) {m : Int → Int × Int}
    (hinv : DPInv qty denom denom.length 0 m) :
    (m qty).1 = qty + 1 ↔ ¬ Representable denom qty := by
  constructor
  · rintro hfin ⟨coins, hmem, hsum⟩
    have hle := hinv.opt qty h0 (le_refl _) coins
      (by
        intro c hc
        have h2 : ¬ qty < 0 := by omega
        simp only [h2, if_false, List.take_length]
        exact hmem c hc)
      hsum
    have := length_le_sum (fun c hc => hpos c (hmem c hc))
    omega
  · intro hno
    by_contra hfin
    obtain ⟨coins, _, hmem, hsum, _⟩ :=
      collectCoins_spec hq hinv (qty.toNat + 1) qty [] h0 (le_refl _) (by push_cast; omega) hfin
    exact hno ⟨coins, fun c hc => (hmem c hc).1, hsum⟩

/-- Every natural number is a sum of coins of value 1. -/
theorem representable_one (q : Nat) : Representable [1] (q : Int) := by
  refine ⟨List.replicate q 1, ?_, ?_⟩
  · intro c hc
    rw [List.eq_of_mem_replicate hc]
    exact List.mem_singleton.2 rfl
  · simp [List.sum_replicate]

/-- Runs of `dpChange`: the amount 0, an amount reached with two equal coins, an
amount out of reach, no denomination, and a negative amount. -/
theorem dpChange_examples :
    dpChange 0 [1, 2] = .ok [] ∧ dpChange 6 [1, 3, 4] = .ok [3, 3] ∧
    dpChange 7 [2, 4] = .ok [] ∧ dpChange 3 [] = .ok [] ∧
    dpChange (-1) [1] = .error .memoryFault := by
  decide

/-! ## The number of coins returned -/

/-- The count of an amount in the final table is at most the length of every
list of elements of `denom` that sums to it. -/
theorem count_le_length {qty : Int} {denom : List Int} {m : Int → Int × Int}
    (hinv : DPInv qty denom denom.length 0 m) {a : Int} (ha0 : 0 ≤ a) (ha : a ≤ qty)
    (coins : List Int) (hmem : ∀ c ∈ coins, c ∈ denom) (hsum : coins.sum = a) :
    (m a).1 ≤ (coins.length : Int) := by
  apply hinv.opt a ha0 ha coins _ hsum
  intro c hc
  have h2 : ¬ a < 0 := by omega
  simp only [h2, if_false, List.take_length]
  exact hmem c hc

/-- The run of `dpChange` on an amount that is a sum of elements of `denom`:
the table built by the two loops, the coins collected by following its tags,
which `dpChange` returns, and their number, the count of `qty` in the table. -/
theorem dpChange_run {qty : Int} {denom : List Int} (h0 : 0 ≤ qty)
    (hq : qty + 2 ≤ INT_MAX) (hpos : ∀ d ∈ denom, 0 < d) (hrep : Representable denom qty) :
    ∃ (m : Int → Int × Int) (coins : List Int),
      DPInv qty denom denom.length 0 m ∧
      denomLoop qty (qty + 1) denom (denom.length + 1) 0
        (Function.update (fun _ => (qty + 1, -1)) 0 (0, -1)) = .ok m ∧
      collectCoins (qty + 1) denom m (qty.toNat + 1) qty [] = .ok coins ∧
      dpChange qty denom = .ok coins ∧
      (∀ c ∈ coins, c ∈ denom) ∧ coins.sum = qty ∧ (coins.length : Int) = (m qty).1 := by
  have hIM : INT_MAX = 2147483647 := rfl
  have hw : wrapInt (qty + 1) = qty + 1 := wrapInt_eq_self (by omega) (by omega)
  obtain ⟨m, hrun, hinv⟩ := denomLoop_spec h0 hq hpos (denom.length + 1) 0 _
    (Nat.zero_le _) (by omega) (dpInv_init denom h0)
  have hn1 : ¬ qty + 1 < 0 := by omega
  have hp1 : 0 < qty + 1 := by omega
  have hin : 0 ≤ qty ∧ qty < qty + 1 := ⟨h0, by omega⟩
  have hfin : (m qty).1 ≠ qty + 1 := fun h => (impossible_iff h0 hq hpos hinv).1 h hrep
  obtain ⟨coins, hcol, hmem, hsum, hlen⟩ :=
    collectCoins_spec hq hinv (qty.toNat + 1) qty [] h0 (le_refl _) (by push_cast; omega) hfin
  rw [List.nil_append] at hcol
  have hs : sumCoins coins 0 = qty := by
    rw [sumCoins_spec coins 0 (fun c hc => (hmem c hc).2) (le_refl _) (by omega), hsum]
    omega
  have hge := count_le_length hinv h0 (le_refl _) coins (fun c hc => (hmem c hc).1) hsum
  refine ⟨m, coins, hinv, hrun, hcol, ?_, fun c hc => (hmem c hc).1, hsum, le_antisymm hlen hge⟩
  simp only [dpChange, hw, hn1, if_false, hp1, if_true, hrun, hin, and_self, hfin, hcol,
    hs, ne_eq, not_true_eq_false]

end CoinChange

namespace ShortestPath

/-! ## The claims on `dijkstra` and `dijkstraAll` -/

/-- Claim C1: with `MinHeap` a min-ordered queue on the tentative distance, on
a graph whose neighbour ids lie in `[0, n)`, whose weights are non-negative and
sum to less than `INT_MAX`, and for a start in `[0, n)`, `dijkstra` returns a
table of length `n` whose entry at every node reachable from the start is the
least total weight of a walk from the start to it. -/
theorem dijkstra_shortest_distances (H : MinHeap (Int × Int))
    (hH : IsMinQueue H Prod.snd) (g : Graph) (start : Int)
    (hr : NeighboursInRange g) (hw : NonNegative g) (hT : g.totalWeight < INT_MAX)
    (h0 : 0 ≤ start) (h1 : start < (g.adj_list.length : Int)) :
    ∃ d : List Int, dijkstra H g start = .ok d ∧ d.length = g.adj_list.length ∧
      ∀ v : Int, Reachable g start v →
        ∃ x, d[v.toNat]? = some x ∧ IsShortestDist g start v x := by
  obtain ⟨d, hrun, hreach, _⟩ := dijkstra_spec hH hr hw hT h0 h1
  refine ⟨_, hrun, tableToList_length _ _, ?_⟩
  intro v hv
  obtain ⟨hv0, hv1⟩ := reachable_range hr ⟨h0, h1⟩ hv
  exact ⟨d v, tableToList_getElem? _ d hv0 hv1, hreach v hv⟩

/-- The witness of claim C1: on the three-node graph `0→1 (2)`, `1→2 (2)`,
`0→2 (5)` the table from start 0 is `[0, 2, 4]`. -/
theorem dijkstra_shortest_distances_witness :
    dijkstra distHeap graph3 0 = .ok [0, 2, 4] ∧
    ∃ d : List Int, dijkstra distHeap graph3 0 = .ok d ∧
      d.length = graph3.adj_list.length ∧
      ∀ v : Int, Reachable graph3 0 v →
        ∃ x, d[v.toNat]? = some x ∧ IsShortestDist graph3 0 v x :=
  ⟨by decide, dijkstra_shortest_distances distHeap (listHeap_isMinQueue _) graph3 0
    (by unfold NeighboursInRange; decide) (by unfold NonNegative; decide) (by decide)
    (by decide) (by decide)⟩

/-- Claim C2, evaluated on the code: a start of 5 on the three-node graph is
rejected with the out-of-range error, but a start of -1 passes the only test
`init >= n` and the run then writes `d[-1]`, outside the table. -/
theorem dijkstra_negative_start_unchecked :
    dijkstra distHeap graph3 5 = .error .outOfRange ∧
    dijkstra distHeap graph3 (-1) = .error .memoryFault ∧
    dijkstra distHeap graph3 (-1) ≠ .error .outOfRange := by
  decide

/-- Claim C3 as stated fails: the graph with the edge `0 → 1` of weight `-1`
and the start 5 give the out-of-range error, not the invalid-graph error. -/
theorem dijkstra_negative_weight_any_start_counterexample :
    (∃ es ∈ graphNeg.adj_list, ∃ e ∈ es, e.2 < (0 : Int)) ∧
    dijkstra distHeap graphNeg 5 = .error .outOfRange ∧
    dijkstra distHeap graphNeg 5 ≠ .error .invalidArgument := by
  decide

/-- Claim C3, amended: on a graph with an edge of negative weight `dijkstra`
fails with the invalid-argument error for every start below `n`, and with the
out-of-range error for every start from `n` on; in both cases the failure
precedes the loop and no table is produced. -/
theorem dijkstra_negative_weight_rejected (H : MinHeap (Int × Int)) (g : Graph)
    (start : Int) (hneg : ∃ es ∈ g.adj_list, ∃ e ∈ es, e.2 < (0 : Int)) :
    (start < (g.adj_list.length : Int) → dijkstra H g start = .error .invalidArgument) ∧
    ((g.adj_list.length : Int) ≤ start → dijkstra H g start = .error .outOfRange) := by
  constructor
  · intro h
    unfold dijkstra
    simp only [ge_iff_le, not_le.2 h, if_false, hasNegativeWeight_eq_true hneg, if_true]
  · intro h
    unfold dijkstra
    simp only [ge_iff_le, h, if_true]

/-- The witness of the amended claim C3, on the graph with the edge `0 → 1` of
weight `-1` and the start 0. -/
theorem dijkstra_negative_weight_rejected_witness :
    (∃ es ∈ graphNeg.adj_list, ∃ e ∈ es, e.2 < (0 : Int)) ∧
    ((0 : Int) < (graphNeg.adj_list.length : Int) →
      dijkstra distHeap graphNeg 0 = .error .invalidArgument) ∧
    ((graphNeg.adj_list.length : Int) ≤ 0 →
      dijkstra distHeap graphNeg 0 = .error .outOfRange) :=
  ⟨by decide, dijkstra_negative_weight_rejected distHeap graphNeg 0 (by decide)⟩

/-- Claim C4: on a graph with non-negative weights and neighbour ids in
`[0, n)`, and for a start in `[0, n)`, `dijkstra` succeeds and the entry of
every node that is not reachable from the start is `INT_MAX`. -/
theorem dijkstra_unreachable_sentinel (H : MinHeap (Int × Int))
    (hH : IsMinQueue H Prod.snd) (g : Graph) (start : Int)
    (hr : NeighboursInRange g) (hw : NonNegative g)
    (h0 : 0 ≤ start) (h1 : start < (g.adj_list.length : Int)) :
    ∃ d : List Int, dijkstra H g start = .ok d ∧ d.length = g.adj_list.length ∧
      ∀ v : Int, 0 ≤ v → v < (g.adj_list.length : Int) → ¬ Reachable g start v →
        d[v.toNat]? = some INT_MAX := by
  obtain ⟨d, hrun, hun⟩ := dijkstra_reach hH hr hw h0 h1
  refine ⟨_, hrun, tableToList_length _ _, ?_⟩
  intro v hv0 hv1 hv
  rw [tableToList_getElem? _ d hv0 hv1, hun v hv]

/-- The witness of claim C4: from start 1 of the three-node graph node 0 is not
reachable and the table is `[INT_MAX, 0, 2]`. -/
theorem dijkstra_unreachable_sentinel_witness :
    dijkstra distHeap graph3 1 = .ok [INT_MAX, 0, 2] ∧
    ∃ d : List Int, dijkstra distHeap graph3 1 = .ok d ∧
      d.length = graph3.adj_list.length ∧
      ∀ v : Int, 0 ≤ v → v < (graph3.adj_list.length : Int) → ¬ Reachable graph3 1 v →
        d[v.toNat]? = some INT_MAX :=
  ⟨by decide, dijkstra_unreachable_sentinel distHeap (listHeap_isMinQueue _) graph3 1
    (by unfold NeighboursInRange; decide) (by unfold NonNegative; decide) (by decide)
    (by decide)⟩

/-- Claim C5: on a graph with `n` nodes, non-negative weights summing to less
than `INT_MAX` and neighbour ids in `[0, n)`, `dijkstraAll` returns `n` rows;
row `i` is the table `dijkstra` returns for start `i`, has length `n`, and its
entry `j` is the least walk weight from `i` to `j`, or `INT_MAX` when `j` is
not reachable from `i`. -/
theorem dijkstraAll_matrix (H : MinHeap (Int × Int)) (hH : IsMinQueue H Prod.snd)
    (g : Graph) (hr : NeighboursInRange g) (hw : NonNegative g)
    (hT : g.totalWeight < INT_MAX) :
    ∃ m : List (List Int), dijkstraAll H g = .ok m ∧ m.length = g.adj_list.length ∧
      ∀ i : Nat, i < g.adj_list.length →
        ∃ row : List Int, m[i]? = some row ∧ dijkstra H g (i : Int) = .ok row ∧
          row.length = g.adj_list.length ∧
          ∀ j : Nat, j < g.adj_list.length →
            ∃ x, row[j]? = some x ∧
              (Reachable g i j → IsShortestDist g i j x) ∧
              (¬ Reachable g i j → x = INT_MAX) := by
  have hrow : ∀ i : Nat, i < g.adj_list.length →
      ∃ d : Int → Int, dijkstra H g (i : Int) = .ok (tableToList g.adj_list.length d) ∧
        (∀ v, Reachable g i v → IsShortestDist g i v (d v)) ∧
        (∀ v, ¬ Reachable g i v → d v = INT_MAX) :=
    fun i hi => dijkstra_spec hH hr hw hT (Int.ofNat_nonneg i) (by exact_mod_cast hi)
  have hall : ∀ i ∈ List.range g.adj_list.length,
      ∃ row, dijkstra H g (i : Int) = .ok row := by
    intro i hi
    obtain ⟨d, hd, _⟩ := hrow i (List.mem_range.1 hi)
    exact ⟨_, hd⟩
  refine ⟨_, dijkstraRows_ok H g _ hall, by simp, ?_⟩
  intro i hi
  obtain ⟨d, hd, hreach, hun⟩ := hrow i hi
  refine ⟨tableToList g.adj_list.length d, ?_, hd, tableToList_length _ _, ?_⟩
  · rw [List.getElem?_map, List.getElem?_range hi]
    simp only [Option.map_some', rowOf, hd]
  · intro j hj
    refine ⟨d j, ?_, hreach j, hun j⟩
    have := tableToList_getElem? g.adj_list.length d (Int.ofNat_nonneg j)
      (by exact_mod_cast hj)
    simpa using this

/-- The witness of claim C5, on the three-node graph. -/
theorem dijkstraAll_matrix_witness :
    dijkstraAll distHeap graph3
      = .ok [[0, 2, 4], [INT_MAX, 0, 2], [INT_MAX, INT_MAX, 0]] ∧
    ∃ m : List (List Int), dijkstraAll distHeap graph3 = .ok m ∧
      m.length = graph3.adj_list.length ∧
      ∀ i : Nat, i < graph3.adj_list.length →
        ∃ row : List Int, m[i]? = some row ∧ dijkstra distHeap graph3 (i : Int) = .ok row ∧
          row.length = graph3.adj_list.length ∧
          ∀ j : Nat, j < graph3.adj_list.length →
            ∃ x, row[j]? = some x ∧
              (Reachable graph3 i j → IsShortestDist graph3 i j x) ∧
              (¬ Reachable graph3 i j → x = INT_MAX) :=
  ⟨by decide, dijkstraAll_matrix distHeap (listHeap_isMinQueue _) graph3
    (by unfold NeighboursInRange; decide) (by unfold NonNegative; decide) (by decide)⟩

/-- Claim C10: on a graph with non-negative weights summing to less than
`INT_MAX`, neighbour ids in `[0, n)` and a start in `[0, n)`, the table `d`
returned by `dijkstra` satisfies `d[v] ≤ d[u] + w` for every edge `u → v` of
weight `w` whose tail `u` is reachable, and every reachable node `v` other than
the start has an incoming edge `u → v` of weight `w` with `u` reachable and
`d[v] = d[u] + w`. -/
theorem dijkstra_relaxation_certificate (H : MinHeap (Int × Int))
    (hH : IsMinQueue H Prod.snd) (g : Graph) (start : Int)
    (hr : NeighboursInRange g) (hw : NonNegative g) (hT : g.totalWeight < INT_MAX)
    (h0 : 0 ≤ start) (h1 : start < (g.adj_list.length : Int)) :
    ∃ d : List Int, dijkstra H g start = .ok d ∧
      (∀ u v w : Int, HasEdge g u v w → Reachable g start u →
        ∃ du dv, d[u.toNat]? = some du ∧ d[v.toNat]? = some dv ∧ dv ≤ du + w) ∧
      (∀ v : Int, Reachable g start v → v ≠ start →
        ∃ u w du dv, HasEdge g u v w ∧ Reachable g start u ∧
          d[u.toNat]? = some du ∧ d[v.toNat]? = some dv ∧ dv = du + w) := by
  obtain ⟨d, hrun, hreach, _⟩ := dijkstra_spec hH hr hw hT h0 h1
  have hget : ∀ v, Reachable g start v →
      (tableToList g.adj_list.length d)[v.toNat]? = some (d v) := by
    intro v hv
    obtain ⟨hv0, hv1⟩ := reachable_range hr ⟨h0, h1⟩ hv
    exact tableToList_getElem? _ d hv0 hv1
  refine ⟨_, hrun, ?_, ?_⟩
  · intro u v w he hu
    have hv : Reachable g start v := by
      obtain ⟨W, hW⟩ := hu
      exact ⟨_, Walk.snoc hW he⟩
    refine ⟨d u, d v, hget u hu, hget v hv, ?_⟩
    exact (hreach v hv).2 _ (Walk.snoc (hreach u hu).1 he)
  · intro v hv hne
    have hsv := hreach v hv
    rcases walk_inv hsv.1 with ⟨h, _⟩ | ⟨u, w, W1, hwalk, he, hW⟩
    · exact absurd h hne
    · have hu : Reachable g start u := ⟨W1, hwalk⟩
      refine ⟨u, w, d u, d v, he, hu, hget u hu, hget v hv, ?_⟩
      have h1 := (hreach u hu).2 W1 hwalk
      have h2 := hsv.2 _ (Walk.snoc (hreach u hu).1 he)
      omega

/-- The witness of claim C10, on the three-node graph from start 0, whose
table is `[0, 2, 4]`. -/
theorem dijkstra_relaxation_certificate_witness :
    dijkstra distHeap graph3 0 = .ok [0, 2, 4] ∧
    ∃ d : List Int, dijkstra distHeap graph3 0 = .ok d ∧
      (∀ u v w : Int, HasEdge graph3 u v w → Reachable graph3 0 u →
        ∃ du dv, d[u.toNat]? = some du ∧ d[v.toNat]? = some dv ∧ dv ≤ du + w) ∧
      (∀ v : Int, Reachable graph3 0 v → v ≠ 0 →
        ∃ u w du dv, HasEdge graph3 u v w ∧ Reachable graph3 0 u ∧
          d[u.toNat]? = some du ∧ d[v.toNat]? = some dv ∧ dv = du + w) :=
  ⟨by decide, dijkstra_relaxation_certificate distHeap (listHeap_isMinQueue _) graph3 0
    (by unfold NeighboursInRange; decide) (by unfold NonNegative; decide) (by decide)
    (by decide) (by decide)⟩

/-! ## The claims on `aStar` -/

/-- Claim C6 as stated fails beyond the range of `int`: on the fully walkable
grid of side 46341 the start `(46340, 46340)` and the goal `(46340, 46338)` are
in bounds, walkable and joined by a walk of two moves, and `aStar` returns the
no-path result, which is not a string of move letters. -/
theorem aStar_optimal_length_counterexample :
    IsGrid (gridOpen 46341) 46341 ∧
    InGrid 46341 (46340, 46340) ∧ Walkable (gridOpen 46341) (46340, 46340) ∧
    InGrid 46341 (46340, 46338) ∧ Walkable (gridOpen 46341) (46340, 46338) ∧
    GridWalk (gridOpen 46341) 46341 (46340, 46340) (46340, 46338) 2 ∧
    aStar nodeHeap (gridOpen 46341) 46341 (46340, 46340) (46340, 46338) =
      .ok "No path found" ∧
    ¬ (∀ m ∈ "No path found".toList, IsMoveLetter m) ∧
    ¬ GridFits 46341 := by
  have h0 : InGrid 46341 (46340, 46340) := by decide
  have h1 : InGrid 46341 (46340, 46339) := by decide
  have h2 : InGrid 46341 (46340, 46338) := by decide
  refine ⟨isGrid_gridOpen _, h0, walkable_gridOpen h0, h2, walkable_gridOpen h2, ?_,
    aStar_wrapped_start _, by decide, by decide⟩
  exact .step ⟨h1, walkable_gridOpen h1, Or.inr (Or.inl rfl)⟩
    (.step ⟨h2, walkable_gridOpen h2, Or.inr (Or.inl rfl)⟩ (.refl _))

/-- Claim C6, amended: with the Manhattan heuristic and `MinHeap` a min-ordered
queue on the priority, on an `n × n` grid with `n * n + 2 * n ≤ INT_MAX`, for an
in-bounds walkable start and goal joined by a walk through walkable cells,
`aStar` returns a string of move letters whose length is the shortest-path
length found by the breadth-first search from start to goal. -/
theorem aStar_optimal_length (H : MinHeap Node) (hH : IsMinQueue H Node.priority)
    (maze : List (List Int)) (n : Nat) (start goal : Int × Int)
    (hn : GridFits n) (hg : IsGrid maze n)
    (hs : InGrid n start) (_hsw : Walkable maze start)
    (hgl : InGrid n goal) (_hgw : Walkable maze goal)
    (hconn : ∃ k, GridWalk maze n start goal k) :
    ∃ path : String, aStar H maze n start goal = .ok path ∧
      (∀ m ∈ path.toList, IsMoveLetter m) ∧
      bfsShortestLength maze n start goal = some path.length := by
  obtain ⟨k, hk⟩ := hconn
  obtain ⟨r, hrun, hpost⟩ := aStar_spec hH hn hg hs hgl
  rcases hpost with ⟨_, hno⟩ | ⟨hv, hmin⟩
  · exact absurd hk (hno k)
  · refine ⟨r, hrun, (validMoves_replay _ _ _ hv).1, ?_⟩
    have hw := validMoves_gridWalk _ _ _ hv
    rw [← string_length_toList] at hw
    rcases @bfsShortestLength_spec maze n start goal hs with ⟨d, hd, hm⟩ | ⟨_, hno⟩
    · rw [hd]
      have h1 := hmin d hm.1
      have h2 := hm.2 _ hw
      congr 1
      omega
    · exact absurd hk (hno k)

/-- The witness of the amended claim C6: on the fully walkable 3 × 3 grid from
`(0, 0)` to `(2, 2)` the answer has four letters, two `D` and two `R` (`RRDD`
with the list queue). -/
theorem aStar_optimal_length_witness :
    aStar nodeHeap gridOpen3 3 (0, 0) (2, 2) = .ok "RRDD" ∧
    "RRDD".length = 4 ∧ "RRDD".toList.count 'D' = 2 ∧ "RRDD".toList.count 'R' = 2 ∧
    ∃ path : String, aStar nodeHeap gridOpen3 3 (0, 0) (2, 2) = .ok path ∧
      (∀ m ∈ path.toList, IsMoveLetter m) ∧
      bfsShortestLength gridOpen3 3 (0, 0) (2, 2) = some path.length :=
  ⟨by decide, by decide, by decide, by decide,
    aStar_optimal_length nodeHeap (listHeap_isMinQueue _) gridOpen3 3 (0, 0) (2, 2)
      (by decide) (by decide) (by decide) (by decide) (by decide) (by decide)
      ⟨4, walk_of_bfs_some (by decide) (by decide)⟩⟩

/-- Claim C7: for every queue and every maze of side `n` (an `int`), and for
an in-bounds walkable start, whenever `aStar` returns a string other than the
no-path result, the string consists of the letters `U`, `D`, `L`, `R`, and
replaying it from the start (`U` row - 1, `D` row + 1, `L` column - 1,
`R` column + 1) visits only in-bounds walkable cells and ends on the goal.
Neither the shape of the maze nor the position of the goal is assumed: a
returned move string can only come from a chain of recorded parents. -/
theorem aStar_path_replays (H : MinHeap Node) (maze : List (List Int)) (n : Nat)
    (start goal : Int × Int) (hn : (n : Int) ≤ INT_MAX)
    (hs : InGrid n start) (hsw : Walkable maze start)
    (path : String) (hrun : aStar H maze n start goal = .ok path)
    (hne : path ≠ "No path found") :
    (∀ m ∈ path.toList, IsMoveLetter m) ∧
    (∀ c ∈ start :: replayCells start path.toList, InGrid n c ∧ Walkable maze c) ∧
    replayEnd start path.toList = goal := by
  rcases aStar_valid H hn hs hrun with h | hv
  · exact absurd h hne
  · obtain ⟨h1, h2, h3⟩ := validMoves_replay _ _ _ hv
    refine ⟨h1, ?_, h3⟩
    intro c hc
    rcases List.mem_cons.1 hc with rfl | hc
    · exact ⟨hs, hsw⟩
    · exact h2 c hc

/-- The witness of claim C7: on the 3 × 3 grid whose middle row is blocked
except in column 0, from `(0, 0)` to `(2, 2)`, the answer is `DDRR`, the detour
through `(1, 0)` and `(2, 0)`. -/
theorem aStar_path_replays_witness :
    aStar nodeHeap gridDetour3 3 (0, 0) (2, 2) = .ok "DDRR" ∧
    replayCells (0, 0) "DDRR".toList = [(1, 0), (2, 0), (2, 1), (2, 2)] ∧
    ((∀ m ∈ "DDRR".toList, IsMoveLetter m) ∧
      (∀ c ∈ (0, 0) :: replayCells (0, 0) "DDRR".toList,
        InGrid 3 c ∧ Walkable gridDetour3 c) ∧
      replayEnd (0, 0) "DDRR".toList = (2, 2)) :=
  ⟨by decide, by decide,
    aStar_path_replays nodeHeap gridDetour3 3 (0, 0) (2, 2) (by decide) (by decide)
      (by decide) "DDRR" (by decide) (by decide)⟩

/-- Claim C8 as stated fails beyond the range of `int`: on the grid of side
65537 whose only walkable cells are the start `(0, 0)` and the goal
`(65535, 1)`, both in bounds, no walk joins the start to the goal, and `aStar`
does not return the no-path result: the id of the goal wraps to that of the
start, and the reconstruction reads outside the grid. -/
theorem aStar_no_path_counterexample :
    IsGrid (gridOnly 65537 [(0, 0), (65535, 1)]) 65537 ∧
    InGrid 65537 (0, 0) ∧ Walkable (gridOnly 65537 [(0, 0), (65535, 1)]) (0, 0) ∧
    InGrid 65537 (65535, 1) ∧ Walkable (gridOnly 65537 [(0, 0), (65535, 1)]) (65535, 1) ∧
    (∀ k, ¬ GridWalk (gridOnly 65537 [(0, 0), (65535, 1)]) 65537 (0, 0) (65535, 1) k) ∧
    aStar nodeHeap (gridOnly 65537 [(0, 0), (65535, 1)]) 65537 (0, 0) (65535, 1) =
      .error .memoryFault ∧
    aStar nodeHeap (gridOnly 65537 [(0, 0), (65535, 1)]) 65537 (0, 0) (65535, 1) ≠
      .ok "No path found" ∧
    ¬ GridFits 65537 := by
  have h0 : InGrid 65537 (0, 0) := by decide
  have h1 : InGrid 65537 (65535, 1) := by decide
  have hw : ∀ c, InGrid 65537 c → Walkable (gridOnly 65537 [(0, 0), (65535, 1)]) c →
      c ∈ [((0 : Int), (0 : Int)), (65535, 1)] := by
    intro c hc hwalk
    unfold Walkable at hwalk
    rw [mazeAt_gridOnly _ hc] at hwalk
    by_contra hne
    rw [if_neg hne] at hwalk
    exact absurd hwalk (by decide)
  refine ⟨isGrid_gridOnly _ _, h0, ?_, h1, ?_, ?_, aStar_wrapped_goal _, ?_, by decide⟩
  · unfold Walkable
    rw [mazeAt_gridOnly _ h0]
    rfl
  · unfold Walkable
    rw [mazeAt_gridOnly _ h1]
    rfl
  · intro k hk
    cases hk with
    | step hstep _ =>
      obtain ⟨hin, hwalk, hadj⟩ := hstep
      have hm := hw _ hin hwalk
      rcases hadj with h | h | h | h <;> rw [h] at hm <;> exact absurd hm (by decide)
  · rw [aStar_wrapped_goal]
    exact fun h => by cases h

/-- Claim C8, amended: on an `n × n` grid with `n * n + 2 * n ≤ INT_MAX`, for an
in-bounds walkable start and an in-bounds goal that no walk through walkable
cells joins to the start, `aStar` returns the no-path result. -/
theorem aStar_no_path_when_disconnected (H : MinHeap Node)
    (hH : IsMinQueue H Node.priority) (maze : List (List Int)) (n : Nat)
    (start goal : Int × Int) (hn : GridFits n) (hg : IsGrid maze n)
    (hs : InGrid n start) (_hsw : Walkable maze start) (hgl : InGrid n goal)
    (hdis : ∀ k, ¬ GridWalk maze n start goal k) :
    aStar H maze n start goal = .ok "No path found" := by
  obtain ⟨r, hrun, hpost⟩ := aStar_spec hH hn hg hs hgl
  rcases hpost with ⟨h, _⟩ | ⟨hv, _⟩
  · rw [hrun, h]
  · exact absurd (validMoves_gridWalk _ _ _ hv) (hdis _)

/-- The witness of the amended claim C8: on the 3 × 3 grid whose corner
`(2, 2)` is walkable but walled off, the search from `(0, 0)` finds no path. -/
theorem aStar_no_path_when_disconnected_witness :
    Walkable gridIsland3 (2, 2) ∧ (∀ k, ¬ GridWalk gridIsland3 3 (0, 0) (2, 2) k) ∧
    aStar nodeHeap gridIsland3 3 (0, 0) (2, 2) = .ok "No path found" :=
  ⟨by decide, no_walk_of_bfs_none (by decide) (by decide),
    aStar_no_path_when_disconnected nodeHeap (listHeap_isMinQueue _) gridIsland3 3
      (0, 0) (2, 2) (by decide) (by decide) (by decide) (by decide) (by decide)
      (no_walk_of_bfs_none (by decide) (by decide))⟩

/-- Claim C9 as stated fails: on the 2 × 2 grid whose cell `(0, 0)` is blocked,
the search from the blocked start `(0, 0)` to `(1, 1)` returns two moves (`RD`
with the list queue) and not the no-path result, and the search from it to
itself returns the empty move string; a start outside the 3 × 3 grid, and the
goal `(0, 3)` outside it, end in an access outside the tables. -/
theorem aStar_precondition_counterexample :
    (IsGrid gridBlockedStart2 2 ∧ InGrid 2 (0, 0) ∧ InGrid 2 (1, 1) ∧
      mazeAt gridBlockedStart2 0 0 = some 0) ∧
    aStar nodeHeap gridBlockedStart2 2 (0, 0) (1, 1) = .ok "RD" ∧
    aStar nodeHeap gridBlockedStart2 2 (0, 0) (1, 1) ≠ .ok "No path found" ∧
    aStar nodeHeap gridBlockedStart2 2 (0, 0) (0, 0) = .ok "" ∧
    aStar nodeHeap gridOpen3 3 (0, 3) (2, 2) = .error .memoryFault ∧
    aStar nodeHeap gridOpen3 3 (0, 0) (0, 3) = .error .memoryFault := by
  decide

/-- Claim C9, amended: on an `n × n` grid (small enough for `int` arithmetic),
for an in-bounds start and an in-bounds goal on a blocked cell other than the
start, `aStar` returns the no-path result. -/
theorem aStar_blocked_goal (H : MinHeap Node) (hH : IsMinQueue H Node.priority)
    (maze : List (List Int)) (n : Nat) (start goal : Int × Int)
    (hn : GridFits n) (hg : IsGrid maze n) (hs : InGrid n start) (hgl : InGrid n goal)
    (hblocked : ¬ Walkable maze goal) (hne : goal ≠ start) :
    aStar H maze n start goal = .ok "No path found" := by
  obtain ⟨r, hrun, hpost⟩ := aStar_spec hH hn hg hs hgl
  rcases hpost with ⟨h, _⟩ | ⟨hv, _⟩
  · rw [hrun, h]
  · rcases gridWalk_inGrid (validMoves_gridWalk _ _ _ hv) with h | h
    · exact absurd h.symm hne
    · exact absurd h.2 hblocked

/-- The witness of the amended claim C9: on the 3 × 3 grid whose corner
`(2, 2)` is blocked, the search from `(0, 0)` to that corner finds no path. -/
theorem aStar_blocked_goal_witness :
    mazeAt gridWalled3 2 2 = some 0 ∧
    aStar nodeHeap gridWalled3 3 (0, 0) (2, 2) = .ok "No path found" :=
  ⟨by decide, aStar_blocked_goal nodeHeap (listHeap_isMinQueue _) gridWalled3 3 (0, 0)
    (2, 2) (by decide) (by decide) (by decide) (by decide) (by decide) (by decide)⟩

/-! ## Further claims on `dijkstra`, `dijkstraAll` and `aStar` -/

/-- Claim C11: on an undirected graph (every edge mirrored with the same
weight) whose weights are non-negative and sum to less than `INT_MAX`, the
`n × n` matrix returned by `dijkstraAll` is symmetric, `m[i][j] = m[j][i]` for
all `i, j` in `[0, n)`; and there is a directed graph, the three-node graph
`0→1 (2)`, `1→2 (2)`, `0→2 (5)`, whose matrix has `m[0][1] ≠ m[1][0]`. -/
theorem dijkstraAll_symmetric (H : MinHeap (Int × Int)) (hH : IsMinQueue H Prod.snd)
    (g : Graph) (hu : Undirected g) (hw : NonNegative g) (hT : g.totalWeight < INT_MAX) :
    (∃ m : List (List Int), dijkstraAll H g = .ok m ∧
      m.length = g.adj_list.length ∧ (∀ row ∈ m, row.length = g.adj_list.length) ∧
      ∀ i j : Nat, i < g.adj_list.length → j < g.adj_list.length →
        entryAt m i j = entryAt m j i) ∧
    (∃ m : List (List Int), dijkstraAll H graph3 = .ok m ∧ entryAt m 0 1 ≠ entryAt m 1 0) := by
  have key : ∀ g1 : Graph, NeighboursInRange g1 → NonNegative g1 →
      g1.totalWeight < INT_MAX →
      dijkstraAll H g1 = .ok ((List.range g1.adj_list.length).map (rowOf H g1)) ∧
      ∀ i : Nat, i < g1.adj_list.length →
        ∃ d : Int → Int,
          dijkstra H g1 (i : Int) = .ok (tableToList g1.adj_list.length d) ∧
          (∀ v, Reachable g1 i v → IsShortestDist g1 i v (d v)) ∧
          (∀ v, ¬ Reachable g1 i v → d v = INT_MAX) := by
    intro g1 hr1 hw1 hT1
    have hrow : ∀ i : Nat, i < g1.adj_list.length →
        ∃ d : Int → Int,
          dijkstra H g1 (i : Int) = .ok (tableToList g1.adj_list.length d) ∧
          (∀ v, Reachable g1 i v → IsShortestDist g1 i v (d v)) ∧
          (∀ v, ¬ Reachable g1 i v → d v = INT_MAX) :=
      fun i hi => dijkstra_spec hH hr1 hw1 hT1 (Int.ofNat_nonneg i) (by exact_mod_cast hi)
    refine ⟨dijkstraRows_ok H g1 _ ?_, hrow⟩
    intro i hi
    obtain ⟨d, hd, _⟩ := hrow i (List.mem_range.1 hi)
    exact ⟨_, hd⟩
  constructor
  · obtain ⟨hrun, hrow⟩ := key g (neighboursInRange_of_undirected hu) hw hT
    refine ⟨_, hrun, by simp, ?_, ?_⟩
    · intro row hmem
      obtain ⟨i, hi, rfl⟩ := List.mem_map.1 hmem
      obtain ⟨d, hd, _⟩ := hrow i (List.mem_range.1 hi)
      simp only [rowOf, hd, tableToList_length]
    intro i j hi hj
    obtain ⟨di, hdi, hri, hui⟩ := hrow i hi
    obtain ⟨dj, hdj, hrj, huj⟩ := hrow j hj
    rw [entryAt_rows hi hj hdi, entryAt_rows hj hi hdj]
    by_cases hreach : Reachable g i j
    · have hback : Reachable g j i := by
        obtain ⟨W, hW⟩ := hreach
        exact ⟨W, walk_reverse hu hW⟩
      obtain ⟨ha, hb⟩ := hri j hreach
      obtain ⟨hc, hd⟩ := hrj i hback
      have h1 := hb _ (walk_reverse hu hc)
      have h2 := hd _ (walk_reverse hu ha)
      omega
    · have hback : ¬ Reachable g j i := by
        rintro ⟨W, hW⟩
        exact hreach ⟨W, walk_reverse hu hW⟩
      rw [hui j hreach, huj i hback]
  · obtain ⟨hrun, hrow⟩ := key graph3 (by unfold NeighboursInRange; decide)
      (by unfold NonNegative; decide) (by decide)
    refine ⟨_, hrun, ?_⟩
    obtain ⟨d0, hd0, hr0, _⟩ := hrow 0 (by decide)
    obtain ⟨d1, hd1, _, hu1⟩ := hrow 1 (by decide)
    rw [entryAt_rows (by decide) (by decide) hd0, entryAt_rows (by decide) (by decide) hd1]
    have hreach : Reachable graph3 ((0 : Nat) : Int) ((1 : Nat) : Int) :=
      ⟨0 + 2, Walk.snoc Walk.nil ⟨by decide, by decide⟩⟩
    have hnot : ¬ Reachable graph3 ((1 : Nat) : Int) ((0 : Nat) : Int) := by
      rintro ⟨W, hW⟩
      rcases walk_inv hW with ⟨h, _⟩ | ⟨u, w, W1, _, he, _⟩
      · exact absurd h (by decide)
      · obtain ⟨hu0, hu1⟩ := hasEdge_source he
        have hmem := he.2
        have hcases : u = 0 ∨ u = 1 ∨ u = 2 := by
          have : (graph3.adj_list.length : Int) = 3 := rfl
          omega
        rcases hcases with h | h | h <;> subst h <;>
          simp [Graph.edgesOf, graph3] at hmem
    have h1 := (hr0 _ hreach).2 _ (Walk.snoc Walk.nil ⟨by decide, by decide⟩ :
      Walk graph3 ((0 : Nat) : Int) ((1 : Nat) : Int) (0 + 2))
    have h2 := hu1 _ hnot
    have hIM : INT_MAX = 2147483647 := rfl
    omega

/-- The witness of claim C11: the triangle `0 - 1 - 2` with weights 2, 2 and 5
is undirected and its matrix is `[[0, 2, 4], [2, 0, 2], [4, 2, 0]]`. -/
theorem dijkstraAll_symmetric_witness :
    dijkstraAll distHeap graphTriangle = .ok [[0, 2, 4], [2, 0, 2], [4, 2, 0]] ∧
    ((∃ m : List (List Int), dijkstraAll distHeap graphTriangle = .ok m ∧
      m.length = graphTriangle.adj_list.length ∧
      (∀ row ∈ m, row.length = graphTriangle.adj_list.length) ∧
      ∀ i j : Nat, i < graphTriangle.adj_list.length → j < graphTriangle.adj_list.length →
        entryAt m i j = entryAt m j i) ∧
    (∃ m : List (List Int), dijkstraAll distHeap graph3 = .ok m ∧
      entryAt m 0 1 ≠ entryAt m 1 0)) :=
  ⟨by decide, dijkstraAll_symmetric distHeap (listHeap_isMinQueue _) graphTriangle
    (by decide) (by unfold NonNegative; decide) (by decide)⟩

/-- Claim C12 as stated fails: the sentinel `INT_MAX` is not distinguishable
from every real distance.  On the graph with the single edge
`0 → 1` of weight `INT_MAX`, node 1 is reachable from 0 at distance `INT_MAX`,
and its entry in the table is `INT_MAX`, the value that stands for
"unreachable".  On the chain `0 → 1 → 2` with two edges of weight `2^30` the
sum `2^30 + 2^30` wraps and the entry of node 2, which is reachable at
distance `2^31`, is `-2^31`: neither `INT_MAX` nor a non-negative distance. -/
theorem dijkstra_sentinel_collision :
    (NonNegative graphMax ∧ NeighboursInRange graphMax ∧
      dijkstra distHeap graphMax 0 = .ok [0, INT_MAX] ∧
      IsShortestDist graphMax 0 1 INT_MAX) ∧
    (NonNegative graphWrap ∧ NeighboursInRange graphWrap ∧
      dijkstra distHeap graphWrap 0 = .ok [0, 1073741824, -2147483648] ∧
      Walk graphWrap 0 2 2147483648) := by
  refine ⟨⟨by unfold NonNegative; decide, by unfold NeighboursInRange; decide, by decide,
    ?_, ?_⟩, by unfold NonNegative; decide, by unfold NeighboursInRange; decide,
    by decide, ?_⟩
  · exact (Walk.snoc Walk.nil ⟨by decide, by decide⟩ : Walk graphMax 0 1 (0 + INT_MAX))
  · intro W hW
    rcases walk_inv hW with ⟨h, _⟩ | ⟨u, w, W1, hW1, he, hsum⟩
    · exact absurd h (by decide)
    · have h0 := walk_nonneg (by unfold NonNegative; decide) hW1
      obtain ⟨hu0, hu1⟩ := hasEdge_source he
      have hmem := he.2
      have hIM : INT_MAX = 2147483647 := rfl
      have hcases : u = 0 ∨ u = 1 := by
        have : (graphMax.adj_list.length : Int) = 2 := rfl
        omega
      rcases hcases with h | h <;> subst h <;>
        simp [Graph.edgesOf, graphMax] at hmem
      omega
  · have h1 : Walk graphWrap 0 1 (0 + 1073741824) :=
      Walk.snoc Walk.nil ⟨by decide, by decide⟩
    exact (Walk.snoc h1 ⟨by decide, by decide⟩ :
      Walk graphWrap 0 2 (0 + 1073741824 + 1073741824))

/-- Claim C12, amended: on a graph with non-negative weights summing to less
than `INT_MAX`, neighbour ids in `[0, n)` and a start in `[0, n)`, `dijkstra`
returns a table of length `n` whose entry at a node `v` is `INT_MAX` if and
only if `v` is not reachable from the start, every other entry being the
non-negative least total weight of a walk from the start to `v`. -/
theorem dijkstra_sentinel_iff (H : MinHeap (Int × Int)) (hH : IsMinQueue H Prod.snd)
    (g : Graph) (start : Int) (hr : NeighboursInRange g) (hw : NonNegative g)
    (hT : g.totalWeight < INT_MAX) (h0 : 0 ≤ start) (h1 : start < (g.adj_list.length : Int)) :
    ∃ d : List Int, dijkstra H g start = .ok d ∧ d.length = g.adj_list.length ∧
      ∀ v : Int, 0 ≤ v → v < (g.adj_list.length : Int) →
        ∃ x, d[v.toNat]? = some x ∧ (x = INT_MAX ↔ ¬ Reachable g start v) ∧
          (x ≠ INT_MAX → 0 ≤ x ∧ IsShortestDist g start v x) := by
  obtain ⟨d, hrun, hiff, hdist⟩ := dijkstra_final hH hr hw hT h0 h1
  refine ⟨_, hrun, tableToList_length _ _, ?_⟩
  intro v hv0 hv1
  exact ⟨d v, tableToList_getElem? _ d hv0 hv1, hiff v, hdist v⟩

/-- The witness of the amended claim C12: from start 1 of the three-node graph
the table is `[INT_MAX, 0, 2]`; node 0 is the only node not reachable. -/
theorem dijkstra_sentinel_iff_witness :
    dijkstra distHeap graph3 1 = .ok [INT_MAX, 0, 2] ∧
    ∃ d : List Int, dijkstra distHeap graph3 1 = .ok d ∧
      d.length = graph3.adj_list.length ∧
      ∀ v : Int, 0 ≤ v → v < (graph3.adj_list.length : Int) →
        ∃ x, d[v.toNat]? = some x ∧ (x = INT_MAX ↔ ¬ Reachable graph3 1 v) ∧
          (x ≠ INT_MAX → 0 ≤ x ∧ IsShortestDist graph3 1 v x) :=
  ⟨by decide, dijkstra_sentinel_iff distHeap (listHeap_isMinQueue _) graph3 1
    (by unfold NeighboursInRange; decide) (by unfold NonNegative; decide) (by decide)
    (by decide) (by decide)⟩

/-- Claim C13: on a grid of side `n` (an `int`) and for an in-bounds start,
every string that `aStar` returns is the no-path literal `"No path found"` or
is made up only of the letters `U`, `D`, `L`, `R`, and never both, for every
queue, every maze and every goal; and on an `n × n` grid small enough for
`int` arithmetic, with in-bounds start and goal and a min-ordered queue,
`aStar` does return a string. -/
theorem aStar_result_distinguishable (H : MinHeap Node) (maze : List (List Int)) (n : Nat)
    (start goal : Int × Int) (hn : (n : Int) ≤ INT_MAX) (hs : InGrid n start) :
    (∀ r : String, aStar H maze n start goal = .ok r →
      (r = "No path found" ∨ ∀ c ∈ r.toList, IsMoveLetter c) ∧
      ¬ (r = "No path found" ∧ ∀ c ∈ r.toList, IsMoveLetter c)) ∧
    (IsMinQueue H Node.priority → GridFits n → IsGrid maze n → InGrid n goal →
      ∃ r : String, aStar H maze n start goal = .ok r) := by
  constructor
  · intro r hrun
    constructor
    · rcases aStar_valid H hn hs hrun with h | hv
      · exact Or.inl h
      · exact Or.inr (validMoves_replay _ _ _ hv).1
    · rintro ⟨h, hall⟩
      rw [h] at hall
      exact noPath_not_moves hall
  · intro hH hf hg hgl
    obtain ⟨r, hrun, _⟩ := aStar_spec hH hf hg hs hgl
    exact ⟨r, hrun⟩

/-- The witness of claim C13: on the fully walkable 3 × 3 grid the search from
`(0, 0)` to `(2, 2)` returns `RRDD`, letters only; on the grid whose corner
`(2, 2)` is walled off it returns the no-path literal. -/
theorem aStar_result_distinguishable_witness :
    aStar nodeHeap gridOpen3 3 (0, 0) (2, 2) = .ok "RRDD" ∧
    aStar nodeHeap gridIsland3 3 (0, 0) (2, 2) = .ok "No path found" ∧
    ((∀ r : String, aStar nodeHeap gridOpen3 3 (0, 0) (2, 2) = .ok r →
      (r = "No path found" ∨ ∀ c ∈ r.toList, IsMoveLetter c) ∧
      ¬ (r = "No path found" ∧ ∀ c ∈ r.toList, IsMoveLetter c)) ∧
    (IsMinQueue nodeHeap Node.priority → GridFits 3 → IsGrid gridOpen3 3 → InGrid 3 (2, 2) →
      ∃ r : String, aStar nodeHeap gridOpen3 3 (0, 0) (2, 2) = .ok r)) :=
  ⟨by decide, by decide,
    aStar_result_distinguishable nodeHeap gridOpen3 3 (0, 0) (2, 2) (by decide) (by decide)⟩

/-- Claim C17: in the run of `dijkstra` on a graph with non-negative weights
summing to less than `INT_MAX` (neighbour ids and start in `[0, n)`), when an
iteration of the loop marks node `a` visited (its mark is false before the
iteration and true after it), the entry `d[a]` held before the iteration is
already the least total weight of a walk from the start to `a`, and in every
later state of the run the mark of `a` is still set, so that `a` is never
marked a second time, and `d[a]` has that same value. -/
theorem dijkstra_visited_final (H : MinHeap (Int × Int)) (hH : IsMinQueue H Prod.snd)
    (g : Graph) (start : Int) (hr : NeighboursInRange g) (hw : NonNegative g)
    (hT : g.totalWeight < INT_MAX) (h0 : 0 ≤ start) (h1 : start < (g.adj_list.length : Int))
    (k : Nat) (st st1 : DState H.Q) (a : Int)
    (hk : dijkstraIter H g (g.adj_list.length : Int) k (dijkstraInit H start) = some st)
    (hstep : dijkstraStep H g (g.adj_list.length : Int) st = .ok (some st1))
    (hbefore : st.visited a = false) (hafter : st1.visited a = true) :
    IsShortestDist g start a (st.d a) ∧
    ∀ (j : Nat) (st2 : DState H.Q),
      dijkstraIter H g (g.adj_list.length : Int) j st1 = some st2 →
      st2.visited a = true ∧ st2.d a = st.d a := by
  obtain ⟨hI0, hS0, _⟩ := @dijkstraInit_inv H hH g start h0 h1
  obtain ⟨hI, hS⟩ := dijkstraIter_inv hH hw hr hT start k _ st hI0 hS0 hk
  obtain ⟨hI1, hS1⟩ := dijkstraIter_inv hH hw hr hT start (k + 1) _ st1 hI0 hS0
    (dijkstraIter_succ H g _ hk hstep)
  obtain ⟨top, rest, hpop, hta⟩ := (dijkstraStep_visited hstep).2 a hbefore hafter
  have hlaw := hH.pop_some st.mh top rest hpop
  have hmem : top ∈ H.entries st.mh := (hH.mem_pop hpop top).2 (Or.inl rfl)
  have hB : visitedWeight g st.visited < INT_MAX :=
    lt_of_le_of_lt (visitedWeight_le_total hw st.visited) hT
  have hopt := popped_is_final hw hI hS hB hmem hlaw.2 (by rw [hta]; exact hbefore)
  rw [hta] at hopt
  have hfin := (hI.ent top hmem).2.2
  rw [hta] at hfin
  have hshort : IsShortestDist g start a (st.d a) := ⟨(hI.fin a hfin).2.1, hopt⟩
  refine ⟨hshort, ?_⟩
  intro j st2 hj
  have hv2 := dijkstraIter_visited j st1 st2 hj a hafter
  obtain ⟨hI2, _⟩ := dijkstraIter_inv hH hw hr hT start j st1 st2 hI1 hS1 hj
  exact ⟨hv2, isShortestDist_unique (hI2.visited_shortest hv2) hshort⟩

/-- The witness of claim C17: on the three-node graph from start 0, the second
iteration marks node 1, whose entry is then 2, the weight of the edge `0 → 1`. -/
theorem dijkstra_visited_final_witness :
    (runGraph3 1).visited 1 = false ∧ (runGraph3 2).visited 1 = true ∧
    (runGraph3 1).d 1 = 2 ∧
    (IsShortestDist graph3 0 1 ((runGraph3 1).d 1) ∧
      ∀ (j : Nat) (st2 : DState distHeap.Q),
        dijkstraIter distHeap graph3 (graph3.adj_list.length : Int) j (runGraph3 2) = some st2 →
        st2.visited 1 = true ∧ st2.d 1 = (runGraph3 1).d 1) :=
  ⟨by decide, by decide, by decide,
    dijkstra_visited_final distHeap (listHeap_isMinQueue _) graph3 0
      (by unfold NeighboursInRange; decide) (by unfold NonNegative; decide) (by decide)
      (by decide) (by decide) 1 (runGraph3 1) (runGraph3 2) 1 rfl rfl (by decide) (by decide)⟩

/-- Claim C19 as stated fails beyond the range of `int`: on the fully walkable
grid of side 65537, with the start `(0, 0)` and the goal `(65535, 1)` in bounds
and walkable, the first entry popped passes the goal test of line 43 (the id of
the goal wraps to 0, the id of the start), the parent of the goal is still the
no-parent value `{-1, -1}`, and the reconstruction reads it and then indexes
outside the grid. -/
theorem aStar_parent_chain_counterexample :
    IsGrid (gridOpen 65537) 65537 ∧
    InGrid 65537 (0, 0) ∧ Walkable (gridOpen 65537) (0, 0) ∧
    InGrid 65537 (65535, 1) ∧ Walkable (gridOpen 65537) (65535, 1) ∧
    aStarIter nodeHeap (gridOpen 65537) 65537 (65535, 1) 0 (aStarInit nodeHeap 65537 (0, 0)) =
      some (aStarInit nodeHeap 65537 (0, 0)) ∧
    nodeHeap.pop (aStarInit nodeHeap 65537 (0, 0)).mh = some (⟨0, 0⟩, []) ∧
    (0 : Int) = wrapInt (wrapInt (65535 * ((65537 : Nat) : Int)) + 1) ∧
    (aStarInit nodeHeap 65537 (0, 0)).cameFrom (65535, 1) = (-1, -1) ∧
    reconstructPath 65537 (0, 0) (aStarInit nodeHeap 65537 (0, 0)).cameFrom
      (65537 * 65537 + 1) (65535, 1) "" = .error .memoryFault ∧
    ¬ GridFits 65537 := by
  have h0 : InGrid 65537 (0, 0) := by decide
  have h1 : InGrid 65537 (65535, 1) := by decide
  exact ⟨isGrid_gridOpen _, h0, walkable_gridOpen h0, h1, walkable_gridOpen h1, rfl, rfl,
    by decide, rfl, rfl, by decide⟩

/-- Claim C19, amended: on an `n × n` grid with `n * n + 2 * n ≤ INT_MAX`, with
in-bounds start and goal and a min-ordered queue, in every state the loop of
`aStar` reaches, if the entry popped next is that of the goal cell then the
walk over `cameFrom` back from the goal reaches the start: there is a chain of
at most `n * n` in-bounds cells from the goal to the start in which every cell
but the start has a recorded parent other than `{-1, -1}`, one unit move away
from it, and the reconstruction loop returns a move string with one letter per
link of the chain, without any access outside the tables. -/
theorem aStar_parent_chain (H : MinHeap Node) (hH : IsMinQueue H Node.priority)
    (maze : List (List Int)) (n : Nat) (start goal : Int × Int)
    (hn : GridFits n) (hg : IsGrid maze n) (hs : InGrid n start) (hgl : InGrid n goal)
    (k : Nat) (st : AState H.Q) (current : Node) (rest : H.Q)
    (hk : aStarIter H maze n goal k (aStarInit H n start) = some st)
    (hpop : H.pop st.mh = some (current, rest))
    (hid : current.nodeID = wrapInt (wrapInt (goal.1 * n) + goal.2)) :
    ∃ (path : String) (chain : List (Int × Int)),
      reconstructPath n start st.cameFrom (n * n + 1) goal "" = .ok path ∧
      path.length + 1 = chain.length ∧
      chain.head? = some goal ∧ chain.getLast? = some start ∧ chain.length ≤ n * n ∧
      (∀ c ∈ chain, InGrid n c) ∧
      List.Chain' (fun c p => c ≠ start ∧ p = st.cameFrom c ∧ p ≠ (-1, -1) ∧
        GridStep maze n p c) chain := by
  have hinv := aStarIter_inv hH hn hg hgl k _ st (aStarInit_inv hH maze goal hn hs) hk
  have hmem : current ∈ H.entries st.mh := (hH.mem_pop hpop current).2 (Or.inl rfl)
  obtain ⟨c, hc, hcid, hfin, _⟩ := hinv.ent current hmem
  rw [cellId_wrap hn hgl] at hid
  have hceq : c = goal := cellId_inj hc hgl (hcid.symm.trans hid)
  subst hceq
  have hcF := (hinv.fin c hfin).2.2.1
  have hF := finiteCount_le n st.costSoFar
  obtain ⟨r, chain, hrun, hlen, hhead, hlast, hbound, hin, hchain⟩ :=
    parent_chain hinv (n * n + 1) c "" hfin (by push_cast; omega)
  refine ⟨r, chain, hrun, ?_, hhead, hlast, ?_, hin, hchain⟩
  · rw [string_length_toList]
    simpa using hlen
  · have : (chain.length : Int) ≤ ((n * n : Nat) : Int) := by push_cast; omega
    exact_mod_cast this

/-- The witness of the amended claim C19: on the 3 × 3 grid whose middle row is
blocked except in column 0, the search from `(0, 0)` to `(2, 2)` pops the goal
in its seventh iteration, and the parent chain is then
`(2, 2), (2, 1), (2, 0), (1, 0), (0, 0)`. -/
theorem aStar_parent_chain_witness :
    ((runDetour3 6).cameFrom (2, 2) = (2, 1) ∧ (runDetour3 6).cameFrom (2, 1) = (2, 0) ∧
      (runDetour3 6).cameFrom (2, 0) = (1, 0) ∧ (runDetour3 6).cameFrom (1, 0) = (0, 0)) ∧
    ∃ (path : String) (chain : List (Int × Int)),
      reconstructPath 3 (0, 0) (runDetour3 6).cameFrom (3 * 3 + 1) (2, 2) "" = .ok path ∧
      path.length + 1 = chain.length ∧
      chain.head? = some (2, 2) ∧ chain.getLast? = some (0, 0) ∧ chain.length ≤ 3 * 3 ∧
      (∀ c ∈ chain, InGrid 3 c) ∧
      List.Chain' (fun c p => c ≠ (0, 0) ∧ p = (runDetour3 6).cameFrom c ∧ p ≠ (-1, -1) ∧
        GridStep gridDetour3 3 p c) chain :=
  ⟨by decide, aStar_parent_chain nodeHeap (listHeap_isMinQueue _) gridDetour3 3 (0, 0) (2, 2)
    (by decide) (by decide) (by decide) (by decide) 6 (runDetour3 6) ⟨8, 4⟩ [] rfl
    rfl (by decide)⟩

/-- Claim C20 as stated fails in its bound on the entries: on the chain
`0 → 1 → 2` with two edges of weight `2^30`, a graph with non-negative weights
and neighbour ids in range, the sum `2^30 + 2^30` wraps, and the loop ends with
the entry `-2^31` for node 2, below 0. -/
theorem dijkstra_entries_nonneg_counterexample :
    NonNegative graphWrap ∧ NeighboursInRange graphWrap ∧
    ∃ d : List Int, dijkstra distHeap graphWrap 0 = .ok d ∧ ¬ ∀ x ∈ d, 0 ≤ x :=
  ⟨by unfold NonNegative; decide, by unfold NeighboursInRange; decide,
    [0, 1073741824, -2147483648], by decide, by decide⟩

/-- Claim C20, amended: on a graph with non-negative weights and neighbour ids
in `[0, n)`, and for a start in `[0, n)`, the loop of `dijkstra` ends after at
most `edgeCount + 1` iterations in a state whose queue is empty, and `dijkstra`
returns the table of that state.  In every iteration the distances only
decrease and every entry left in the queue was there before or was pushed for
a node whose distance had just strictly decreased.  The entries of `d` are
bounded below by 0 in every state of the run when the weights sum to less than
`INT_MAX`. -/
theorem dijkstra_loop_terminates (H : MinHeap (Int × Int)) (hH : IsMinQueue H Prod.snd)
    (g : Graph) (start : Int) (hr : NeighboursInRange g) (hw : NonNegative g)
    (h0 : 0 ≤ start) (h1 : start < (g.adj_list.length : Int)) :
    (∃ (k : Nat) (st : DState H.Q), k ≤ g.edgeCount + 1 ∧
      dijkstraIter H g (g.adj_list.length : Int) k (dijkstraInit H start) = some st ∧
      dijkstraStep H g (g.adj_list.length : Int) st = .ok none ∧
      H.entries st.mh = [] ∧
      dijkstra H g start = .ok (tableToList g.adj_list.length st.d)) ∧
    (∀ (j : Nat) (sj sj1 : DState H.Q),
      dijkstraIter H g (g.adj_list.length : Int) j (dijkstraInit H start) = some sj →
      dijkstraStep H g (g.adj_list.length : Int) sj = .ok (some sj1) →
      (∀ v, sj1.d v ≤ sj.d v) ∧
      ∀ e ∈ H.entries sj1.mh, e ∈ H.entries sj.mh ∨ (e.2 < sj.d e.1 ∧ sj1.d e.1 ≤ e.2)) ∧
    (g.totalWeight < INT_MAX → ∀ (j : Nat) (sj : DState H.Q),
      dijkstraIter H g (g.adj_list.length : Int) j (dijkstraInit H start) = some sj →
      ∀ v, 0 ≤ sj.d v) := by
  have hsingle := hH.entries_single (start, (0 : Int))
  refine ⟨?_, ?_, ?_⟩
  · obtain ⟨k, st, hk, hiter, hend, hloop⟩ := dijkstraIter_reach hH hr start
      (g.edgeCount + 2) (dijkstraInit H start)
      (by
        intro v hv
        by_cases hvs : v = start
        · rw [hvs]; exact ⟨0, Walk.nil⟩
        · simp only [dijkstraInit, Function.update_noteq hvs] at hv
          exact absurd rfl hv)
      (by
        intro e he
        rw [List.mem_singleton.1 (hsingle.mem_iff.1 he)]
        exact ⟨⟨h0, h1⟩, 0, Walk.nil⟩)
      (by
        simp only [dijkstraInit, pendingEdges_init, hsingle.length_eq, List.length_singleton]
        omega)
    refine ⟨k, st, by omega, hiter, hend, hH.pop_none _ (dijkstraStep_none hend), ?_⟩
    unfold dijkstra
    unfold dijkstraInit at hloop
    simp only [ge_iff_le, not_le.2 h1, if_false, hasNegativeWeight_eq_false hw,
      Bool.false_eq_true, not_lt.2 h0, hloop]
  · intro j sj sj1 _ hstep
    exact dijkstraStep_pushes hH hstep
  · intro hT j sj hj v
    obtain ⟨hI0, hS0, _⟩ := @dijkstraInit_inv H hH g start h0 h1
    obtain ⟨hI, _⟩ := dijkstraIter_inv hH hw hr hT start j _ sj hI0 hS0 hj
    by_cases hfin : sj.d v = INT_MAX
    · rw [hfin]; decide
    · exact walk_nonneg hw (hI.fin v hfin).2.1

/-- The witness of the amended claim C20, on the three-node graph from start 0:
the loop ends after 4 iterations, one for each entry pushed. -/
theorem dijkstra_loop_terminates_witness :
    dijkstraIter distHeap graph3 3 4 (dijkstraInit distHeap 0) = some (runGraph3 4) ∧
    dijkstraStep distHeap graph3 3 (runGraph3 4) = .ok none ∧
    ((∃ (k : Nat) (st : DState distHeap.Q), k ≤ graph3.edgeCount + 1 ∧
      dijkstraIter distHeap graph3 (graph3.adj_list.length : Int) k (dijkstraInit distHeap 0)
        = some st ∧
      dijkstraStep distHeap graph3 (graph3.adj_list.length : Int) st = .ok none ∧
      distHeap.entries st.mh = [] ∧
      dijkstra distHeap graph3 0 = .ok (tableToList graph3.adj_list.length st.d)) ∧
    (∀ (j : Nat) (sj sj1 : DState distHeap.Q),
      dijkstraIter distHeap graph3 (graph3.adj_list.length : Int) j (dijkstraInit distHeap 0)
        = some sj →
      dijkstraStep distHeap graph3 (graph3.adj_list.length : Int) sj = .ok (some sj1) →
      (∀ v, sj1.d v ≤ sj.d v) ∧
      ∀ e ∈ distHeap.entries sj1.mh,
        e ∈ distHeap.entries sj.mh ∨ (e.2 < sj.d e.1 ∧ sj1.d e.1 ≤ e.2)) ∧
    (graph3.totalWeight < INT_MAX → ∀ (j : Nat) (sj : DState distHeap.Q),
      dijkstraIter distHeap graph3 (graph3.adj_list.length : Int) j (dijkstraInit distHeap 0)
        = some sj →
      ∀ v, 0 ≤ sj.d v)) :=
  ⟨rfl, rfl, dijkstra_loop_terminates distHeap (listHeap_isMinQueue _) graph3 0
    (by unfold NeighboursInRange; decide) (by unfold NonNegative; decide) (by decide)
    (by decide)⟩

end ShortestPath

namespace Sorting
open ShortestPath

/-! ## The claims on `mergeSort` and `quickSort` -/

/-- Claim C14: for every vector of ints `arr`, the empty and the one-element
vector included, `mergeSort(arr)` returns a vector that is sorted in
non-decreasing order and is a permutation of `arr`. -/
theorem mergeSort_sorted_perm (arr : List Int) :
    ∃ sorted : List Int, mergeSort arr = .ok sorted ∧ sorted.Sorted (· ≤ ·) ∧
      sorted.Perm arr := by
  obtain ⟨arr1, hrun, hs, hp, _⟩ :=
    doMergeSort_spec arr.length (arr.length + 1) (tableOf arr) 0 ((arr.length : Int) - 1)
      (le_refl _) (by omega) (by push_cast; omega) (Nat.succ_pos _)
  have hlen : ((arr.length : Int) - 1 + 1 - 0).toNat = arr.length := by omega
  rw [hlen] at hs hp
  rw [slice_tableOf] at hp
  refine ⟨tableToList arr.length arr1, ?_, ?_, ?_⟩
  · unfold mergeSort
    simp only [hrun]
  · rw [tableToList_eq_slice]; exact hs
  · rw [tableToList_eq_slice]; exact hp

/-- Claim C15: for every vector of ints `arr` (empty, one element, already
sorted or with repeated values included), `quickSort(arr)` returns a vector
that is sorted in non-decreasing order and is a permutation of `arr`, and every
call `partition(arr, lo, hi)` made on the way has `0 ≤ lo < hi < size` and
accesses the vector only at indices in `[lo, hi]`. -/
theorem quickSort_sorted_perm (arr : List Int) :
    ∃ (sorted : List Int) (calls : List PartitionCall),
      quickSortTrace arr = .ok (sorted, calls) ∧ quickSort arr = .ok sorted ∧
      sorted.Sorted (· ≤ ·) ∧ sorted.Perm arr ∧
      ∀ c ∈ calls, (0 ≤ c.lo ∧ c.lo < c.hi ∧ c.hi < (arr.length : Int)) ∧
        ∀ x ∈ c.used, c.lo ≤ x ∧ x ≤ c.hi := by
  obtain ⟨arr1, calls, hrun, hs, hp, _, hc⟩ :=
    doQuickSort_spec arr.length (arr.length + 1) (tableOf arr) 0 ((arr.length : Int) - 1)
      (le_refl _) (by omega) (by push_cast; omega) (Nat.succ_pos _)
  have hlen : ((arr.length : Int) - 1 + 1 - 0).toNat = arr.length := by omega
  rw [hlen] at hs hp
  rw [slice_tableOf] at hp
  have htrace : quickSortTrace arr = .ok (tableToList arr.length arr1, calls) := by
    unfold quickSortTrace
    simp only [hrun]
  refine ⟨tableToList arr.length arr1, calls, htrace, ?_, ?_, ?_, ?_⟩
  · unfold quickSort
    simp only [htrace]
  · rw [tableToList_eq_slice]; exact hs
  · rw [tableToList_eq_slice]; exact hp
  · intro c hcm
    obtain ⟨⟨ha, hb, hd⟩, he⟩ := hc c hcm
    exact ⟨⟨ha, hb, by omega⟩, he⟩

end Sorting

namespace CoinChange
open ShortestPath

/-! ## The claims on `dpChange` -/

/-- Claim C16 as stated fails at the largest amount: for `qty = INT_MAX` and
the single denomination 1 the amount is a sum of elements of `denom`, but
`IMPOSSIBLE = qty + 1` wraps to `INT_MIN`, the vector `matrix` cannot be
constructed with that size, and `dpChange` returns no vector. -/
theorem dpChange_int_max_counterexample :
    (0 : Int) ≤ 2147483647 ∧ (∀ d ∈ [(1 : Int)], 0 < d) ∧ Representable [1] 2147483647 ∧
    dpChange 2147483647 [1] = .error .lengthError := by
  refine ⟨by decide, by decide, ?_, by decide⟩
  exact_mod_cast representable_one 2147483647

/-- Claim C16, amended: for every `qty` with `0 ≤ qty ≤ INT_MAX - 2` and every
vector `denom` of positive denominations, `dpChange(qty, denom)` returns a
vector; if `qty` is a sum of elements of `denom` (repetition allowed), the
elements of the vector are all members of `denom` and their sum is `qty`; if it
is not, the vector is empty. -/
theorem dpChange_change (qty : Int) (denom : List Int) (h0 : 0 ≤ qty)
    (hq : qty + 2 ≤ INT_MAX) (hpos : ∀ d ∈ denom, 0 < d) :
    ∃ coins : List Int, dpChange qty denom = .ok coins ∧
      (Representable denom qty → (∀ c ∈ coins, c ∈ denom) ∧ coins.sum = qty) ∧
      (¬ Representable denom qty → coins = []) := by
  obtain ⟨m, coins, hinv, hrun, himp, hfin⟩ := dpChange_spec h0 hq hpos
  have hiff := impossible_iff h0 hq hpos hinv
  refine ⟨coins, hrun, ?_, ?_⟩
  · intro hrep
    have hne : (m qty).1 ≠ qty + 1 := fun h => hiff.1 h hrep
    exact ⟨(hfin hne).1, (hfin hne).2.1⟩
  · intro hno
    exact himp (hiff.2 hno)

/-- The witness of the amended claim C16: `dpChange(11, {1, 5, 10})` returns
`{10, 1}`, and `dpChange(7, {2, 4})` returns the empty vector. -/
theorem dpChange_change_witness :
    dpChange 11 [1, 5, 10] = .ok [10, 1] ∧ dpChange 7 [2, 4] = .ok [] ∧
    ∃ coins : List Int, dpChange 11 [1, 5, 10] = .ok coins ∧
      (Representable [1, 5, 10] 11 → (∀ c ∈ coins, c ∈ [1, 5, 10]) ∧ coins.sum = 11) ∧
      (¬ Representable [1, 5, 10] 11 → coins = []) :=
  ⟨by decide, by decide, dpChange_change 11 [1, 5, 10] (by decide) (by decide) (by decide)⟩

/-- Claim C21 as stated fails at the largest amount: `qty = INT_MAX` is a sum
of coins of the single denomination 1, but `dpChange` returns no vector at
all, since the size `qty + 1` of `matrix` wraps to `INT_MIN`. -/
theorem dpChange_minimal_int_max_counterexample :
    Representable [1] 2147483647 ∧ ¬ ∃ coins : List Int, dpChange 2147483647 [1] = .ok coins := by
  refine ⟨by exact_mod_cast representable_one 2147483647, ?_⟩
  rintro ⟨coins, h⟩
  have herr : dpChange 2147483647 [1] = .error .lengthError := by decide
  rw [herr] at h
  exact Except.noConfusion h

/-- Claim C21, amended: for every `qty` with `0 ≤ qty ≤ INT_MAX - 2` and every
vector `denom` of positive denominations, in any order, such that `qty` is a
sum of elements of `denom`, the vector returned by `dpChange(qty, denom)` is
made of elements of `denom` that sum to `qty`, no multiset of elements of
`denom` summing to `qty` has fewer elements than it, and it is the vector
collected by following the tags of the table `matrix` built by the two loops,
its length being `matrix[qty].first`. -/
theorem dpChange_minimal (qty : Int) (denom : List Int) (h0 : 0 ≤ qty)
    (hq : qty + 2 ≤ INT_MAX) (hpos : ∀ d ∈ denom, 0 < d) (hrep : Representable denom qty) :
    ∃ (matrix : Int → Int × Int) (coins : List Int),
      denomLoop qty (qty + 1) denom (denom.length + 1) 0
        (Function.update (fun _ => (qty + 1, -1)) 0 (0, -1)) = .ok matrix ∧
      collectCoins (qty + 1) denom matrix (qty.toNat + 1) qty [] = .ok coins ∧
      dpChange qty denom = .ok coins ∧
      (∀ c ∈ coins, c ∈ denom) ∧ coins.sum = qty ∧
      (∀ s : Multiset Int, (∀ c ∈ s, c ∈ denom) → s.sum = qty →
        coins.length ≤ Multiset.card s) ∧
      (coins.length : Int) = (matrix qty).1 := by
  obtain ⟨m, coins, hinv, hrun, hcol, hdp, hmem, hsum, hlen⟩ := dpChange_run h0 hq hpos hrep
  refine ⟨m, coins, hrun, hcol, hdp, hmem, hsum, ?_, hlen⟩
  intro s hs hssum
  have hle := count_le_length hinv h0 (le_refl _) s.toList
    (fun c hc => hs c (Multiset.mem_toList.1 hc)) (by rw [Multiset.sum_toList]; exact hssum)
  rw [Multiset.length_toList] at hle
  have : (coins.length : Int) ≤ (Multiset.card s : Int) := by omega
  exact_mod_cast this

/-- The witness of the amended claim C21: for the unsorted denominations
`{4, 1, 3}` and the amount 6, `dpChange` returns the two coins `{3, 3}`, where
taking the largest coin first would use three coins, `4 + 1 + 1`. -/
theorem dpChange_minimal_witness :
    dpChange 6 [4, 1, 3] = .ok [3, 3] ∧
    ∃ (matrix : Int → Int × Int) (coins : List Int),
      denomLoop 6 (6 + 1) [4, 1, 3] ([4, 1, 3].length + 1) 0
        (Function.update (fun _ => (6 + 1, -1)) 0 (0, -1)) = .ok matrix ∧
      collectCoins (6 + 1) [4, 1, 3] matrix ((6 : Int).toNat + 1) 6 [] = .ok coins ∧
      dpChange 6 [4, 1, 3] = .ok coins ∧
      (∀ c ∈ coins, c ∈ [4, 1, 3]) ∧ coins.sum = 6 ∧
      (∀ s : Multiset Int, (∀ c ∈ s, c ∈ [4, 1, 3]) → s.sum = 6 →
        coins.length ≤ Multiset.card s) ∧
      (coins.length : Int) = (matrix 6).1 :=
  ⟨by decide, dpChange_minimal 6 [4, 1, 3] (by decide) (by decide) (by decide)
    ⟨[3, 3], by decide, by decide⟩⟩

end CoinChange
